import Mathlib

/-!
# ugrep (p6): pattern trees, the interval matcher and the parser

A shallow embedding of `src/p6/pattern.c` and `src/p6/parse.c`.

* A match table `bool (*table)[len + 1]` is a function `Nat → Nat → Bool`;
  `calloc` gives `zeroTable`, an assignment `table[i][j] = v` is `Table.set`.
* Every `match` method takes the caller's table and returns the table it leaves
  behind (explicit state passing).
* `for` loops with a fixed range are folds over `List.range`; the two loops of the
  repetition matchers whose exit depends on the data (`while ... count++` and
  `for ... j += length`) take a fuel argument and report `Fault.OutOfFuel`
  when it runs out.
* C `int` values are natural numbers here: every index the matchers compute on a
  run without undefined behaviour lies in `0 .. len`, and `count` stays below
  `len + 1` whenever `length ≥ 1`.  When `length = 0` the exit test of the `while`
  loop does not depend on `count` at all.
-/

namespace Ugrep

/-! ## Data model -/

/-- The NUL character that terminates a C string. -/
def NUL : Char := Char.ofNat 0

/-- Ways a run can fail to return a value. -/
inductive Fault where
  /-- The call `invalidPattern()`: message on stderr and `exit( EXIT_FAILURE )`. -/
  | InvalidPattern
  /-- A data-dependent loop did not finish within the fuel given. -/
  | OutOfFuel
  /-- An index left the `( len + 1 ) x ( len + 1 )` table (undefined behaviour in C). -/
  | OutOfBounds
  deriving DecidableEq, Repr

/-- The pattern tree: one constructor per `make...Pattern` function of `pattern.h`. -/
inductive Pattern where
  | Literal (sym : Char)
  | AnyCharacter
  | Starting
  | Ending
  | CharacterClass (characters : List Char)
  | Concatenation (p1 p2 : Pattern)
  | Alternation (p1 p2 : Pattern)
  | NoneOrMoreCharacter (pattern : Pattern)
  | OneOrMoreCharacter (pattern : Pattern)
  | NoneOrOneCharacter (pattern : Pattern)
  deriving DecidableEq, Repr

/-- A match table `bool (*table)[ len + 1 ]`, indexed `[begin][end]`. -/
abbrev Table := Nat → Nat → Bool

/-- The table `calloc` returns: every entry false. -/
def zeroTable : Table := fun _ _ => false

/-- The assignment `table[ i ][ j ] = v`. -/
def Table.set (t : Table) (i j : Nat) (v : Bool) : Table :=
  fun a b => if a = i ∧ b = j then v else t a b

/-- The character `str[ i ]` of a NUL-terminated string: the terminator at the end. -/
def charAt (str : List Char) (i : Nat) : Char := str.getD i NUL

/-- The library function `strchr( s, c ) != NULL`: scans up to and including the
terminator, so the terminator itself is found. -/
def strchr : List Char → Char → Bool
  | [], c => c == NUL
  | x :: xs, c => if x == c then true else if x == NUL then false else strchr xs c

/-- Run `body i` for the indices of `is` in order, threading the table, stopping
at the first fault. -/
def forEach (body : Nat → Table → Except Fault Table) : List Nat → Table → Except Fault Table
  | [], t => .ok t
  | i :: is, t =>
    match body i t with
    | .error f => .error f
    | .ok t1 => forEach body is t1

/-! ## The match methods of `pattern.c` -/

/-- Method `matchLiteralPattern`: marks `[i][i+1]` wherever `str[i] == sym`. -/
def matchLiteralPattern (sym : Char) (str : List Char) (len : Nat) (table : Table) : Table :=
  (List.range len).foldl
    (fun t i => if charAt str i = sym then t.set i (i + 1) true else t) table

/-- Method `matchAnyCharacterPattern`: marks every `[i][i+1]`, `i < len`. -/
def matchAnyCharacterPattern (len : Nat) (table : Table) : Table :=
  (List.range len).foldl (fun t i => t.set i (i + 1) true) table

/-- Method `matchStartingPattern`: `table[ 0 ][ 0 ] = true`. -/
def matchStartingPattern (table : Table) : Table := table.set 0 0 true

/-- Method `matchEndingPattern`: `table[ len ][ len ] = true`. -/
def matchEndingPattern (len : Nat) (table : Table) : Table := table.set len len true

/-- Method `matchCharacterClassPattern`: marks `[i][i+1]` wherever `strchr` finds `str[i]`
among the class characters. -/
def matchCharacterClassPattern (characters : List Char) (str : List Char) (len : Nat)
    (table : Table) : Table :=
  (List.range len).foldl
    (fun t i => if strchr characters (charAt str i) then t.set i (i + 1) true else t) table

/-- The combination loops of `matchConcatenationPattern` (lines 316-325): for
`begin ≤ end ≤ len` and every split `k` in `begin .. end`, mark `[begin][end]`
when `tbl1[begin][k] && tbl2[k][end]`. -/
def concatFill (tbl1 tbl2 : Table) (len : Nat) (table : Table) : Table :=
  (List.range (len + 1)).foldl (fun t begin =>
    (List.range' begin (len + 1 - begin)).foldl (fun t end_ =>
      (List.range' begin (end_ + 1 - begin)).foldl (fun t k =>
        if tbl1 begin k && tbl2 k end_ then t.set begin end_ true else t) t) t) table

/-- Method `matchConcatenationPattern`; `m1`, `m2` are the `match` methods of `p1`, `p2`,
each run on a fresh `calloc` table. -/
def matchConcatenationPattern (m1 m2 : Table → Except Fault Table) (len : Nat)
    (table : Table) : Except Fault Table :=
  match m1 zeroTable with
  | .error f => .error f
  | .ok tbl1 =>
    match m2 zeroTable with
    | .error f => .error f
    | .ok tbl2 => .ok (concatFill tbl1 tbl2 len table)

/-- The assignment loops of `matchAlternationPattern` (lines 394-398): every entry
of `[0..len] x [0..len]` is overwritten with `tbl1 || tbl2`. -/
def alternationFill (tbl1 tbl2 : Table) (len : Nat) (table : Table) : Table :=
  (List.range (len + 1)).foldl (fun t begin =>
    (List.range (len + 1)).foldl (fun t end_ =>
      t.set begin end_ (tbl1 begin end_ || tbl2 begin end_)) t) table

/-- Method `matchAlternationPattern`; `m1`, `m2` are the `match` methods of `p1`, `p2`. -/
def matchAlternationPattern (m1 m2 : Table → Except Fault Table) (len : Nat)
    (table : Table) : Except Fault Table :=
  match m1 zeroTable with
  | .error f => .error f
  | .ok tbl1 =>
    match m2 zeroTable with
    | .error f => .error f
    | .ok tbl2 => .ok (alternationFill tbl1 tbl2 len table)

/-- The loop `while ( end + length * count <= len && tbl[ begin + length * count ]
[ end + length * count ] ) count++` (lines 466-469); returns the final `count`. -/
def countLoop (tbl : Table) (len begin end_ length : Nat) : Nat → Nat → Except Fault Nat
  | 0, _ => .error .OutOfFuel
  | fuel + 1, count =>
    if end_ + length * count ≤ len
        && tbl (begin + length * count) (end_ + length * count) then
      countLoop tbl len begin end_ length fuel (count + 1)
    else .ok count

/-- The loop `for ( int j = begin; j <= begin + length * i; j += length )
table[ j ][ end + length * i ] = true` (lines 471-473), started at `j`. -/
def markLoop (begin end_ length i : Nat) : Nat → Nat → Table → Except Fault Table
  | 0, _, _ => .error .OutOfFuel
  | fuel + 1, j, table =>
    if j ≤ begin + length * i then
      markLoop begin end_ length i fuel (j + length) (table.set j (end_ + length * i) true)
    else .ok table

/-- The body of the `begin`/`end` loops of the repetition matchers (lines 463-475).
A true entry with `end < begin` gives a negative `length`; the `j` loop then steps
downwards from `begin` without ever exceeding its bound and leaves the table, which
is reported as `Fault.OutOfBounds`. -/
def repeatStep (fuel : Nat) (tbl : Table) (len begin end_ : Nat) (table : Table) :
    Except Fault Table :=
  if tbl begin end_ then
    if end_ < begin then .error .OutOfBounds
    else
      match countLoop tbl len begin end_ (end_ - begin) fuel 1 with
      | .error f => .error f
      | .ok count =>
        forEach (fun i t => markLoop begin end_ (end_ - begin) i fuel begin t)
          (List.range count) table
  else .ok table

/-- The nested loops `for begin in 0..len, for end in 0..len` of the repetition
matchers (lines 461-477 and 541-557). -/
def repeatFill (fuel : Nat) (tbl : Table) (len : Nat) (table : Table) : Except Fault Table :=
  forEach (fun begin t =>
    forEach (fun end_ t1 => repeatStep fuel tbl len begin end_ t1) (List.range (len + 1)) t)
    (List.range (len + 1)) table

/-- The loop `for i in 0..len: table[ i ][ i ] = true`. -/
def diagonalFill (len : Nat) (table : Table) : Table :=
  (List.range (len + 1)).foldl (fun t i => t.set i i true) table

/-- Method `matchOneOrMoreCharacterPattern`; `m` is the inner pattern's `match` method, run
once on the fresh `tbl` and once on the caller's `table`. -/
def matchOneOrMoreCharacterPattern (fuel : Nat) (m : Table → Except Fault Table) (len : Nat)
    (table : Table) : Except Fault Table :=
  match m zeroTable with
  | .error f => .error f
  | .ok tbl =>
    match m table with
    | .error f => .error f
    | .ok table1 => repeatFill fuel tbl len table1

/-- Method `matchNoneOrMoreCharacterPattern`: as `matchOneOrMoreCharacterPattern`, then the
diagonal is set. -/
def matchNoneOrMoreCharacterPattern (fuel : Nat) (m : Table → Except Fault Table) (len : Nat)
    (table : Table) : Except Fault Table :=
  match m zeroTable with
  | .error f => .error f
  | .ok tbl =>
    match m table with
    | .error f => .error f
    | .ok table1 =>
      match repeatFill fuel tbl len table1 with
      | .error f => .error f
      | .ok table2 => .ok (diagonalFill len table2)

/-- Method `matchNoneOrOneCharacterPattern`: the inner match on the caller's table, then
the diagonal is set. -/
def matchNoneOrOneCharacterPattern (m : Table → Except Fault Table) (len : Nat)
    (table : Table) : Except Fault Table :=
  match m table with
  | .error f => .error f
  | .ok table1 => .ok (diagonalFill len table1)

/-- The virtual call `pat->match( pat, str, len, table )`: dispatch on the node. -/
def matchPattern (fuel : Nat) : Pattern → List Char → Nat → Table → Except Fault Table
  | .Literal sym, str, len, table => .ok (matchLiteralPattern sym str len table)
  | .AnyCharacter, _, len, table => .ok (matchAnyCharacterPattern len table)
  | .Starting, _, _, table => .ok (matchStartingPattern table)
  | .Ending, _, len, table => .ok (matchEndingPattern len table)
  | .CharacterClass cs, str, len, table => .ok (matchCharacterClassPattern cs str len table)
  | .Concatenation p1 p2, str, len, table =>
    matchConcatenationPattern (matchPattern fuel p1 str len) (matchPattern fuel p2 str len)
      len table
  | .Alternation p1 p2, str, len, table =>
    matchAlternationPattern (matchPattern fuel p1 str len) (matchPattern fuel p2 str len)
      len table
  | .NoneOrMoreCharacter p, str, len, table =>
    matchNoneOrMoreCharacterPattern fuel (matchPattern fuel p str len) len table
  | .OneOrMoreCharacter p, str, len, table =>
    matchOneOrMoreCharacterPattern fuel (matchPattern fuel p str len) len table
  | .NoneOrOneCharacter p, str, len, table =>
    matchNoneOrOneCharacterPattern (matchPattern fuel p str len) len table

/-- The table of a pattern on a line: its `match` method run on a `calloc` table,
as `main` does (ugrep.c lines 81-82). -/
def tableOf (fuel : Nat) (p : Pattern) (str : List Char) (len : Nat) : Except Fault Table :=
  matchPattern fuel p str len zeroTable

/-- Read entry `[b][e]` of a match result, if the match returned. -/
def entry (r : Except Fault Table) (b e : Nat) : Option Bool :=
  match r with
  | .error _ => none
  | .ok t => some (t b e)

/-! ## The parser of `parse.c`

A pattern string is a NUL-terminated C string: `charAt str pos` is `str[ pos ]`, the
terminator once `pos` reaches the end.  Each parse function returns the pattern and
the new value of `*pos`.  `invalidPattern()` ends the run with
`Fault.InvalidPattern`.  `fuel` bounds the nesting depth of groups and the iterations
of each loop; `parsePattern` supplies `str.length + 2`. -/

/-- The eleven characters of the string literal in `ordinary`. -/
def specialChars : List Char := ['.', '^', '$', '*', '?', '+', '|', '(', ')', '[', '{']

/-- Function `ordinary`: false iff `strchr` finds `c` in the list of special characters. -/
def ordinary (c : Char) : Bool := !(strchr specialChars c)

/-- Result of a parse function: the pattern and the updated `*pos`. -/
abbrev Parsed := Except Fault (Pattern × Nat)

/-- The loop `while ( str[ *pos ] && str[ *pos ] != ']' ) { (*pos)++; len++; }`
(parse.c lines 72-75); returns the final `*pos`. -/
def classLoop (str : List Char) : Nat → Nat → Except Fault Nat
  | 0, _ => .error .OutOfFuel
  | fuel + 1, pos =>
    if charAt str pos ≠ NUL ∧ charAt str pos ≠ ']' then classLoop str fuel (pos + 1)
    else .ok pos

/-- Function `parseAtomicPattern`; `alt` is `parseAlternation` on the same string
(the forward declaration), called for a parenthesised group. -/
def parseAtomicPattern (alt : Nat → Parsed) (fuel : Nat) (str : List Char) (pos : Nat) :
    Parsed :=
  if ordinary (charAt str pos) then .ok (.Literal (charAt str pos), pos + 1)
  else if charAt str pos = '.' then .ok (.AnyCharacter, pos + 1)
  else if charAt str pos = '^' then .ok (.Starting, pos + 1)
  else if charAt str pos = '$' then .ok (.Ending, pos + 1)
  else if charAt str pos = '[' then
    match classLoop str fuel (pos + 1) with
    | .error f => .error f
    | .ok pos1 =>
      if charAt str pos1 = NUL then .error .InvalidPattern
      else
        .ok (.CharacterClass ((List.range' (pos + 1) (pos1 - (pos + 1))).map (charAt str)),
          pos1 + 1)
  else if charAt str pos = '(' then
    match alt (pos + 1) with
    | .error f => .error f
    | .ok (p, pos1) =>
      if charAt str pos1 ≠ ')' then .error .InvalidPattern else .ok (p, pos1 + 1)
  else .error .InvalidPattern

/-- Function `parseRepetition`: an atom and at most one of `*`, `+`, `?`. -/
def parseRepetition (alt : Nat → Parsed) (fuel : Nat) (str : List Char) (pos : Nat) :
    Parsed :=
  match parseAtomicPattern alt fuel str pos with
  | .error f => .error f
  | .ok (p, pos1) =>
    if charAt str pos1 = '*' then .ok (.NoneOrMoreCharacter p, pos1 + 1)
    else if charAt str pos1 = '+' then .ok (.OneOrMoreCharacter p, pos1 + 1)
    else if charAt str pos1 = '?' then .ok (.NoneOrOneCharacter p, pos1 + 1)
    else .ok (p, pos1)

/-- The `while` loop of `parseConcatenation` (parse.c lines 154-159), entered with
`p1` and `*pos`. -/
def concatenationLoop (alt : Nat → Parsed) (fuel : Nat) (str : List Char) :
    Nat → Pattern → Nat → Parsed
  | 0, _, _ => .error .OutOfFuel
  | n + 1, p1, pos =>
    if charAt str pos ≠ NUL ∧ charAt str pos ≠ '|' ∧ charAt str pos ≠ ')' then
      match parseRepetition alt fuel str pos with
      | .error f => .error f
      | .ok (p2, pos1) => concatenationLoop alt fuel str n (.Concatenation p1 p2) pos1
    else .ok (p1, pos)

/-- Function `parseConcatenation`. -/
def parseConcatenation (alt : Nat → Parsed) (fuel : Nat) (str : List Char) (pos : Nat) :
    Parsed :=
  match parseRepetition alt fuel str pos with
  | .error f => .error f
  | .ok (p1, pos1) => concatenationLoop alt fuel str fuel p1 pos1

/-- The `while` loop of `parseAlternation` (parse.c lines 180-184), entered with
`p1` and `*pos`. -/
def alternationLoop (alt : Nat → Parsed) (fuel : Nat) (str : List Char) :
    Nat → Pattern → Nat → Parsed
  | 0, _, _ => .error .OutOfFuel
  | n + 1, p1, pos =>
    if charAt str pos = '|' then
      match parseConcatenation alt fuel str (pos + 1) with
      | .error f => .error f
      | .ok (p2, pos1) => alternationLoop alt fuel str n (.Alternation p1 p2) pos1
    else .ok (p1, pos)

/-- Function `parseAlternation`.  A group inside recurses with one unit of fuel less. -/
def parseAlternation : Nat → List Char → Nat → Parsed
  | 0, _, _ => .error .OutOfFuel
  | fuel + 1, str, pos =>
    match parseConcatenation (parseAlternation fuel str) (fuel + 1) str pos with
    | .error f => .error f
    | .ok (p1, pos1) =>
      alternationLoop (parseAlternation fuel str) (fuel + 1) str (fuel + 1) p1 pos1

/-- Function `parsePattern`: parse from position 0 and reject unconsumed input. -/
def parsePattern (str : List Char) : Except Fault Pattern :=
  match parseAlternation (str.length + 2) str 0 with
  | .error f => .error f
  | .ok (pat, pos) => if charAt str pos ≠ NUL then .error .InvalidPattern else .ok pat

/-! ## The driver of `ugrep.c`: printing one line

What `main` writes for one input line, from the match table of that line.  The
output is the list of things passed to `printf`, in order: the escape sequence `RED`,
the escape sequence `DEFAULT`, or one character (`"%c"`, and `"\n"` at the end). -/

/-- One `printf` of `main`: `printf( RED )`, `printf( DEFAULT )` or one character. -/
inductive Out where
  | RED
  | DEFAULT
  | chr (c : Char)
  deriving DecidableEq, Repr

/-- The loops that set `foundMatch` (ugrep.c lines 84-95): some `table[begin][end]`
with `begin ≤ end ≤ length` is true. -/
def foundMatch (table : Table) (length : Nat) : Bool :=
  (List.range (length + 1)).any fun begin =>
    (List.range' begin (length + 1 - begin)).any fun end_ => table begin end_

/-- The characters printed by `for ( int i = begin; i < end; i++ ) printf( "%c",
string[ i ] )` (ugrep.c lines 102-105). -/
def printSpan (string : List Char) (begin end_ : Nat) : List Out :=
  (List.range' begin (end_ - begin)).map fun i => Out.chr (charAt string i)

/-- The loop `for ( int end = length; end >= begin; end-- )` (ugrep.c lines 99-108),
entered with `end = k - 1` (so `k = 0` is `end = -1`).  It returns the value of `begin`
and the output when the loop is left; `begin = end` is executed by the first
iteration of the `i` loop, that is when `begin < end`. -/
def endLoop (table : Table) (string : List Char) : Nat → Nat → List Out → Nat × List Out
  | 0, begin, out => (begin, out)
  | e + 1, begin, out =>
    if begin ≤ e then
      if table begin e then
        endLoop table string e (if begin < e then e else begin)
          (out ++ [Out.RED] ++ printSpan string begin e ++ [Out.DEFAULT])
      else endLoop table string e begin out
    else (begin, out)

/-- The loop `for ( int begin = 0; begin <= length; begin++ )` (ugrep.c lines 98-112),
entered with `begin` and the output so far. -/
def beginLoop (table : Table) (string : List Char) (length : Nat) :
    Nat → Nat → List Out → Except Fault (List Out)
  | 0, _, _ => .error .OutOfFuel
  | fuel + 1, begin, out =>
    if begin ≤ length then
      let r := endLoop table string (length + 1) begin out
      beginLoop table string length fuel (r.1 + 1)
        (if charAt string r.1 ≠ NUL then r.2 ++ [Out.chr (charAt string r.1)] else r.2)
    else .ok out

/-- What `main` prints for a line with its match table (ugrep.c lines 84-114): nothing
when there is no match, else the rendered line and a newline.  `begin` grows in every
iteration, so `length + 2` units of fuel are enough. -/
def printLine (table : Table) (string : List Char) (length : Nat) : Except Fault (List Out) :=
  if foundMatch table length then
    match beginLoop table string length (length + 2) 0 [] with
    | .error f => .error f
    | .ok out => .ok (out ++ [Out.chr '\n'])
  else .ok []

/-- The body of the `while` loop of `main` for one line that was read (ugrep.c lines
78-114): parse the pattern, match the line, print it. -/
def grepLine (fuel : Nat) (patternString : List Char) (string : List Char) :
    Except Fault (List Out) :=
  match parsePattern patternString with
  | .error f => .error f
  | .ok pattern =>
    match tableOf fuel pattern string string.length with
    | .error f => .error f
    | .ok table => printLine table string string.length

/-! ## The driver of `ugrep.c`: reading one line

The input file is the list of the characters not yet read.  What the head of the
`while` loop of `main` (ugrep.c lines 62-76) does with it is one of four things. -/

/-- The constant `MAX_LINE_LENGTH`. -/
def MAX_LINE_LENGTH : Nat := 100

/-- The outcome of reading one line. -/
inductive Line where
  /-- The call `fscanf( fp, "%100[^\n]", string )` did not return 1: the loop ends. -/
  | endOfInput
  /-- The message `Input line too long` and `exit( EXIT_FAILURE )`. -/
  | tooLong
  /-- The line that goes to the matcher, and the input left for the next round. -/
  | line (string : List Char) (rest : List Char)
  /-- The input ended before a newline: `ch` is used uninitialised, or `fgetc` returns
  `EOF` for ever and the discarding loop does not end. -/
  | unterminated
  deriving DecidableEq, Repr

/-- The conversion `%100[^\n]` of `fscanf`, for a given width: the longest run of at
most `width` characters other than newline at the head of the input, and the input
left. -/
def scanLine : Nat → List Char → List Char × List Char
  | 0, input => ([], input)
  | _ + 1, [] => ([], [])
  | width + 1, c :: rest =>
    if c = '\n' then ([], c :: rest)
    else (c :: (scanLine width rest).1, (scanLine width rest).2)

/-- The library function `strlen`: the number of characters before the first NUL. -/
def strlen (string : List Char) : Nat := (string.takeWhile fun c => c != NUL).length

/-- The loop `while ( discard != '\n' ) discard = fgetc( fp )` (ugrep.c lines 73-76),
entered with `discard` and the input: the input left when the loop ends, `none` when the
input runs out first. -/
def discardLoop : List Char → Char → Option (List Char)
  | [], discard => if discard = '\n' then some [] else none
  | c :: rest, discard => if discard = '\n' then some (c :: rest) else discardLoop rest c

/-- The head of the `while` loop of `main` (ugrep.c lines 62-76).  A scan of 100
characters stores the terminator at `string[ 100 ]`, one past the end of the array; the
line is taken as if the array had room for it. -/
def readLine (input : List Char) : Line :=
  if (scanLine MAX_LINE_LENGTH input).1 = [] then .endOfInput
  else
    match (scanLine MAX_LINE_LENGTH input).2 with
    | [] => .unterminated
    | ch :: rest =>
      if strlen (scanLine MAX_LINE_LENGTH input).1 = MAX_LINE_LENGTH then .tooLong
      else
        match discardLoop rest ch with
        | none => .unterminated
        | some rest1 =>
          .line ((scanLine MAX_LINE_LENGTH input).1.take
            (strlen (scanLine MAX_LINE_LENGTH input).1)) rest1

/-! ## Specification vocabulary -/

/-- `F` only ever adds the marks `S` to the table it is given. -/
def Marks (F : Table → Table) (S : Nat → Nat → Prop) : Prop :=
  ∀ t x y, F t x y = true ↔ (t x y = true ∨ S x y)

/-- `F` overwrites the entries of `D` with the values of `v` and leaves the rest. -/
def Assigns (F : Table → Table) (D : Nat → Nat → Prop) (v : Table) : Prop :=
  ∀ t x y, (D x y → F t x y = v x y) ∧ (¬ D x y → F t x y = t x y)

/-- The exit test of the `while` loop of the repetition matchers at `count = m`. -/
def RepeatCond (tbl : Table) (len begin end_ length m : Nat) : Prop :=
  end_ + length * m ≤ len ∧ tbl (begin + length * m) (end_ + length * m) = true

instance (tbl : Table) (len begin end_ length m : Nat) :
    Decidable (RepeatCond tbl len begin end_ length m) := by
  unfold RepeatCond; infer_instance

/-- The entries `[x][y]` that the body of the repetition loops marks for the pair
`(begin, end)`: `y = end + length * i` for an `i` below the final `count`, and `x` a
position `begin + length * s` not beyond `begin + length * i`. -/
def RepeatMark (tbl : Table) (len begin end_ x y : Nat) : Prop :=
  tbl begin end_ = true ∧ begin ≤ end_ ∧
    ∃ i s, (∀ m, 1 ≤ m → m ≤ i → RepeatCond tbl len begin end_ (end_ - begin) m) ∧
      y = end_ + (end_ - begin) * i ∧ x = begin + (end_ - begin) * s ∧
      x ≤ begin + (end_ - begin) * i

/-- `F`, whenever it returns, has added exactly the marks `S`. -/
def MarksP (F : Table → Except Fault Table) (S : Nat → Nat → Prop) : Prop :=
  ∀ t t1, F t = .ok t1 → ∀ x y, t1 x y = true ↔ (t x y = true ∨ S x y)

/-- `F` returns a table on every input. -/
def Returns (F : Table → Except Fault Table) : Prop :=
  ∀ t, ∃ t1, F t = .ok t1

/-- Every true entry `[b][e]` of the table has `b ≤ e ≤ len`. -/
def Upper (len : Nat) (t : Table) : Prop :=
  ∀ b e, t b e = true → b ≤ e ∧ e ≤ len

/-- No diagonal entry `[i][i]`, `0 ≤ i ≤ len`, of the table is true. -/
def NoDiagonal (len : Nat) (t : Table) : Prop :=
  ∀ i, i ≤ len → t i i = false

/-- The interval `[b,e)` splits into zero or more consecutive pieces, each of which
is a true entry of `tp`. -/
inductive Splits (tp : Table) : Nat → Nat → Prop where
  | done (b : Nat) : Splits tp b b
  | step (b k e : Nat) : tp b k = true → Splits tp k e → Splits tp b e

/-- The left-nested concatenation `((p c1) c2) ... cn` of `p` with the literals of `w`:
what the loop of `parseConcatenation` builds from ordinary characters. -/
def literalChain (p : Pattern) (w : List Char) : Pattern :=
  w.foldl (fun q c => .Concatenation q (.Literal c)) p

/-- The characters of `w` stand in `text` from position `b` on and end at `e`, inside
a line of length `len`. -/
def litsAt (text : List Char) (len : Nat) : List Char → Nat → Nat → Prop
  | [], b, e => b = e
  | c :: cs, b, e => b < len ∧ charAt text b = c ∧ litsAt text len cs (b + 1) e

/-- The pattern `C(w)` for a word `w` of ordinary characters: the left-nested
concatenation of its literals (defined for non-empty `w`). -/
def literalWord : List Char → Pattern
  | [] => .Literal NUL
  | c :: cs => literalChain (.Literal c) cs

/-- The string `"|" ++ v1 ++ "|" ++ v2 ++ ...` that continues an alternation. -/
def barJoin : List (List Char) → List Char
  | [] => []
  | v :: vs => '|' :: (v ++ barJoin vs)

/-- Move the position of a parse result one character to the right: the result on
`c :: str` of a parse that started one position later. -/
def bump : Parsed → Parsed
  | .error f => .error f
  | .ok (p, pos) => .ok (p, pos + 1)

/-- Every `[` at a position in `[a, b)` has a `]` at a later position in `[a, b)`. -/
def Closed (str : List Char) (a b : Nat) : Prop :=
  ∀ i, a ≤ i → i < b → charAt str i = '[' → ∃ j, i < j ∧ j < b ∧ charAt str j = ']'

/-- What every parse function started at `pos` delivers: on success it has consumed at
least one character, stays inside the string and has consumed a closing `]` after
every `[`; a failure is `invalidPattern()`. -/
def GoodParse (str : List Char) (pos : Nat) : Parsed → Prop
  | .ok (_, pos1) => pos < pos1 ∧ pos1 ≤ str.length ∧ Closed str pos pos1
  | .error f => f = .InvalidPattern

/-- The character before position `q` ends an atom: it is neither `|` nor one of the
quantifiers `*`, `+`, `?`. -/
def AtomEnd (str : List Char) (q : Nat) : Prop :=
  0 < q ∧ charAt str (q - 1) ≠ '|' ∧ charAt str (q - 1) ≠ '*' ∧ charAt str (q - 1) ≠ '+' ∧
    charAt str (q - 1) ≠ '?'

/-- The character before position `q` may end a parse: it is not `|`, and when it is a
quantifier the character before it is not one. -/
def EndsWell (str : List Char) (q : Nat) : Prop :=
  0 < q ∧ charAt str (q - 1) ≠ '|' ∧
    ((charAt str (q - 1) = '*' ∨ charAt str (q - 1) = '+' ∨ charAt str (q - 1) = '?') →
      1 < q ∧ charAt str (q - 2) ≠ '*' ∧ charAt str (q - 2) ≠ '+' ∧ charAt str (q - 2) ≠ '?')

/-- The string `str2` continues `str1`: they agree before position `L`, where `str1`
has no NUL; at `L` the first string ends and the second ends too or has a `)`. -/
def Continues (str1 str2 : List Char) (L : Nat) : Prop :=
  (∀ i, i < L → charAt str2 i = charAt str1 i ∧ charAt str1 i ≠ NUL) ∧
    charAt str1 L = NUL ∧ (charAt str2 L = NUL ∨ charAt str2 L = ')')

/-- The largest `e` with `begin ≤ e < k` and `table[begin][e]` true, if there is one:
what the scan `for ( int end = length; end >= begin; end-- )` meets first. -/
def longest (table : Table) (begin : Nat) : Nat → Option Nat
  | 0 => none
  | e + 1 => if begin ≤ e then (if table begin e then some e else longest table begin e) else none

/-- The character `string[ p ]`, printed unless it is the terminator. -/
def plainAt (string : List Char) (p : Nat) : List Out :=
  if charAt string p ≠ NUL then [Out.chr (charAt string p)] else []

/-- One iteration of the `begin` loop entered at `begin`: the value of `begin` at the
end of the body and what the body printed. -/
def lineStep (table : Table) (string : List Char) (length begin : Nat) : Nat × List Out :=
  match longest table begin (length + 1) with
  | none => (begin, plainAt string begin)
  | some e => (e, [Out.RED] ++ printSpan string begin e ++ [Out.DEFAULT] ++ plainAt string e)

/-- Everything the `begin` loop prints from `begin` on. -/
def renderFrom (table : Table) (string : List Char) (length : Nat) : Nat → Nat → List Out
  | 0, _ => []
  | fuel + 1, begin =>
    if begin ≤ length then
      (lineStep table string length begin).2 ++
        renderFrom table string length fuel ((lineStep table string length begin).1 + 1)
    else []

/-- The cursor rendering as the specification words it (section 4.3): at cursor `p`,
scan `e` from `len` down to `p`; if `table[p][e]` is true for some `e > p`, emit
`text[p..e)` between the highlight markers and move the cursor to `e`; otherwise emit
`text[p]` plain and move the cursor to `p + 1`; repeat until the cursor reaches `len`. -/
def specCursorRendering (table : Table) (text : List Char) (len : Nat) : Nat → Nat → List Out
  | 0, _ => []
  | fuel + 1, p =>
    if p < len then
      match longest table p (len + 1) with
      | some e =>
        if p < e then
          [Out.RED] ++ printSpan text p e ++ [Out.DEFAULT] ++
            specCursorRendering table text len fuel e
        else Out.chr (charAt text p) :: specCursorRendering table text len fuel (p + 1)
      | none => Out.chr (charAt text p) :: specCursorRendering table text len fuel (p + 1)
    else []

/-- The highlighted spans of an output, read off the markers: a span `(p, e)` for every
`RED` ... `DEFAULT` pair, `p` and `e` being the number of characters printed before
the `RED` and before the `DEFAULT`.  `pos` counts the characters so far, `st` holds
the start of the span that is open. -/
def spansFrom : List Out → Nat → Option Nat → List (Nat × Nat)
  | [], _, _ => []
  | .RED :: rest, pos, _ => spansFrom rest pos (some pos)
  | .DEFAULT :: rest, pos, some s => (s, pos) :: spansFrom rest pos none
  | .DEFAULT :: rest, pos, none => spansFrom rest pos none
  | .chr _ :: rest, pos, st => spansFrom rest (pos + 1) st

/-- The highlighted spans of a whole output line. -/
def highlightedSpans (out : List Out) : List (Nat × Nat) := spansFrom out 0 none

/-- The line with every maximal run of the character `c` between the highlight markers
and every other character plain; the flag tells whether a run is open. -/
def highlightRuns (c : Char) : Bool → List Char → List Out
  | false, [] => []
  | true, [] => [Out.DEFAULT]
  | false, x :: xs =>
    if x = c then Out.RED :: Out.chr x :: highlightRuns c true xs
    else Out.chr x :: highlightRuns c false xs
  | true, x :: xs =>
    if x = c then Out.chr x :: highlightRuns c true xs
    else Out.DEFAULT :: Out.chr x :: highlightRuns c false xs

/-- The pattern is built only from `Literal`, `AnyCharacter`, `CharacterClass`,
`Concatenation`, `Alternation` and `OneOrMoreCharacter`. -/
def nonEmptyOnly : Pattern → Bool
  | .Literal _ => true
  | .AnyCharacter => true
  | .CharacterClass _ => true
  | .Concatenation p1 p2 => nonEmptyOnly p1 && nonEmptyOnly p2
  | .Alternation p1 p2 => nonEmptyOnly p1 && nonEmptyOnly p2
  | .OneOrMoreCharacter p => nonEmptyOnly p
  | .Starting => false
  | .Ending => false
  | .NoneOrMoreCharacter _ => false
  | .NoneOrOneCharacter _ => false

/-- The text of an output: what is left when the escape sequences `RED` and `DEFAULT`
are deleted. -/
def textOf : List Out → List Char
  | [] => []
  | .RED :: rest => textOf rest
  | .DEFAULT :: rest => textOf rest
  | .chr c :: rest => c :: textOf rest

/-- Standard regular-expression semantics on a text of length `len`: the piece `[b,e)`
of the text, standing at that place, matches the pattern.  A literal, `.` and a class
match one fitting character; the anchors match the empty piece at 0 and at `len`; a
concatenation splits the piece; an alternation matches with either side; `?` matches the
empty piece or the inner pattern; `*` and `+` match zero, respectively one, or more
consecutive inner matches. -/
inductive Matches (str : List Char) (len : Nat) : Pattern → Nat → Nat → Prop where
  | literal (c : Char) (b : Nat) : b < len → charAt str b = c →
      Matches str len (.Literal c) b (b + 1)
  | anyCharacter (b : Nat) : b < len → Matches str len .AnyCharacter b (b + 1)
  | characterClass (cs : List Char) (b : Nat) : b < len → charAt str b ∈ cs →
      Matches str len (.CharacterClass cs) b (b + 1)
  | starting : Matches str len .Starting 0 0
  | ending : Matches str len .Ending len len
  | concatenation (p1 p2 : Pattern) (b k e : Nat) : Matches str len p1 b k →
      Matches str len p2 k e → Matches str len (.Concatenation p1 p2) b e
  | alternationLeft (p1 p2 : Pattern) (b e : Nat) : Matches str len p1 b e →
      Matches str len (.Alternation p1 p2) b e
  | alternationRight (p1 p2 : Pattern) (b e : Nat) : Matches str len p2 b e →
      Matches str len (.Alternation p1 p2) b e
  | noneOrOneEmpty (p : Pattern) (b : Nat) : b ≤ len →
      Matches str len (.NoneOrOneCharacter p) b b
  | noneOrOneInner (p : Pattern) (b e : Nat) : Matches str len p b e →
      Matches str len (.NoneOrOneCharacter p) b e
  | noneOrMoreEmpty (p : Pattern) (b : Nat) : b ≤ len →
      Matches str len (.NoneOrMoreCharacter p) b b
  | noneOrMoreStep (p : Pattern) (b k e : Nat) : Matches str len p b k →
      Matches str len (.NoneOrMoreCharacter p) k e →
      Matches str len (.NoneOrMoreCharacter p) b e
  | oneOrMoreOne (p : Pattern) (b e : Nat) : Matches str len p b e →
      Matches str len (.OneOrMoreCharacter p) b e
  | oneOrMoreStep (p : Pattern) (b k e : Nat) : Matches str len p b k →
      Matches str len (.OneOrMoreCharacter p) k e →
      Matches str len (.OneOrMoreCharacter p) b e

/-- No `NoneOrMoreCharacter` or `OneOrMoreCharacter` node of the pattern has an inner
pattern whose table, on this text, has a true diagonal entry. -/
def Tame (fuel : Nat) (str : List Char) (len : Nat) : Pattern → Prop
  | .Literal _ => True
  | .AnyCharacter => True
  | .Starting => True
  | .Ending => True
  | .CharacterClass _ => True
  | .Concatenation p1 p2 => Tame fuel str len p1 ∧ Tame fuel str len p2
  | .Alternation p1 p2 => Tame fuel str len p1 ∧ Tame fuel str len p2
  | .NoneOrMoreCharacter p =>
    Tame fuel str len p ∧ ∀ t, tableOf fuel p str len = .ok t → NoDiagonal len t
  | .OneOrMoreCharacter p =>
    Tame fuel str len p ∧ ∀ t, tableOf fuel p str len = .ok t → NoDiagonal len t
  | .NoneOrOneCharacter p => Tame fuel str len p

end Ugrep

/-!
# sudoku (p2): the validators and the solver

A shallow embedding of `src/p2/validate.c` and `src/p2/solve.c`.

* The array `int grid[ size ][ size ]` is a function `Nat → Nat → Int`; the code reads it
  only at indices below `size` (for the squares: when `n` divides `size`).
* A loop over a fixed range is a recursion over the list of its index values, in order;
  `return false` inside nested loops makes the whole function false.
* The `while` loop and the `for` loop of `solve`, which moves `blankIndex` both ways, take
  a fuel argument and report `Fault.OutOfFuel` when it runs out.
* Cell values are unbounded integers: on the runs evaluated below no cell exceeds
  `size + 1`, far from the overflow of a C `int`.
-/

namespace Sudoku

/-- The array `int grid[ size ][ size ]`, read at `grid[ rowIndex ][ columnIndex ]`. -/
abbrev Grid := Nat → Nat → Int

/-- The digits `1 .. size` of the loops `for ( int digit = 1; digit <= size; digit++ )`. -/
def digits (size : Nat) : List Int := (List.range' 1 size).map Int.ofNat

/-- The column loop of `validateRows` (validate.c lines 18-24) for one row and digit, over
the columns still to visit: `true` when the loop is left by `break` (or runs to its end),
`false` when it reaches `return false`. -/
def scanRow (size : Nat) (grid : Grid) (rowIndex : Nat) (digit : Int) : List Nat → Bool
  | [] => true
  | columnIndex :: rest =>
    if grid rowIndex columnIndex = digit then true
    else if columnIndex = size - 1 then false
    else scanRow size grid rowIndex digit rest

/-- The function `validateRows` (validate.c lines 14-28): `return false` leaves all three
loops at once, so the result is the conjunction over the rows and digits. -/
def validateRows (size : Nat) (grid : Grid) : Bool :=
  (List.range size).all fun rowIndex =>
    (digits size).all fun digit => scanRow size grid rowIndex digit (List.range size)

/-- The row loop of `validateCols` (validate.c lines 34-40) for one column and digit. -/
def scanCol (size : Nat) (grid : Grid) (columnIndex : Nat) (digit : Int) : List Nat → Bool
  | [] => true
  | rowIndex :: rest =>
    if grid rowIndex columnIndex = digit then true
    else if rowIndex = size - 1 then false
    else scanCol size grid columnIndex digit rest

/-- The function `validateCols` (validate.c lines 30-44). -/
def validateCols (size : Nat) (grid : Grid) : Bool :=
  (List.range size).all fun columnIndex =>
    (digits size).all fun digit => scanCol size grid columnIndex digit (List.range size)

/-- The values of `for ( int i = 0; i < size; i += n )` for `n ≥ 1`. -/
def subgridStarts (n size : Nat) : List Nat :=
  (List.range ((size + n - 1) / n)).map fun k => k * n

/-- The column loop of `validateSquares` (validate.c lines 54-64) for one row of a square:
`some true` is `found = true; break`, `some false` is `return false`, `none` is the loop
running to its end. -/
def scanSquareRow (grid : Grid) (digit : Int) (rowIndex lastRow lastColumn : Nat) :
    List Nat → Option Bool
  | [] => none
  | columnIndex :: rest =>
    if grid rowIndex columnIndex = digit then some true
    else if rowIndex = lastRow ∧ columnIndex = lastColumn then some false
    else scanSquareRow grid digit rowIndex lastRow lastColumn rest

/-- The row loop of `validateSquares` (validate.c lines 52-68) for one square and digit:
`false` when `return false` is reached. -/
def scanSquare (n : Nat) (grid : Grid) (digit : Int) (subgridRowIndex subgridColumnIndex : Nat) :
    List Nat → Bool
  | [] => true
  | rowIndex :: rest =>
    match scanSquareRow grid digit rowIndex (subgridRowIndex + n - 1) (subgridColumnIndex + n - 1)
        (List.range' subgridColumnIndex n) with
    | some true => true
    | some false => false
    | none => scanSquare n grid digit subgridRowIndex subgridColumnIndex rest

/-- The function `validateSquares` (validate.c lines 46-73). -/
def validateSquares (n size : Nat) (grid : Grid) : Bool :=
  (subgridStarts n size).all fun subgridRowIndex =>
    (subgridStarts n size).all fun subgridColumnIndex =>
      (digits size).all fun digit =>
        scanSquare n grid digit subgridRowIndex subgridColumnIndex
          (List.range' subgridRowIndex n)

/-- The column loop of `validateRowsWithSpaces` (validate.c lines 80-87) with the running
`count`: `false` when `return false` is reached. -/
def scanRowWithSpaces (grid : Grid) (rowIndex : Nat) (digit : Int) : List Nat → Nat → Bool
  | [], _ => true
  | columnIndex :: rest, count =>
    if 1 < (if grid rowIndex columnIndex = digit then count + 1 else count) then false
    else scanRowWithSpaces grid rowIndex digit rest
      (if grid rowIndex columnIndex = digit then count + 1 else count)

/-- The function `validateRowsWithSpaces` (validate.c lines 75-91). -/
def validateRowsWithSpaces (size : Nat) (grid : Grid) : Bool :=
  (List.range size).all fun rowIndex =>
    (digits size).all fun digit => scanRowWithSpaces grid rowIndex digit (List.range size) 0

/-- The row loop of `validateColsWithSpaces` (validate.c lines 98-105). -/
def scanColWithSpaces (grid : Grid) (columnIndex : Nat) (digit : Int) : List Nat → Nat → Bool
  | [], _ => true
  | rowIndex :: rest, count =>
    if 1 < (if grid rowIndex columnIndex = digit then count + 1 else count) then false
    else scanColWithSpaces grid columnIndex digit rest
      (if grid rowIndex columnIndex = digit then count + 1 else count)

/-- The function `validateColsWithSpaces` (validate.c lines 93-109). -/
def validateColsWithSpaces (size : Nat) (grid : Grid) : Bool :=
  (List.range size).all fun columnIndex =>
    (digits size).all fun digit => scanColWithSpaces grid columnIndex digit (List.range size) 0

/-- The column loop of `validateSquaresWithSpaces` (validate.c lines 119-125): the new
`count`. -/
def countSquareRow (grid : Grid) (digit : Int) (rowIndex : Nat) : List Nat → Nat → Nat
  | [], count => count
  | columnIndex :: rest, count =>
    countSquareRow grid digit rowIndex rest
      (if grid rowIndex columnIndex = digit then count + 1 else count)

/-- The row loop of `validateSquaresWithSpaces` (validate.c lines 117-129). -/
def scanSquareWithSpaces (n : Nat) (grid : Grid) (digit : Int) (subgridColumnIndex : Nat) :
    List Nat → Nat → Bool
  | [], _ => true
  | rowIndex :: rest, count =>
    if 1 < countSquareRow grid digit rowIndex (List.range' subgridColumnIndex n) count then false
    else scanSquareWithSpaces n grid digit subgridColumnIndex rest
      (countSquareRow grid digit rowIndex (List.range' subgridColumnIndex n) count)

/-- The function `validateSquaresWithSpaces` (validate.c lines 111-134). -/
def validateSquaresWithSpaces (n size : Nat) (grid : Grid) : Bool :=
  (subgridStarts n size).all fun subgridRowIndex =>
    (subgridStarts n size).all fun subgridColumnIndex =>
      (digits size).all fun digit =>
        scanSquareWithSpaces n grid digit subgridColumnIndex (List.range' subgridRowIndex n) 0

/-- The three checks of solve.c lines 30-32 and 34-36 together. -/
def validWithSpaces (n size : Nat) (grid : Grid) : Bool :=
  validateRowsWithSpaces size grid && validateColsWithSpaces size grid &&
    validateSquaresWithSpaces n size grid

/-- The assignment `grid[ rowIndex ][ columnIndex ] = value`. -/
def setCell (grid : Grid) (rowIndex columnIndex : Nat) (value : Int) : Grid :=
  fun i j => if i = rowIndex ∧ j = columnIndex then value else grid i j

/-- The array `blanks` with its `count` entries (solve.c lines 16-26): the blank cells in
row-major order. -/
def findBlanks (size : Nat) (grid : Grid) : List (Nat × Nat) :=
  (List.range size).flatMap fun rowIndex =>
    (List.range size).filterMap fun columnIndex =>
      if grid rowIndex columnIndex = 0 then some (rowIndex, columnIndex) else none

/-- The `while` loop of solve.c lines 30-46 on the blank cell at `( r, c )`: the grid it
leaves, with `true` when it is left through the `if` of line 37 (no value fits) and `false`
when its condition turns false. -/
def searchLoop (n size r c : Nat) : Nat → Grid → Except Ugrep.Fault (Bool × Grid)
  | 0, _ => .error .OutOfFuel
  | fuel + 1, grid =>
    if validWithSpaces n size grid then .ok (false, grid)
    else
      if !validWithSpaces n size (setCell grid r c (grid r c + 1)) ∧
          (size : Int) ≤ grid r c + 1 then
        .ok (true, setCell grid r c (grid r c + 1))
      else searchLoop n size r c fuel (setCell grid r c (grid r c + 1))

/-- The `for` loop of solve.c lines 28-49 from `blankIndex` on: the returned value and the
grid left behind. -/
def solveLoop (n size : Nat) (blanks : List (Nat × Nat)) :
    Nat → Nat → Grid → Except Ugrep.Fault (Bool × Grid)
  | 0, _, _ => .error .OutOfFuel
  | fuel + 1, blankIndex, grid =>
    if blankIndex < blanks.length then
      match searchLoop n size (blanks.getD blankIndex (0, 0)).1 (blanks.getD blankIndex (0, 0)).2
          fuel (setCell grid (blanks.getD blankIndex (0, 0)).1 (blanks.getD blankIndex (0, 0)).2
            (grid (blanks.getD blankIndex (0, 0)).1 (blanks.getD blankIndex (0, 0)).2 + 1)) with
      | .error f => .error f
      | .ok (true, grid1) =>
        if blankIndex = 0 then .ok (false, grid1)
        else solveLoop n size blanks fuel (blankIndex - 1)
          (setCell grid1 (blanks.getD blankIndex (0, 0)).1 (blanks.getD blankIndex (0, 0)).2 0)
      | .ok (false, grid1) => solveLoop n size blanks fuel (blankIndex + 1) grid1
    else .ok (true, grid)

/-- The function `solve` (solve.c lines 14-50). -/
def solve (fuel n size : Nat) (grid : Grid) : Except Ugrep.Fault (Bool × Grid) :=
  solveLoop n size (findBlanks size grid) fuel 0 grid

/-- The grid holding the given rows. -/
def gridOf (rows : List (List Int)) : Grid := fun i j => (rows.getD i []).getD j 0

/-- The rows of the `size x size` grid. -/
def rowsOf (size : Nat) (grid : Grid) : List (List Int) :=
  (List.range size).map fun i => (List.range size).map fun j => grid i j

/-- The value returned by `solve` together with the rows it leaves in the grid. -/
def solveRows (fuel n size : Nat) (rows : List (List Int)) :
    Except Ugrep.Fault (Bool × List (List Int)) :=
  match solve fuel n size (gridOf rows) with
  | .error f => .error f
  | .ok (b, grid) => .ok (b, rowsOf size grid)

/-- Every row contains each digit `1 .. size` exactly once. -/
def RowsComplete (size : Nat) (grid : Grid) : Prop :=
  ∀ r, r < size → ∀ d : Int, 1 ≤ d → d ≤ size → ∃! c, c < size ∧ grid r c = d

/-- Every column contains each digit `1 .. size` exactly once. -/
def ColsComplete (size : Nat) (grid : Grid) : Prop :=
  ∀ c, c < size → ∀ d : Int, 1 ≤ d → d ≤ size → ∃! r, r < size ∧ grid r c = d

/-- Every `n x n` square contains each digit `1 .. size` exactly once. -/
def SquaresComplete (n size : Nat) (grid : Grid) : Prop :=
  ∀ i j, i < n → j < n → ∀ d : Int, 1 ≤ d → d ≤ size →
    ∃! p : Nat × Nat, p.1 < n ∧ p.2 < n ∧ grid (i * n + p.1) (j * n + p.2) = d

/-- The puzzle can be solved: some assignment of digits `1 .. size` to the blank cells
makes every row, column and `n x n` square contain each digit exactly once. -/
def Solvable (n size : Nat) (grid : Grid) : Prop :=
  ∃ solved : Grid,
    (∀ r c, r < size → c < size → grid r c ≠ 0 → solved r c = grid r c) ∧
      (∀ r c, r < size → c < size → 1 ≤ solved r c ∧ solved r c ≤ size) ∧
      RowsComplete size solved ∧ ColsComplete size solved ∧ SquaresComplete n size solved

end Sudoku

/-!
# bits (p5): single bits of a byte

A shallow embedding of `src/p5/bits.c`.  An `unsigned char` is a natural number below
256 and a bit index an `int` in `0 .. 7`.  The operands of `>>`, `&`, `|` and `<<` are
promoted to a 32-bit `int`; `~( 1 << n )` is its bit pattern `2 ^ 32 - 1 - 2 ^ n`, and
the value returned as `unsigned char` is taken modulo 256.
-/

namespace Bits

/-- The function `getBit`: `( ch >> n ) & 1`, returned as a `bool`. -/
def getBit (ch n : Nat) : Bool := (ch >>> n) &&& 1 != 0

/-- The function `putBit`: `ch | ( 1 << n )` when `v` is true, else `ch & ~( 1 << n )`. -/
def putBit (ch n : Nat) (v : Bool) : Nat :=
  if v then (ch ||| (1 <<< n)) % 256 else (ch &&& (2 ^ 32 - 1 - (1 <<< n))) % 256

end Bits

namespace Ugrep

/-! ## Tables: marking and assigning loops -/

theorem set_apply (t : Table) (i j : Nat) (v : Bool) (x y : Nat) :
    t.set i j v x y = if x = i ∧ y = j then v else t x y := rfl

theorem zeroTable_apply (x y : Nat) : zeroTable x y = false := rfl

theorem marks_set (i j : Nat) : Marks (fun t => t.set i j true) (fun x y => x = i ∧ y = j) := by
  intro t x y
  simp only [set_apply]
  by_cases h : x = i ∧ y = j
  · simp [h]
  · simp [h]

theorem marks_ite (c : Prop) [Decidable c] {F : Table → Table} {S : Nat → Nat → Prop}
    (h : Marks F S) : Marks (fun t => if c then F t else t) (fun x y => c ∧ S x y) := by
  intro t x y
  by_cases hc : c
  · simp [hc, h t x y]
  · simp [hc]

theorem marks_foldl {α : Type} (l : List α) (F : α → Table → Table)
    (S : α → Nat → Nat → Prop) (h : ∀ a, a ∈ l → Marks (F a) (S a)) :
    Marks (fun t => l.foldl (fun t a => F a t) t) (fun x y => ∃ a, a ∈ l ∧ S a x y) := by
  induction l with
  | nil => intro t x y; simp
  | cons a l ih =>
    intro t x y
    have ih1 := ih (fun b hb => h b (List.mem_cons_of_mem a hb)) (F a t) x y
    simp only [List.foldl_cons] at ih1 ⊢
    rw [ih1, h a (List.mem_cons_self a l) t x y]
    simp only [List.mem_cons, exists_eq_or_imp]
    tauto

theorem assigns_foldl {α : Type} (l : List α) (F : α → Table → Table)
    (D : α → Nat → Nat → Prop) (v : Table) (h : ∀ a, a ∈ l → Assigns (F a) (D a) v) :
    Assigns (fun t => l.foldl (fun t a => F a t) t) (fun x y => ∃ a, a ∈ l ∧ D a x y) v := by
  induction l with
  | nil => intro t x y; simp
  | cons a l ih =>
    intro t x y
    have ih1 := ih (fun b hb => h b (List.mem_cons_of_mem a hb)) (F a t) x y
    have ha := h a (List.mem_cons_self a l) t x y
    simp only [List.foldl_cons] at ih1 ⊢
    constructor
    · rintro ⟨b, hb, hD⟩
      by_cases hl : ∃ c, c ∈ l ∧ D c x y
      · exact ih1.1 hl
      · rw [ih1.2 hl]
        rcases List.mem_cons.1 hb with rfl | hb1
        · exact ha.1 hD
        · exact absurd ⟨b, hb1, hD⟩ hl
    · intro hn
      have hl : ¬ ∃ c, c ∈ l ∧ D c x y := fun ⟨c, hc, hD⟩ =>
        hn ⟨c, List.mem_cons_of_mem a hc, hD⟩
      rw [ih1.2 hl]
      exact ha.2 (fun hD => hn ⟨a, List.mem_cons_self a l, hD⟩)

theorem assigns_set (i j : Nat) (v : Table) :
    Assigns (fun t => t.set i j (v i j)) (fun x y => x = i ∧ y = j) v := by
  intro t x y
  simp only [set_apply]
  constructor
  · rintro ⟨rfl, rfl⟩; simp
  · intro h; simp [h]

/-! ## Leaf tables -/

theorem matchLiteralPattern_iff (sym : Char) (str : List Char) (len : Nat) (t : Table)
    (x y : Nat) :
    matchLiteralPattern sym str len t x y = true ↔
      (t x y = true ∨ (x < len ∧ y = x + 1 ∧ charAt str x = sym)) := by
  have h := marks_foldl (List.range len)
    (fun i t => if charAt str i = sym then t.set i (i + 1) true else t)
    (fun i x y => charAt str i = sym ∧ (x = i ∧ y = i + 1))
    (fun i _ => marks_ite _ (marks_set i (i + 1))) t x y
  unfold matchLiteralPattern
  rw [h]
  simp only [List.mem_range]
  constructor
  · rintro (h | ⟨a, ha, hs, rfl, rfl⟩)
    · exact Or.inl h
    · exact Or.inr ⟨ha, rfl, hs⟩
  · rintro (h | ⟨hx, rfl, hs⟩)
    · exact Or.inl h
    · exact Or.inr ⟨x, hx, hs, rfl, rfl⟩

theorem matchStartingPattern_iff (t : Table) (x y : Nat) :
    matchStartingPattern t x y = true ↔ (t x y = true ∨ (x = 0 ∧ y = 0)) :=
  marks_set 0 0 t x y

theorem matchEndingPattern_iff (len : Nat) (t : Table) (x y : Nat) :
    matchEndingPattern len t x y = true ↔ (t x y = true ∨ (x = len ∧ y = len)) :=
  marks_set len len t x y

/-! ## Concatenation and alternation -/

theorem concatFill_iff (tbl1 tbl2 : Table) (len : Nat) (t : Table) (x y : Nat) :
    concatFill tbl1 tbl2 len t x y = true ↔
      (t x y = true ∨
        (x ≤ y ∧ y ≤ len ∧ ∃ k, x ≤ k ∧ k ≤ y ∧ tbl1 x k = true ∧ tbl2 k y = true)) := by
  have h := marks_foldl (List.range (len + 1))
    (fun begin t => (List.range' begin (len + 1 - begin)).foldl (fun t end_ =>
      (List.range' begin (end_ + 1 - begin)).foldl (fun t k =>
        if tbl1 begin k && tbl2 k end_ then t.set begin end_ true else t) t) t)
    (fun begin x y => ∃ end_, end_ ∈ List.range' begin (len + 1 - begin) ∧
      ∃ k, k ∈ List.range' begin (end_ + 1 - begin) ∧
        ((tbl1 begin k && tbl2 k end_) = true ∧ (x = begin ∧ y = end_)))
    (fun begin _ => marks_foldl _ _ _ (fun end_ _ => marks_foldl _ _ _
      (fun k _ => marks_ite _ (marks_set begin end_)))) t x y
  unfold concatFill
  rw [h]
  simp only [List.mem_range, List.mem_range'_1, Bool.and_eq_true]
  constructor
  · rintro (h | ⟨b, hb, e, ⟨hbe, he⟩, k, ⟨hbk, hk⟩, ⟨h1, h2⟩, rfl, rfl⟩)
    · exact Or.inl h
    · exact Or.inr ⟨hbe, by omega, k, hbk, by omega, h1, h2⟩
  · rintro (h | ⟨hxy, hy, k, hxk, hky, h1, h2⟩)
    · exact Or.inl h
    · exact Or.inr ⟨x, by omega, y, ⟨hxy, by omega⟩, k, ⟨hxk, by omega⟩, ⟨h1, h2⟩, rfl, rfl⟩

theorem alternationFill_apply (tbl1 tbl2 : Table) (len : Nat) (t : Table) (x y : Nat) :
    alternationFill tbl1 tbl2 len t x y =
      if x ≤ len ∧ y ≤ len then (tbl1 x y || tbl2 x y) else t x y := by
  have h := assigns_foldl (List.range (len + 1))
    (fun begin t => (List.range (len + 1)).foldl (fun t end_ =>
      t.set begin end_ (tbl1 begin end_ || tbl2 begin end_)) t)
    (fun begin x y => ∃ end_, end_ ∈ List.range (len + 1) ∧ (x = begin ∧ y = end_))
    (fun x y => tbl1 x y || tbl2 x y)
    (fun begin _ => assigns_foldl _ _ _ _
      (fun end_ _ => assigns_set begin end_ (fun x y => tbl1 x y || tbl2 x y))) t x y
  unfold alternationFill
  by_cases hxy : x ≤ len ∧ y ≤ len
  · rw [if_pos hxy]
    exact h.1 ⟨x, List.mem_range.2 (by omega), y, List.mem_range.2 (by omega), rfl, rfl⟩
  · rw [if_neg hxy]
    refine h.2 ?_
    rintro ⟨b, hb, e, he, rfl, rfl⟩
    exact hxy ⟨by have := List.mem_range.1 hb; omega, by have := List.mem_range.1 he; omega⟩

/-! ## The repetition loops -/

theorem marksP_forEach (l : List Nat) (F : Nat → Table → Except Fault Table)
    (S : Nat → Nat → Nat → Prop) (h : ∀ a, a ∈ l → MarksP (F a) (S a)) :
    MarksP (forEach F l) (fun x y => ∃ a, a ∈ l ∧ S a x y) := by
  induction l with
  | nil =>
    intro t t1 ht x y
    simp only [forEach, Except.ok.injEq] at ht
    subst ht
    simp
  | cons a l ih =>
    intro t t1 ht x y
    simp only [forEach] at ht
    cases hF : F a t with
    | error f => rw [hF] at ht; exact absurd ht (by simp)
    | ok t2 =>
      rw [hF] at ht
      rw [ih (fun b hb => h b (List.mem_cons_of_mem a hb)) t2 t1 ht x y,
        h a (List.mem_cons_self a l) t t2 hF x y]
      simp only [List.mem_cons, exists_eq_or_imp]
      tauto

theorem returns_forEach (l : List Nat) (F : Nat → Table → Except Fault Table)
    (h : ∀ a, a ∈ l → Returns (F a)) : Returns (forEach F l) := by
  induction l with
  | nil => intro t; exact ⟨t, rfl⟩
  | cons a l ih =>
    intro t
    obtain ⟨t1, h1⟩ := h a (List.mem_cons_self a l) t
    obtain ⟨t2, h2⟩ := ih (fun b hb => h b (List.mem_cons_of_mem a hb)) t1
    exact ⟨t2, by simp only [forEach, h1, h2]⟩

theorem countLoop_step (tbl : Table) (len begin end_ length fuel count : Nat) :
    countLoop tbl len begin end_ length (fuel + 1) count =
      if RepeatCond tbl len begin end_ length count then
        countLoop tbl len begin end_ length fuel (count + 1)
      else .ok count := by
  by_cases h : RepeatCond tbl len begin end_ length count
  · rw [if_pos h]
    unfold RepeatCond at h
    simp [countLoop, h.1, h.2]
  · rw [if_neg h]
    unfold RepeatCond at h
    simp only [countLoop]
    rw [if_neg]
    simpa using h

theorem countLoop_spec (tbl : Table) (len begin end_ length : Nat) :
    ∀ fuel count c, countLoop tbl len begin end_ length fuel count = .ok c →
      count ≤ c ∧ (∀ m, count ≤ m → m < c → RepeatCond tbl len begin end_ length m) ∧
        ¬ RepeatCond tbl len begin end_ length c := by
  intro fuel
  induction fuel with
  | zero => intro count c h; simp [countLoop] at h
  | succ fuel ih =>
    intro count c h
    rw [countLoop_step] at h
    by_cases hc : RepeatCond tbl len begin end_ length count
    · rw [if_pos hc] at h
      obtain ⟨h1, h2, h3⟩ := ih (count + 1) c h
      refine ⟨by omega, fun m hm1 hm2 => ?_, h3⟩
      rcases Nat.eq_or_lt_of_le hm1 with rfl | hlt
      · exact hc
      · exact h2 m hlt hm2
    · rw [if_neg hc] at h
      simp only [Except.ok.injEq] at h
      subst h
      exact ⟨le_refl _, fun m hm1 hm2 => by omega, hc⟩

theorem countLoop_returns (tbl : Table) (len begin end_ length : Nat) (hl : 1 ≤ length) :
    ∀ fuel count, count ≤ len + 1 → len + 1 < fuel + count →
      ∃ c, countLoop tbl len begin end_ length fuel count = .ok c ∧ c ≤ len + 1 := by
  intro fuel
  induction fuel with
  | zero => intro count h1 h2; omega
  | succ fuel ih =>
    intro count h1 h2
    rw [countLoop_step]
    by_cases hc : RepeatCond tbl len begin end_ length count
    · rw [if_pos hc]
      have h3 : count ≤ length * count := Nat.le_mul_of_pos_left count hl
      have h4 := hc.1
      exact ih (count + 1) (by omega) (by omega)
    · rw [if_neg hc]
      exact ⟨count, rfl, h1⟩

/-- With `length = 0` and a true entry at `[begin][end]` inside the table, the
`while` loop never exits: no amount of fuel lets it return. -/
theorem countLoop_diverges (tbl : Table) (len begin end_ : Nat) (he : end_ ≤ len)
    (ht : tbl begin end_ = true) :
    ∀ fuel count, countLoop tbl len begin end_ 0 fuel count = .error .OutOfFuel := by
  intro fuel
  induction fuel with
  | zero => intro count; rfl
  | succ fuel ih =>
    intro count
    rw [countLoop_step, if_pos]
    · exact ih (count + 1)
    · exact ⟨by simpa using he, by simpa using ht⟩

theorem markLoop_spec (begin end_ length i : Nat) :
    ∀ fuel j, MarksP (markLoop begin end_ length i fuel j)
      (fun x y => y = end_ + length * i ∧ ∃ s, x = j + length * s ∧ x ≤ begin + length * i) := by
  intro fuel
  induction fuel with
  | zero => intro j t t1 h; simp [markLoop] at h
  | succ fuel ih =>
    intro j t t1 h x y
    simp only [markLoop] at h
    by_cases hj : j ≤ begin + length * i
    · rw [if_pos hj] at h
      rw [ih (j + length) _ t1 h x y, marks_set j (end_ + length * i) t x y]
      constructor
      · rintro ((h1 | ⟨rfl, rfl⟩) | ⟨rfl, s, rfl, h3⟩)
        · exact Or.inl h1
        · exact Or.inr ⟨rfl, 0, by simp, hj⟩
        · exact Or.inr ⟨rfl, s + 1, by rw [Nat.mul_add_one]; omega, h3⟩
      · rintro (h1 | ⟨rfl, s, rfl, h3⟩)
        · exact Or.inl (Or.inl h1)
        · cases s with
          | zero => exact Or.inl (Or.inr ⟨by simp, rfl⟩)
          | succ s =>
            rw [Nat.mul_add_one] at h3 ⊢
            exact Or.inr ⟨rfl, s, by omega, by omega⟩
    · rw [if_neg hj] at h
      simp only [Except.ok.injEq] at h
      subst h
      constructor
      · exact fun h1 => Or.inl h1
      · rintro (h1 | ⟨_, s, rfl, h3⟩)
        · exact h1
        · exact absurd h3 (by omega)

theorem markLoop_returns (begin end_ length i : Nat) (hl : 1 ≤ length) :
    ∀ fuel a, a ≤ i + 1 → i + 1 < fuel + a →
      Returns (markLoop begin end_ length i fuel (begin + length * a)) := by
  intro fuel
  induction fuel with
  | zero => intro a h1 h2; omega
  | succ fuel ih =>
    intro a h1 h2 t
    simp only [markLoop]
    by_cases hj : begin + length * a ≤ begin + length * i
    · rw [if_pos hj]
      have hai : a ≤ i := by
        by_contra hcon
        have h3 : length * (i + 1) ≤ length * a := Nat.mul_le_mul_left length (by omega)
        rw [Nat.mul_add_one] at h3
        omega
      have h4 : begin + length * a + length = begin + length * (a + 1) := by
        rw [Nat.mul_add_one]; omega
      rw [h4]
      exact ih (a + 1) (by omega) (by omega) _
    · rw [if_neg hj]
      exact ⟨t, rfl⟩

theorem repeatStep_spec (fuel : Nat) (tbl : Table) (len begin end_ : Nat) :
    MarksP (repeatStep fuel tbl len begin end_) (RepeatMark tbl len begin end_) := by
  intro t t1 h x y
  unfold repeatStep at h
  by_cases ht : tbl begin end_ = true
  · rw [if_pos ht] at h
    by_cases hlt : end_ < begin
    · rw [if_pos hlt] at h; exact absurd h (by simp)
    · rw [if_neg hlt] at h
      cases hcount : countLoop tbl len begin end_ (end_ - begin) fuel 1 with
      | error f => rw [hcount] at h; exact absurd h (by simp)
      | ok c =>
        rw [hcount] at h
        obtain ⟨hc1, hc2, hc3⟩ := countLoop_spec tbl len begin end_ (end_ - begin) fuel 1 c hcount
        rw [marksP_forEach (List.range c) _ _
          (fun i _ => markLoop_spec begin end_ (end_ - begin) i fuel begin) t t1 h x y]
        unfold RepeatMark
        simp only [List.mem_range]
        constructor
        · rintro (h1 | ⟨i, hi, rfl, s, rfl, hs⟩)
          · exact Or.inl h1
          · exact Or.inr ⟨ht, by omega, i, s, fun m hm1 hm2 => hc2 m hm1 (by omega), rfl, rfl, hs⟩
        · rintro (h1 | ⟨_, _, i, s, hm, rfl, rfl, hs⟩)
          · exact Or.inl h1
          · refine Or.inr ⟨i, ?_, rfl, s, rfl, hs⟩
            by_contra hcon
            exact hc3 (hm c hc1 (by omega))
  · rw [if_neg ht] at h
    simp only [Except.ok.injEq] at h
    subst h
    unfold RepeatMark
    constructor
    · exact fun h1 => Or.inl h1
    · rintro (h1 | ⟨h2, _⟩)
      · exact h1
      · exact absurd h2 ht

theorem repeatStep_returns (fuel : Nat) (tbl : Table) (len begin end_ : Nat)
    (hfuel : len + 1 < fuel) (hlt : tbl begin end_ = true → begin < end_) :
    Returns (repeatStep fuel tbl len begin end_) := by
  intro t
  unfold repeatStep
  by_cases ht : tbl begin end_ = true
  · have hbe := hlt ht
    rw [if_pos ht, if_neg (by omega)]
    obtain ⟨c, hc, hcle⟩ := countLoop_returns tbl len begin end_ (end_ - begin) (by omega)
      fuel 1 (by omega) (by omega)
    rw [hc]
    refine returns_forEach (List.range c) _ (fun i hi => ?_) t
    have hi1 := List.mem_range.1 hi
    have h := markLoop_returns begin end_ (end_ - begin) i (by omega) fuel 0 (by omega) (by omega)
    simpa using h
  · rw [if_neg ht]
    exact ⟨t, rfl⟩

theorem repeatFill_spec (fuel : Nat) (tbl : Table) (len : Nat) :
    MarksP (repeatFill fuel tbl len)
      (fun x y => ∃ begin, begin ≤ len ∧ ∃ end_, end_ ≤ len ∧ RepeatMark tbl len begin end_ x y) := by
  intro t t1 h x y
  unfold repeatFill at h
  rw [marksP_forEach (List.range (len + 1)) _
    (fun begin x y => ∃ end_, end_ ∈ List.range (len + 1) ∧ RepeatMark tbl len begin end_ x y)
    (fun begin _ => marksP_forEach (List.range (len + 1)) _ _
      (fun end_ _ => repeatStep_spec fuel tbl len begin end_)) t t1 h x y]
  simp only [List.mem_range, Nat.lt_succ_iff]

theorem repeatFill_returns (fuel : Nat) (tbl : Table) (len : Nat) (hfuel : len + 1 < fuel)
    (hlt : ∀ b e, b ≤ len → e ≤ len → tbl b e = true → b < e) :
    Returns (repeatFill fuel tbl len) := by
  unfold repeatFill
  refine returns_forEach _ _ (fun begin hb => returns_forEach _ _ (fun end_ he => ?_))
  have hb1 := List.mem_range.1 hb
  have he1 := List.mem_range.1 he
  exact repeatStep_returns fuel tbl len begin end_ hfuel (hlt begin end_ (by omega) (by omega))

/-! ### Faults of the repetition loops -/

theorem forEach_fault (l : List Nat) (F : Nat → Table → Except Fault Table)
    (h : ∀ a, a ∈ l → ∀ t f, F a t = .error f → f = .OutOfFuel) :
    ∀ t f, forEach F l t = .error f → f = .OutOfFuel := by
  induction l with
  | nil => intro t f hf; simp [forEach] at hf
  | cons a l ih =>
    intro t f hf
    simp only [forEach] at hf
    cases hF : F a t with
    | error g =>
      rw [hF] at hf
      simp only [Except.error.injEq] at hf
      subst hf
      exact h a (List.mem_cons_self a l) t g hF
    | ok t2 =>
      rw [hF] at hf
      exact ih (fun b hb => h b (List.mem_cons_of_mem a hb)) t2 f hf

theorem forEach_outOfFuel (l : List Nat) (F : Nat → Table → Except Fault Table)
    (h : ∀ a, a ∈ l → ∀ t f, F a t = .error f → f = .OutOfFuel)
    (a : Nat) (ha : a ∈ l) (hdiv : ∀ t, F a t = .error .OutOfFuel) :
    ∀ t, forEach F l t = .error .OutOfFuel := by
  induction l with
  | nil => exact absurd ha (List.not_mem_nil a)
  | cons b l ih =>
    intro t
    simp only [forEach]
    cases hF : F b t with
    | error g =>
      simp only [Except.error.injEq]
      exact h b (List.mem_cons_self b l) t g hF
    | ok t2 =>
      simp only []
      rcases List.mem_cons.1 ha with rfl | hal
      · rw [hdiv t] at hF; exact absurd hF (by simp)
      · exact ih (fun c hc => h c (List.mem_cons_of_mem b hc)) hal t2

theorem countLoop_fault (tbl : Table) (len begin end_ length : Nat) :
    ∀ fuel count f, countLoop tbl len begin end_ length fuel count = .error f →
      f = .OutOfFuel := by
  intro fuel
  induction fuel with
  | zero => intro count f h; simp only [countLoop, Except.error.injEq] at h; exact h.symm
  | succ fuel ih =>
    intro count f h
    rw [countLoop_step] at h
    by_cases hc : RepeatCond tbl len begin end_ length count
    · rw [if_pos hc] at h; exact ih _ f h
    · rw [if_neg hc] at h; exact absurd h (by simp)

theorem markLoop_fault (begin end_ length i : Nat) :
    ∀ fuel j t f, markLoop begin end_ length i fuel j t = .error f → f = .OutOfFuel := by
  intro fuel
  induction fuel with
  | zero => intro j t f h; simp only [markLoop, Except.error.injEq] at h; exact h.symm
  | succ fuel ih =>
    intro j t f h
    simp only [markLoop] at h
    by_cases hj : j ≤ begin + length * i
    · rw [if_pos hj] at h; exact ih _ _ f h
    · rw [if_neg hj] at h; exact absurd h (by simp)

theorem repeatStep_fault (fuel : Nat) (tbl : Table) (len begin end_ : Nat)
    (hle : tbl begin end_ = true → begin ≤ end_) :
    ∀ t f, repeatStep fuel tbl len begin end_ t = .error f → f = .OutOfFuel := by
  intro t f h
  unfold repeatStep at h
  by_cases ht : tbl begin end_ = true
  · have hbe := hle ht
    rw [if_pos ht, if_neg (by omega)] at h
    cases hcount : countLoop tbl len begin end_ (end_ - begin) fuel 1 with
    | error g =>
      rw [hcount] at h
      simp only [Except.error.injEq] at h
      subst h
      exact countLoop_fault _ _ _ _ _ _ _ g hcount
    | ok c =>
      rw [hcount] at h
      exact forEach_fault _ _ (fun i _ t g hg => markLoop_fault _ _ _ _ _ _ t g hg) t f h
  · rw [if_neg ht] at h; exact absurd h (by simp)

theorem repeatStep_diverges (fuel : Nat) (tbl : Table) (len i : Nat) (hi : i ≤ len)
    (ht : tbl i i = true) : ∀ t, repeatStep fuel tbl len i i t = .error .OutOfFuel := by
  intro t
  unfold repeatStep
  rw [if_pos ht, if_neg (by omega), Nat.sub_self, countLoop_diverges tbl len i i hi ht]

/-- A true diagonal entry of the inner table inside `[0..len]` makes the repetition
loops spin in the `while` loop: the fill never returns, whatever the fuel. -/
theorem repeatFill_diverges (fuel : Nat) (tbl : Table) (len i : Nat) (hi : i ≤ len)
    (ht : tbl i i = true) (hle : ∀ b e, tbl b e = true → b ≤ e) :
    ∀ t, repeatFill fuel tbl len t = .error .OutOfFuel := by
  unfold repeatFill
  have hmem : i ∈ List.range (len + 1) := List.mem_range.2 (by omega)
  refine forEach_outOfFuel _ _ (fun begin _ => forEach_fault _ _
    (fun end_ _ => repeatStep_fault fuel tbl len begin end_ (hle begin end_))) i hmem ?_
  exact forEach_outOfFuel _ _
    (fun end_ _ => repeatStep_fault fuel tbl len i end_ (hle i end_)) i hmem
    (repeatStep_diverges fuel tbl len i hi ht)

/-! ## Inversion of the composite match methods -/

theorem matchAnyCharacterPattern_iff (len : Nat) (t : Table) (x y : Nat) :
    matchAnyCharacterPattern len t x y = true ↔ (t x y = true ∨ (x < len ∧ y = x + 1)) := by
  have h := marks_foldl (List.range len) (fun i t => t.set i (i + 1) true)
    (fun i x y => x = i ∧ y = i + 1) (fun i _ => marks_set i (i + 1)) t x y
  unfold matchAnyCharacterPattern
  rw [h]
  simp only [List.mem_range]
  constructor
  · rintro (h | ⟨a, ha, rfl, rfl⟩)
    · exact Or.inl h
    · exact Or.inr ⟨ha, rfl⟩
  · rintro (h | ⟨hx, rfl⟩)
    · exact Or.inl h
    · exact Or.inr ⟨x, hx, rfl, rfl⟩

theorem matchCharacterClassPattern_iff (cs : List Char) (str : List Char) (len : Nat)
    (t : Table) (x y : Nat) :
    matchCharacterClassPattern cs str len t x y = true ↔
      (t x y = true ∨ (x < len ∧ y = x + 1 ∧ strchr cs (charAt str x) = true)) := by
  have h := marks_foldl (List.range len)
    (fun i t => if strchr cs (charAt str i) then t.set i (i + 1) true else t)
    (fun i x y => strchr cs (charAt str i) = true ∧ (x = i ∧ y = i + 1))
    (fun i _ => marks_ite _ (marks_set i (i + 1))) t x y
  unfold matchCharacterClassPattern
  rw [h]
  simp only [List.mem_range]
  constructor
  · rintro (h | ⟨a, ha, hs, rfl, rfl⟩)
    · exact Or.inl h
    · exact Or.inr ⟨ha, rfl, hs⟩
  · rintro (h | ⟨hx, rfl, hs⟩)
    · exact Or.inl h
    · exact Or.inr ⟨x, hx, hs, rfl, rfl⟩

theorem diagonalFill_iff (len : Nat) (t : Table) (x y : Nat) :
    diagonalFill len t x y = true ↔ (t x y = true ∨ (x = y ∧ x ≤ len)) := by
  have h := marks_foldl (List.range (len + 1)) (fun i t => t.set i i true)
    (fun i x y => x = i ∧ y = i) (fun i _ => marks_set i i) t x y
  unfold diagonalFill
  rw [h]
  simp only [List.mem_range]
  constructor
  · rintro (h | ⟨a, ha, rfl, rfl⟩)
    · exact Or.inl h
    · exact Or.inr ⟨rfl, by omega⟩
  · rintro (h | ⟨rfl, hx⟩)
    · exact Or.inl h
    · exact Or.inr ⟨x, by omega, rfl, rfl⟩

theorem matchConcatenationPattern_ok {m1 m2 : Table → Except Fault Table} {len : Nat}
    {t0 t : Table} (h : matchConcatenationPattern m1 m2 len t0 = .ok t) :
    ∃ tbl1 tbl2, m1 zeroTable = .ok tbl1 ∧ m2 zeroTable = .ok tbl2 ∧
      t = concatFill tbl1 tbl2 len t0 := by
  unfold matchConcatenationPattern at h
  cases h1 : m1 zeroTable with
  | error f => rw [h1] at h; exact absurd h (by simp)
  | ok tbl1 =>
    cases h2 : m2 zeroTable with
    | error f => rw [h1, h2] at h; exact absurd h (by simp)
    | ok tbl2 =>
      rw [h1, h2] at h
      simp only [Except.ok.injEq] at h
      exact ⟨tbl1, tbl2, rfl, rfl, h.symm⟩

theorem matchAlternationPattern_ok {m1 m2 : Table → Except Fault Table} {len : Nat}
    {t0 t : Table} (h : matchAlternationPattern m1 m2 len t0 = .ok t) :
    ∃ tbl1 tbl2, m1 zeroTable = .ok tbl1 ∧ m2 zeroTable = .ok tbl2 ∧
      t = alternationFill tbl1 tbl2 len t0 := by
  unfold matchAlternationPattern at h
  cases h1 : m1 zeroTable with
  | error f => rw [h1] at h; exact absurd h (by simp)
  | ok tbl1 =>
    cases h2 : m2 zeroTable with
    | error f => rw [h1, h2] at h; exact absurd h (by simp)
    | ok tbl2 =>
      rw [h1, h2] at h
      simp only [Except.ok.injEq] at h
      exact ⟨tbl1, tbl2, rfl, rfl, h.symm⟩

theorem matchOneOrMoreCharacterPattern_ok {fuel : Nat} {m : Table → Except Fault Table}
    {len : Nat} {t0 t : Table} (h : matchOneOrMoreCharacterPattern fuel m len t0 = .ok t) :
    ∃ tbl table1, m zeroTable = .ok tbl ∧ m t0 = .ok table1 ∧
      repeatFill fuel tbl len table1 = .ok t := by
  unfold matchOneOrMoreCharacterPattern at h
  cases h1 : m zeroTable with
  | error f => rw [h1] at h; exact absurd h (by simp)
  | ok tbl =>
    cases h2 : m t0 with
    | error f => rw [h1, h2] at h; exact absurd h (by simp)
    | ok table1 =>
      rw [h1, h2] at h
      exact ⟨tbl, table1, rfl, rfl, h⟩

theorem matchNoneOrMoreCharacterPattern_ok {fuel : Nat} {m : Table → Except Fault Table}
    {len : Nat} {t0 t : Table} (h : matchNoneOrMoreCharacterPattern fuel m len t0 = .ok t) :
    ∃ tbl table1 table2, m zeroTable = .ok tbl ∧ m t0 = .ok table1 ∧
      repeatFill fuel tbl len table1 = .ok table2 ∧ t = diagonalFill len table2 := by
  unfold matchNoneOrMoreCharacterPattern at h
  cases h1 : m zeroTable with
  | error f => rw [h1] at h; exact absurd h (by simp)
  | ok tbl =>
    cases h2 : m t0 with
    | error f => rw [h1, h2] at h; exact absurd h (by simp)
    | ok table1 =>
      cases h3 : repeatFill fuel tbl len table1 with
      | error f => simp [h1, h2, h3] at h
      | ok table2 =>
        simp only [h1, h2, h3, Except.ok.injEq] at h
        exact ⟨tbl, table1, table2, rfl, rfl, h3, h.symm⟩

theorem matchNoneOrOneCharacterPattern_ok {m : Table → Except Fault Table}
    {len : Nat} {t0 t : Table} (h : matchNoneOrOneCharacterPattern m len t0 = .ok t) :
    ∃ table1, m t0 = .ok table1 ∧ t = diagonalFill len table1 := by
  unfold matchNoneOrOneCharacterPattern at h
  cases h1 : m t0 with
  | error f => rw [h1] at h; exact absurd h (by simp)
  | ok table1 =>
    rw [h1] at h
    simp only [Except.ok.injEq] at h
    exact ⟨table1, rfl, h.symm⟩

/-! ## Every true entry lies on or above the diagonal, inside the table -/

theorem upper_zeroTable (len : Nat) : Upper len zeroTable := by
  intro b e h
  simp [zeroTable] at h

theorem repeatMark_upper {tbl : Table} {len begin end_ x y : Nat} (he : end_ ≤ len)
    (h : RepeatMark tbl len begin end_ x y) : x ≤ y ∧ y ≤ len := by
  obtain ⟨_, hbe, i, s, hm, rfl, rfl, hs⟩ := h
  refine ⟨by omega, ?_⟩
  rcases Nat.eq_zero_or_pos i with rfl | hi
  · simpa using he
  · exact (hm i hi (le_refl i)).1

theorem repeatFill_upper {fuel : Nat} {tbl : Table} {len : Nat} {t0 t : Table}
    (h0 : Upper len t0) (h : repeatFill fuel tbl len t0 = .ok t) : Upper len t := by
  intro b e hbe
  rcases (repeatFill_spec fuel tbl len t0 t h b e).1 hbe with h1 | ⟨_, _, end_, he, hm⟩
  · exact h0 b e h1
  · exact repeatMark_upper he hm

theorem diagonalFill_upper {len : Nat} {t0 : Table} (h0 : Upper len t0) :
    Upper len (diagonalFill len t0) := by
  intro b e hbe
  rcases (diagonalFill_iff len t0 b e).1 hbe with h1 | ⟨rfl, hb⟩
  · exact h0 b e h1
  · exact ⟨le_refl _, hb⟩

theorem matchPattern_upper (fuel : Nat) (str : List Char) (len : Nat) :
    ∀ (p : Pattern) (t0 t : Table), Upper len t0 →
      matchPattern fuel p str len t0 = .ok t → Upper len t := by
  intro p
  induction p with
  | Literal sym =>
    intro t0 t h0 h b e hbe
    simp only [matchPattern, Except.ok.injEq] at h
    subst h
    rcases (matchLiteralPattern_iff sym str len t0 b e).1 hbe with h1 | ⟨h1, h2, _⟩
    · exact h0 b e h1
    · omega
  | AnyCharacter =>
    intro t0 t h0 h b e hbe
    simp only [matchPattern, Except.ok.injEq] at h
    subst h
    rcases (matchAnyCharacterPattern_iff len t0 b e).1 hbe with h1 | ⟨h1, h2⟩
    · exact h0 b e h1
    · omega
  | Starting =>
    intro t0 t h0 h b e hbe
    simp only [matchPattern, Except.ok.injEq] at h
    subst h
    rcases (matchStartingPattern_iff t0 b e).1 hbe with h1 | ⟨h1, h2⟩
    · exact h0 b e h1
    · omega
  | Ending =>
    intro t0 t h0 h b e hbe
    simp only [matchPattern, Except.ok.injEq] at h
    subst h
    rcases (matchEndingPattern_iff len t0 b e).1 hbe with h1 | ⟨h1, h2⟩
    · exact h0 b e h1
    · omega
  | CharacterClass cs =>
    intro t0 t h0 h b e hbe
    simp only [matchPattern, Except.ok.injEq] at h
    subst h
    rcases (matchCharacterClassPattern_iff cs str len t0 b e).1 hbe with h1 | ⟨h1, h2, _⟩
    · exact h0 b e h1
    · omega
  | Concatenation p1 p2 _ _ =>
    intro t0 t h0 h b e hbe
    simp only [matchPattern] at h
    obtain ⟨tbl1, tbl2, _, _, rfl⟩ := matchConcatenationPattern_ok h
    rcases (concatFill_iff tbl1 tbl2 len t0 b e).1 hbe with h1 | ⟨h1, h2, _⟩
    · exact h0 b e h1
    · exact ⟨h1, h2⟩
  | Alternation p1 p2 ih1 ih2 =>
    intro t0 t h0 h b e hbe
    simp only [matchPattern] at h
    obtain ⟨tbl1, tbl2, h1, h2, rfl⟩ := matchAlternationPattern_ok h
    rw [alternationFill_apply] at hbe
    by_cases hr : b ≤ len ∧ e ≤ len
    · rw [if_pos hr, Bool.or_eq_true] at hbe
      rcases hbe with h3 | h3
      · exact ih1 zeroTable tbl1 (upper_zeroTable len) h1 b e h3
      · exact ih2 zeroTable tbl2 (upper_zeroTable len) h2 b e h3
    · rw [if_neg hr] at hbe
      exact h0 b e hbe
  | NoneOrMoreCharacter p ih =>
    intro t0 t h0 h
    simp only [matchPattern] at h
    obtain ⟨tbl, table1, table2, _, h2, h3, rfl⟩ := matchNoneOrMoreCharacterPattern_ok h
    exact diagonalFill_upper (repeatFill_upper (ih t0 table1 h0 h2) h3)
  | OneOrMoreCharacter p ih =>
    intro t0 t h0 h
    simp only [matchPattern] at h
    obtain ⟨tbl, table1, _, h2, h3⟩ := matchOneOrMoreCharacterPattern_ok h
    exact repeatFill_upper (ih t0 table1 h0 h2) h3
  | NoneOrOneCharacter p ih =>
    intro t0 t h0 h
    simp only [matchPattern] at h
    obtain ⟨table1, h1, rfl⟩ := matchNoneOrOneCharacterPattern_ok h
    exact diagonalFill_upper (ih t0 table1 h0 h1)

theorem tableOf_upper {fuel : Nat} {p : Pattern} {str : List Char} {len : Nat} {t : Table}
    (h : tableOf fuel p str len = .ok t) : Upper len t :=
  matchPattern_upper fuel str len p zeroTable t (upper_zeroTable len) h

/-! ## The table of a repetition, from the table of its inner pattern -/

theorem tableOf_oneOrMore_eq {fuel : Nat} {p : Pattern} {str : List Char} {len : Nat}
    {tp : Table} (hp : tableOf fuel p str len = .ok tp) :
    tableOf fuel (.OneOrMoreCharacter p) str len = repeatFill fuel tp len tp := by
  unfold tableOf at hp
  simp only [tableOf, matchPattern, matchOneOrMoreCharacterPattern, hp]

theorem tableOf_noneOrMore_eq {fuel : Nat} {p : Pattern} {str : List Char} {len : Nat}
    {tp : Table} (hp : tableOf fuel p str len = .ok tp) :
    tableOf fuel (.NoneOrMoreCharacter p) str len =
      match repeatFill fuel tp len tp with
      | .error f => .error f
      | .ok table2 => .ok (diagonalFill len table2) := by
  unfold tableOf at hp
  simp only [tableOf, matchPattern, matchNoneOrMoreCharacterPattern, hp]

theorem strict_of_upper_noDiagonal {len : Nat} {tp : Table} (hup : Upper len tp)
    (hnd : NoDiagonal len tp) : ∀ b e, b ≤ len → e ≤ len → tp b e = true → b < e := by
  intro b e hb _ h
  have h1 := (hup b e h).1
  rcases Nat.eq_or_lt_of_le h1 with rfl | hlt
  · rw [hnd b hb] at h; exact absurd h (by simp)
  · exact hlt

theorem repeatMark_chain {tp : Table} {len begin end_ x y : Nat} (hlt : begin < end_)
    (h : RepeatMark tp len begin end_ x y) :
    ∃ L n, 1 ≤ L ∧ 1 ≤ n ∧ y - x = n * L ∧ x ≤ y ∧
      ∀ k, k < n → tp (x + k * L) (x + (k + 1) * L) = true := by
  obtain ⟨h0, _, i, s, hm, rfl, rfl, hs⟩ := h
  obtain ⟨L, rfl⟩ := Nat.exists_eq_add_of_lt hlt
  have hL : begin + L + 1 - begin = L + 1 := by omega
  rw [hL] at hm hs ⊢
  have hsi : s ≤ i := Nat.le_of_mul_le_mul_left (by omega : (L + 1) * s ≤ (L + 1) * i) (by omega)
  obtain ⟨j, rfl⟩ := Nat.exists_eq_add_of_le hsi
  refine ⟨L + 1, j + 1, by omega, by omega, ?_, ?_, fun k hk => ?_⟩
  · have e1 : (L + 1) * (s + j) = (L + 1) * s + (j + 1) * (L + 1) - (L + 1) := by
      have : (L + 1) * (s + j) + (L + 1) = (L + 1) * s + (j + 1) * (L + 1) := by ring
      omega
    have e2 : L + 1 ≤ (j + 1) * (L + 1) := Nat.le_mul_of_pos_left _ (by omega)
    omega
  · have e1 : (L + 1) * s ≤ (L + 1) * (s + j) := Nat.mul_le_mul_left _ (by omega)
    omega
  · have e1 : begin + (L + 1) * s + k * (L + 1) = begin + (L + 1) * (s + k) := by ring
    have e2 : begin + (L + 1) * s + (k + 1) * (L + 1) = begin + L + 1 + (L + 1) * (s + k) := by
      ring
    rw [e1, e2]
    rcases Nat.eq_zero_or_pos (s + k) with hz | hpos
    · rw [hz]; simpa using h0
    · exact (hm (s + k) hpos (by omega)).2

theorem chain_repeatMark {tp : Table} {len b e L n : Nat} (hL : 1 ≤ L) (hn : 1 ≤ n)
    (hbe : b < e) (he : e ≤ len) (hlen : e - b = n * L)
    (hch : ∀ k, k < n → tp (b + k * L) (b + (k + 1) * L) = true) :
    b + L ≤ len ∧ RepeatMark tp len b (b + L) b e := by
  obtain ⟨j, rfl⟩ := Nat.exists_eq_add_of_le hn
  have hsub : b + L - b = L := by omega
  have hbound : ∀ m, m ≤ j → b + L + L * m ≤ e := by
    intro m hm
    have e1 : (m + 1) * L ≤ (1 + j) * L := Nat.mul_le_mul_right L (by omega)
    have e2 : (m + 1) * L = L + L * m := by ring
    omega
  have h0 := hch 0 (by omega)
  simp only [Nat.zero_mul, Nat.add_zero, Nat.zero_add, Nat.one_mul] at h0
  refine ⟨by have := hbound 0 (Nat.zero_le j); omega, h0, by omega, j, 0, ?_, ?_, by simp, by simp⟩
  · intro m _ hm2
    rw [hsub]
    refine ⟨le_trans (hbound m hm2) he, ?_⟩
    have h1 := hch m (by omega)
    have e1 : b + m * L = b + L * m := by ring
    have e2 : b + (m + 1) * L = b + L + L * m := by ring
    rw [e1, e2] at h1
    exact h1
  · rw [hsub]
    have e1 : (1 + j) * L = L + L * j := by ring
    omega

/-- The table a repetition fill leaves, read above the diagonal: `[b][e]` is true
iff `[b,e)` is a chain of `n ≥ 1` contiguous inner matches of one common length. -/
theorem repeatFill_chain_iff {fuel : Nat} {tp : Table} {len : Nat} {t : Table}
    (hup : Upper len tp) (hnd : NoDiagonal len tp) (h : repeatFill fuel tp len tp = .ok t)
    (b e : Nat) (hbe : b < e) (he : e ≤ len) :
    t b e = true ↔ ∃ L n, 1 ≤ L ∧ 1 ≤ n ∧ e - b = n * L ∧
      ∀ k, k < n → tp (b + k * L) (b + (k + 1) * L) = true := by
  rw [repeatFill_spec fuel tp len tp t h b e]
  constructor
  · rintro (h1 | ⟨begin, hb, end_, hend, hm⟩)
    · refine ⟨e - b, 1, by omega, le_refl 1, by simp, fun k hk => ?_⟩
      have hk0 : k = 0 := by omega
      subst hk0
      have e1 : b + (0 + 1) * (e - b) = e := by simp; omega
      rw [e1]
      simpa using h1
    · have hlt := strict_of_upper_noDiagonal hup hnd begin end_ hb hend hm.1
      obtain ⟨L, n, h1, h2, h3, _, h5⟩ := repeatMark_chain hlt hm
      exact ⟨L, n, h1, h2, h3, h5⟩
  · rintro ⟨L, n, hL, hn, hlen, hch⟩
    obtain ⟨h1, h2⟩ := chain_repeatMark hL hn hbe he hlen hch
    exact Or.inr ⟨b, by omega, b + L, h1, h2⟩

theorem repeatFill_noDiagonal {fuel : Nat} {tp : Table} {len : Nat} {t : Table}
    (hup : Upper len tp) (hnd : NoDiagonal len tp) (h : repeatFill fuel tp len tp = .ok t) :
    NoDiagonal len t := by
  intro i hi
  cases hti : t i i with
  | false => rfl
  | true =>
    rcases (repeatFill_spec fuel tp len tp t h i i).1 hti with h1 | ⟨begin, hb, end_, hend, hm⟩
    · rw [hnd i hi] at h1; exact absurd h1 (by simp)
    · have hlt := strict_of_upper_noDiagonal hup hnd begin end_ hb hend hm.1
      obtain ⟨L, n, h1, h2, h3, _, _⟩ := repeatMark_chain hlt hm
      have : 1 ≤ n * L := Nat.mul_pos h2 h1
      omega

/-- A repetition whose inner table has a true diagonal entry inside `[0..len]` never
returns: both repetition matchers run out of any fuel in the `while` loop. -/
theorem tableOf_repetition_diverges {fuel : Nat} {p : Pattern} {str : List Char} {len : Nat}
    {tp : Table} (hp : tableOf fuel p str len = .ok tp) (i : Nat) (hi : i ≤ len)
    (ht : tp i i = true) :
    tableOf fuel (.NoneOrMoreCharacter p) str len = .error .OutOfFuel ∧
      tableOf fuel (.OneOrMoreCharacter p) str len = .error .OutOfFuel := by
  have hdiv := repeatFill_diverges fuel tp len i hi ht
    (fun b e h => ((tableOf_upper hp) b e h).1) tp
  constructor
  · rw [tableOf_noneOrMore_eq hp, hdiv]
  · rw [tableOf_oneOrMore_eq hp, hdiv]

/-! ## Inner patterns of one fixed width -/

theorem splits_fixed_iff {tp : Table} {L : Nat} (hL : 1 ≤ L)
    (hw : ∀ b e, tp b e = true → e - b = L) (b e : Nat) :
    Splits tp b e ↔
      ∃ n, e = b + n * L ∧ ∀ k, k < n → tp (b + k * L) (b + (k + 1) * L) = true := by
  constructor
  · intro h
    induction h with
    | done b => exact ⟨0, by simp, fun k hk => absurd hk (Nat.not_lt_zero k)⟩
    | step b k e hbk _ ih =>
      obtain ⟨n, hn, hch⟩ := ih
      have hk : k = b + L := by have := hw b k hbk; omega
      subst hk
      refine ⟨n + 1, by rw [hn, Nat.add_one_mul]; omega, fun j hj => ?_⟩
      cases j with
      | zero => simpa using hbk
      | succ j =>
        have h1 := hch j (by omega)
        have e1 : b + (j + 1) * L = b + L + j * L := by ring
        have e2 : b + (j + 1 + 1) * L = b + L + (j + 1) * L := by ring
        rw [e1, e2]
        exact h1
  · rintro ⟨n, hn, hch⟩
    induction n generalizing b with
    | zero =>
      have : e = b := by simpa using hn
      subst this
      exact Splits.done e
    | succ n ih =>
      have h0 := hch 0 (by omega)
      simp only [Nat.zero_mul, Nat.add_zero, Nat.zero_add, Nat.one_mul] at h0
      refine Splits.step b (b + L) e h0 (ih (b + L) ?_ (fun k hk => ?_))
      · rw [hn, Nat.add_one_mul]; omega
      · have h1 := hch (k + 1) (by omega)
        have e1 : b + (k + 1) * L = b + L + k * L := by ring
        have e2 : b + (k + 1 + 1) * L = b + L + (k + 1) * L := by ring
        rw [e1, e2] at h1
        exact h1

theorem tableOf_noneOrMore_fixed_width {fuel : Nat} {p : Pattern} {str : List Char}
    {len : Nat} {tp : Table} {L : Nat} (hfuel : len + 1 < fuel)
    (hp : tableOf fuel p str len = .ok tp) (hL : 1 ≤ L)
    (hw : ∀ b e, tp b e = true → e - b = L) :
    ∃ t, tableOf fuel (.NoneOrMoreCharacter p) str len = .ok t ∧
      ∀ b e, b ≤ e → e ≤ len → (t b e = true ↔ Splits tp b e) := by
  have hup := tableOf_upper hp
  have hnd : NoDiagonal len tp := by
    intro i _
    cases hti : tp i i with
    | false => rfl
    | true => have := hw i i hti; omega
  obtain ⟨t1, ht1⟩ := repeatFill_returns fuel tp len hfuel
    (strict_of_upper_noDiagonal hup hnd) tp
  refine ⟨diagonalFill len t1, by rw [tableOf_noneOrMore_eq hp, ht1], fun b e hbe he => ?_⟩
  rw [diagonalFill_iff]
  rcases Nat.eq_or_lt_of_le hbe with rfl | hlt
  · exact ⟨fun _ => Splits.done b, fun _ => Or.inr ⟨rfl, he⟩⟩
  · rw [repeatFill_chain_iff hup hnd ht1 b e hlt he, splits_fixed_iff hL hw]
    constructor
    · rintro (⟨L1, n, _, hn, hlen, hch⟩ | ⟨h, _⟩)
      · have h0 := hch 0 (by omega)
        have h1 := hw _ _ h0
        simp only [Nat.zero_mul, Nat.add_zero, Nat.zero_add, Nat.one_mul] at h1
        have hLL : L1 = L := by omega
        subst hLL
        exact ⟨n, by omega, hch⟩
      · omega
    · rintro ⟨n, hn, hch⟩
      rcases Nat.eq_zero_or_pos n with rfl | hpos
      · simp at hn; omega
      · exact Or.inl ⟨L, n, hL, hpos, by omega, hch⟩

theorem tableOf_literal_width (fuel : Nat) (c : Char) (str : List Char) (len : Nat) :
    ∃ tp, tableOf fuel (.Literal c) str len = .ok tp ∧
      (∀ b e, tp b e = true ↔ (b < len ∧ e = b + 1 ∧ charAt str b = c)) ∧
      ∀ b e, tp b e = true → e - b = 1 := by
  have h : ∀ b e, matchLiteralPattern c str len zeroTable b e = true ↔
      (b < len ∧ e = b + 1 ∧ charAt str b = c) := by
    intro b e
    rw [matchLiteralPattern_iff]
    simp [zeroTable]
  exact ⟨_, rfl, h, fun b e hbe => by have := (h b e).1 hbe; omega⟩

theorem tableOf_noneOrMore_literal (fuel : Nat) (c : Char) (str : List Char)
    (hfuel : str.length + 1 < fuel) :
    ∃ t, tableOf fuel (.NoneOrMoreCharacter (.Literal c)) str str.length = .ok t ∧
      ∀ b e, b ≤ e → e ≤ str.length →
        (t b e = true ↔ ∀ i, b ≤ i → i < e → charAt str i = c) := by
  obtain ⟨tp, hp, hiff, hw⟩ := tableOf_literal_width fuel c str str.length
  obtain ⟨t, ht, hsp⟩ := tableOf_noneOrMore_fixed_width hfuel hp (le_refl 1) hw
  refine ⟨t, ht, fun b e hbe he => ?_⟩
  rw [hsp b e hbe he, splits_fixed_iff (le_refl 1) hw]
  constructor
  · rintro ⟨n, hn, hch⟩ i hi1 hi2
    have h1 := ((hiff _ _).1 (hch (i - b) (by omega))).2.2
    have e1 : b + (i - b) * 1 = i := by omega
    rw [e1] at h1
    exact h1
  · intro h
    refine ⟨e - b, by omega, fun k hk => ?_⟩
    rw [hiff]
    refine ⟨by omega, by omega, h _ (by omega) (by omega)⟩

/-! ## Parsing a string of ordinary characters -/

theorem charAt_of_lt {str : List Char} {i : Nat} (h : i < str.length) :
    charAt str i = str[i] := List.getD_eq_getElem str NUL h

theorem charAt_of_le {str : List Char} {i : Nat} (h : str.length ≤ i) :
    charAt str i = NUL := List.getD_eq_default str NUL h

theorem ordinary_ne {c d : Char} (hc : ordinary c = true) (hd : ordinary d = false) : c ≠ d := by
  intro h
  rw [h, hd] at hc
  exact absurd hc (by simp)

theorem parseAtomicPattern_ordinary (alt : Nat → Parsed) (fuel : Nat) (str : List Char)
    (pos : Nat) (h : ordinary (charAt str pos) = true) :
    parseAtomicPattern alt fuel str pos = .ok (.Literal (charAt str pos), pos + 1) := by
  unfold parseAtomicPattern
  rw [if_pos h]

theorem parseRepetition_plain (alt : Nat → Parsed) (fuel : Nat) (str : List Char)
    (pos : Nat) (p : Pattern) (pos1 : Nat)
    (ha : parseAtomicPattern alt fuel str pos = .ok (p, pos1))
    (h1 : charAt str pos1 ≠ '*') (h2 : charAt str pos1 ≠ '+') (h3 : charAt str pos1 ≠ '?') :
    parseRepetition alt fuel str pos = .ok (p, pos1) := by
  unfold parseRepetition
  rw [ha]
  simp only [if_neg h1, if_neg h2, if_neg h3]

/-- In a string of ordinary characters the character at any position, the
terminator included, is none of `*`, `+`, `?`, `|`, `)`. -/
theorem charAt_ordinary_string {w : List Char} (hord : ∀ c, c ∈ w → ordinary c = true)
    (i : Nat) :
    (i < w.length → ordinary (charAt w i) = true ∧ charAt w i ≠ NUL) ∧
      (w.length ≤ i → charAt w i = NUL) ∧
      charAt w i ≠ '*' ∧ charAt w i ≠ '+' ∧ charAt w i ≠ '?' ∧
      charAt w i ≠ '|' ∧ charAt w i ≠ ')' := by
  by_cases hi : i < w.length
  · have h1 : ordinary (charAt w i) = true := by
      rw [charAt_of_lt hi]
      exact hord _ (List.getElem_mem hi)
    exact ⟨fun _ => ⟨h1, ordinary_ne h1 (by decide)⟩, fun h => absurd hi (by omega),
      ordinary_ne h1 (by decide), ordinary_ne h1 (by decide), ordinary_ne h1 (by decide),
      ordinary_ne h1 (by decide), ordinary_ne h1 (by decide)⟩
  · have h1 : charAt w i = NUL := charAt_of_le (by omega)
    refine ⟨fun h => absurd h hi, fun _ => h1, ?_, ?_, ?_, ?_, ?_⟩ <;>
      (rw [h1]; decide)

theorem concatenationLoop_ordinary (alt : Nat → Parsed) (fuel : Nat) {w : List Char}
    (hord : ∀ c, c ∈ w → ordinary c = true) :
    ∀ n pos p1, pos ≤ w.length → w.length - pos < n →
      concatenationLoop alt fuel w n p1 pos = .ok (literalChain p1 (w.drop pos), w.length) := by
  intro n
  induction n with
  | zero => intro pos p1 _ h; omega
  | succ n ih =>
    intro pos p1 hpos hn
    obtain ⟨h1, h2, _, _, _, h6, h7⟩ := charAt_ordinary_string hord pos
    unfold concatenationLoop
    rcases Nat.eq_or_lt_of_le hpos with heq | hlt
    · have hnul := h2 (by omega)
      rw [if_neg (fun h => h.1 hnul)]
      subst heq
      simp [literalChain]
    · obtain ⟨ho, hnn⟩ := h1 hlt
      obtain ⟨_, _, g3, g4, g5, _, _⟩ := charAt_ordinary_string hord (pos + 1)
      rw [if_pos ⟨hnn, h6, h7⟩,
        parseRepetition_plain alt fuel w pos _ _ (parseAtomicPattern_ordinary alt fuel w pos ho)
          g3 g4 g5]
      simp only []
      rw [ih (pos + 1) _ (by omega) (by omega), List.drop_eq_getElem_cons hlt, charAt_of_lt hlt]
      rfl

theorem parsePattern_ordinary (c : Char) (cs : List Char)
    (hord : ∀ d, d ∈ c :: cs → ordinary d = true) :
    parsePattern (c :: cs) = .ok (literalChain (.Literal c) cs) := by
  have h0 := charAt_ordinary_string hord 0
  have h1 := charAt_ordinary_string hord 1
  have hend := charAt_ordinary_string hord (c :: cs).length
  have hc : charAt (c :: cs) 0 = c := rfl
  have hrep : ∀ alt fuel, parseRepetition alt fuel (c :: cs) 0 = .ok (.Literal c, 1) := by
    intro alt fuel
    have ha := parseAtomicPattern_ordinary alt fuel (c :: cs) 0 (h0.1 (by simp)).1
    rw [hc] at ha
    exact parseRepetition_plain alt fuel (c :: cs) 0 _ _ ha h1.2.2.1 h1.2.2.2.1 h1.2.2.2.2.1
  have hcat : ∀ alt fuel, cs.length < fuel →
      parseConcatenation alt fuel (c :: cs) 0 =
        .ok (literalChain (.Literal c) cs, (c :: cs).length) := by
    intro alt fuel hf
    unfold parseConcatenation
    rw [hrep alt fuel]
    simp only []
    rw [concatenationLoop_ordinary alt fuel hord fuel 1 _ (by simp) (by simpa using hf)]
    rfl
  unfold parsePattern
  have hpa : parseAlternation ((c :: cs).length + 2) (c :: cs) 0 =
      .ok (literalChain (.Literal c) cs, (c :: cs).length) := by
    simp only [parseAlternation]
    rw [hcat _ _ (by simp; omega)]
    simp only [alternationLoop]
    rw [if_neg hend.2.2.2.2.2.1]
  rw [hpa]
  simp only []
  rw [if_neg (by rw [hend.2.1 (le_refl _)]; simp)]

theorem strchr_iff (l : List Char) (hl : ∀ x, x ∈ l → x ≠ NUL) (c : Char) :
    strchr l c = true ↔ (c ∈ l ∨ c = NUL) := by
  induction l with
  | nil => simp [strchr]
  | cons x xs ih =>
    have hx : x ≠ NUL := hl x (List.mem_cons_self x xs)
    have ih1 := ih (fun y hy => hl y (List.mem_cons_of_mem x hy))
    simp only [strchr, List.mem_cons]
    by_cases hxc : x = c
    · subst hxc; simp
    · have hcx : ¬ c = x := fun h => hxc h.symm
      simp [hxc, hcx, hx, ih1]

theorem ordinary_iff (c : Char) :
    ordinary c = true ↔ (c ∉ specialChars ∧ c ≠ NUL) := by
  unfold ordinary
  rw [Bool.not_eq_true', ← Bool.not_eq_true, strchr_iff specialChars (by decide) c]
  tauto

/-! ## The table of a concatenation of literals -/

theorem tableOf_concatenation_iff {fuel : Nat} {P1 P2 : Pattern} {str : List Char} {len : Nat}
    {t1 t2 : Table} (h1 : tableOf fuel P1 str len = .ok t1)
    (h2 : tableOf fuel P2 str len = .ok t2) :
    ∃ t, tableOf fuel (.Concatenation P1 P2) str len = .ok t ∧
      ∀ x y, t x y = true ↔ ∃ k, t1 x k = true ∧ t2 k y = true := by
  have hu1 := tableOf_upper h1
  have hu2 := tableOf_upper h2
  unfold tableOf at h1 h2
  refine ⟨concatFill t1 t2 len zeroTable, ?_, fun x y => ?_⟩
  · simp only [tableOf, matchPattern, matchConcatenationPattern, h1, h2]
  · rw [concatFill_iff]
    simp only [zeroTable_apply, Bool.false_eq_true, false_or]
    constructor
    · rintro ⟨_, _, k, _, _, h3, h4⟩; exact ⟨k, h3, h4⟩
    · rintro ⟨k, h3, h4⟩
      have := hu1 x k h3
      have := hu2 k y h4
      exact ⟨by omega, by omega, k, by omega, by omega, h3, h4⟩

theorem tableOf_literalChain (fuel : Nat) (str : List Char) (len : Nat) :
    ∀ (cs : List Char) (p : Pattern) (tp : Table), tableOf fuel p str len = .ok tp →
      ∃ t, tableOf fuel (literalChain p cs) str len = .ok t ∧
        ∀ x y, t x y = true ↔ ∃ k, tp x k = true ∧ litsAt str len cs k y := by
  intro cs
  induction cs with
  | nil =>
    intro p tp hp
    exact ⟨tp, hp, fun x y => by simp [litsAt]⟩
  | cons c cs ih =>
    intro p tp hp
    obtain ⟨tl, hl, hliff, _⟩ := tableOf_literal_width fuel c str len
    obtain ⟨t1, ht1, h1iff⟩ := tableOf_concatenation_iff hp hl
    obtain ⟨t, ht, hiff⟩ := ih (.Concatenation p (.Literal c)) t1 ht1
    refine ⟨t, ht, fun x y => ?_⟩
    rw [hiff]
    constructor
    · rintro ⟨k1, hk1, hlits⟩
      obtain ⟨k, hk, hkl⟩ := (h1iff x k1).1 hk1
      obtain ⟨h3, rfl, h5⟩ := (hliff k k1).1 hkl
      exact ⟨k, hk, h3, h5, hlits⟩
    · rintro ⟨k, hk, h3, h5, hlits⟩
      exact ⟨k + 1, (h1iff x (k + 1)).2 ⟨k, hk, (hliff k (k + 1)).2 ⟨h3, rfl, h5⟩⟩, hlits⟩

theorem litsAt_iff (text : List Char) :
    ∀ (w : List Char) (b e : Nat), litsAt text text.length w b e ↔
      (e = b + w.length ∧ (text.drop b).take w.length = w) := by
  intro w
  induction w with
  | nil => intro b e; simp only [litsAt, List.length_nil, List.take_zero, and_true]; omega
  | cons c cs ih =>
    intro b e
    simp only [litsAt, ih, List.length_cons]
    by_cases hb : b < text.length
    · rw [List.drop_eq_getElem_cons hb, List.take_succ_cons, charAt_of_lt hb, List.cons.injEq]
      constructor
      · rintro ⟨_, h1, h2, h3⟩; exact ⟨by omega, h1, h3⟩
      · rintro ⟨h1, h2, h3⟩; exact ⟨hb, h2, by omega, h3⟩
    · have hd : text.drop b = [] := List.drop_eq_nil_of_le (by omega)
      simp [hb, hd]

theorem tableOf_ordinary_string (fuel : Nat) (c : Char) (cs : List Char) (text : List Char) :
    ∃ t, tableOf fuel (literalChain (.Literal c) cs) text text.length = .ok t ∧
      ∀ b e, b ≤ e →
        (t b e = true ↔
          (e - b = (c :: cs).length ∧ (text.drop b).take (e - b) = c :: cs)) := by
  obtain ⟨tl, hl, hliff, _⟩ := tableOf_literal_width fuel c text text.length
  obtain ⟨t, ht, hiff⟩ := tableOf_literalChain fuel text text.length cs (.Literal c) tl hl
  refine ⟨t, ht, fun b e hbe => ?_⟩
  have h1 : t b e = true ↔ litsAt text text.length (c :: cs) b e := by
    rw [hiff]
    simp only [litsAt]
    constructor
    · rintro ⟨k, hk, hlits⟩
      obtain ⟨h3, rfl, h5⟩ := (hliff b k).1 hk
      exact ⟨h3, h5, hlits⟩
    · rintro ⟨h3, h5, hlits⟩
      exact ⟨b + 1, (hliff b (b + 1)).2 ⟨h3, rfl, h5⟩, hlits⟩
  rw [h1, litsAt_iff]
  constructor
  · rintro ⟨h2, h3⟩
    have h4 : e - b = (c :: cs).length := by omega
    exact ⟨h4, by rw [h4]; exact h3⟩
  · rintro ⟨h2, h3⟩
    exact ⟨by omega, by rw [← h2]; exact h3⟩

/-! ## Anchors around a pattern -/

theorem tableOf_anchored {fuel : Nat} {P : Pattern} {str : List Char} {len : Nat} {tp : Table}
    (hp : tableOf fuel P str len = .ok tp) :
    ∃ t, tableOf fuel (.Concatenation (.Concatenation .Starting P) .Ending) str len = .ok t ∧
      ∀ b e, t b e = true ↔ (b = 0 ∧ e = len ∧ tp 0 len = true) := by
  have hs : tableOf fuel .Starting str len = .ok (matchStartingPattern zeroTable) := rfl
  have he : tableOf fuel .Ending str len = .ok (matchEndingPattern len zeroTable) := rfl
  obtain ⟨t1, ht1, h1⟩ := tableOf_concatenation_iff hs hp
  obtain ⟨t, ht, h2⟩ := tableOf_concatenation_iff ht1 he
  refine ⟨t, ht, fun b e => ?_⟩
  rw [h2]
  simp only [h1, matchStartingPattern_iff, matchEndingPattern_iff, zeroTable_apply,
    Bool.false_eq_true, false_or]
  constructor
  · rintro ⟨k, ⟨k1, ⟨rfl, rfl⟩, h3⟩, rfl, rfl⟩
    exact ⟨rfl, rfl, h3⟩
  · rintro ⟨rfl, rfl, h3⟩
    exact ⟨e, ⟨0, ⟨rfl, rfl⟩, h3⟩, rfl, rfl⟩

/-! ## Single steps of the parser -/

theorem ordinary_facts {x : Char} (hx : ordinary x = true) :
    x ≠ NUL ∧ x ≠ '.' ∧ x ≠ '^' ∧ x ≠ '$' ∧ x ≠ '*' ∧ x ≠ '?' ∧ x ≠ '+' ∧ x ≠ '|' ∧
      x ≠ '(' ∧ x ≠ ')' ∧ x ≠ '[' ∧ x ≠ '{' :=
  ⟨ordinary_ne hx (by decide), ordinary_ne hx (by decide), ordinary_ne hx (by decide),
    ordinary_ne hx (by decide), ordinary_ne hx (by decide), ordinary_ne hx (by decide),
    ordinary_ne hx (by decide), ordinary_ne hx (by decide), ordinary_ne hx (by decide),
    ordinary_ne hx (by decide), ordinary_ne hx (by decide), ordinary_ne hx (by decide)⟩

theorem parseAtomicPattern_group (alt : Nat → Parsed) (fuel : Nat) (str : List Char)
    (pos : Nat) (hc : charAt str pos = '(') :
    parseAtomicPattern alt fuel str pos =
      match alt (pos + 1) with
      | .error f => .error f
      | .ok (p, pos1) =>
        if charAt str pos1 ≠ ')' then .error .InvalidPattern else .ok (p, pos1 + 1) := by
  unfold parseAtomicPattern
  rw [hc, if_neg (by decide), if_neg (by decide), if_neg (by decide), if_neg (by decide),
    if_neg (by decide), if_pos rfl]

theorem parseAtomicPattern_class (alt : Nat → Parsed) (fuel : Nat) (str : List Char)
    (pos : Nat) (hc : charAt str pos = '[') :
    parseAtomicPattern alt fuel str pos =
      match classLoop str fuel (pos + 1) with
      | .error f => .error f
      | .ok pos1 =>
        if charAt str pos1 = NUL then .error .InvalidPattern
        else
          .ok (.CharacterClass ((List.range' (pos + 1) (pos1 - (pos + 1))).map (charAt str)),
            pos1 + 1) := by
  unfold parseAtomicPattern
  rw [hc, if_neg (by decide), if_neg (by decide), if_neg (by decide), if_neg (by decide),
    if_pos rfl]

theorem parseAtomicPattern_invalid (alt : Nat → Parsed) (fuel : Nat) (str : List Char)
    (pos : Nat) (h0 : ordinary (charAt str pos) = false) (h1 : charAt str pos ≠ '.')
    (h2 : charAt str pos ≠ '^') (h3 : charAt str pos ≠ '$') (h4 : charAt str pos ≠ '[')
    (h5 : charAt str pos ≠ '(') :
    parseAtomicPattern alt fuel str pos = .error .InvalidPattern := by
  unfold parseAtomicPattern
  rw [h0, if_neg (by decide), if_neg h1, if_neg h2, if_neg h3, if_neg h4, if_neg h5]

theorem parseRepetition_error (alt : Nat → Parsed) (fuel : Nat) (str : List Char)
    (pos : Nat) (f : Fault) (ha : parseAtomicPattern alt fuel str pos = .error f) :
    parseRepetition alt fuel str pos = .error f := by
  unfold parseRepetition
  rw [ha]

theorem parseRepetition_star (alt : Nat → Parsed) (fuel : Nat) (str : List Char)
    (pos : Nat) (p : Pattern) (pos1 : Nat)
    (ha : parseAtomicPattern alt fuel str pos = .ok (p, pos1)) (h : charAt str pos1 = '*') :
    parseRepetition alt fuel str pos = .ok (.NoneOrMoreCharacter p, pos1 + 1) := by
  unfold parseRepetition
  rw [ha]
  simp only [if_pos h]

theorem parseRepetition_plus (alt : Nat → Parsed) (fuel : Nat) (str : List Char)
    (pos : Nat) (p : Pattern) (pos1 : Nat)
    (ha : parseAtomicPattern alt fuel str pos = .ok (p, pos1)) (h : charAt str pos1 = '+') :
    parseRepetition alt fuel str pos = .ok (.OneOrMoreCharacter p, pos1 + 1) := by
  unfold parseRepetition
  rw [ha]
  simp only [h, if_neg (by decide : ¬ ('+' = '*')), if_pos]

theorem parseRepetition_question (alt : Nat → Parsed) (fuel : Nat) (str : List Char)
    (pos : Nat) (p : Pattern) (pos1 : Nat)
    (ha : parseAtomicPattern alt fuel str pos = .ok (p, pos1)) (h : charAt str pos1 = '?') :
    parseRepetition alt fuel str pos = .ok (.NoneOrOneCharacter p, pos1 + 1) := by
  unfold parseRepetition
  rw [ha]
  simp only [h, if_neg (by decide : ¬ ('?' = '*')), if_neg (by decide : ¬ ('?' = '+')), if_pos]

theorem concatenationLoop_succ (alt : Nat → Parsed) (fuel : Nat) (str : List Char)
    (n : Nat) (p1 : Pattern) (pos : Nat) :
    concatenationLoop alt fuel str (n + 1) p1 pos =
      if charAt str pos ≠ NUL ∧ charAt str pos ≠ '|' ∧ charAt str pos ≠ ')' then
        match parseRepetition alt fuel str pos with
        | .error f => .error f
        | .ok (p2, pos1) => concatenationLoop alt fuel str n (.Concatenation p1 p2) pos1
      else .ok (p1, pos) := rfl

theorem concatenationLoop_stop (alt : Nat → Parsed) (fuel : Nat) (str : List Char)
    (n : Nat) (p1 : Pattern) (pos : Nat)
    (h : charAt str pos = NUL ∨ charAt str pos = '|' ∨ charAt str pos = ')') :
    concatenationLoop alt fuel str (n + 1) p1 pos = .ok (p1, pos) := by
  rw [concatenationLoop_succ, if_neg]
  rintro ⟨h1, h2, h3⟩
  rcases h with h | h | h
  · exact h1 h
  · exact h2 h
  · exact h3 h

theorem concatenationLoop_step (alt : Nat → Parsed) (fuel : Nat) (str : List Char)
    (n : Nat) (p1 p2 : Pattern) (pos pos1 : Nat)
    (h1 : charAt str pos ≠ NUL) (h2 : charAt str pos ≠ '|') (h3 : charAt str pos ≠ ')')
    (hr : parseRepetition alt fuel str pos = .ok (p2, pos1)) :
    concatenationLoop alt fuel str (n + 1) p1 pos =
      concatenationLoop alt fuel str n (.Concatenation p1 p2) pos1 := by
  rw [concatenationLoop_succ, if_pos ⟨h1, h2, h3⟩, hr]

theorem concatenationLoop_step_error (alt : Nat → Parsed) (fuel : Nat) (str : List Char)
    (n : Nat) (p1 : Pattern) (pos : Nat) (f : Fault)
    (h1 : charAt str pos ≠ NUL) (h2 : charAt str pos ≠ '|') (h3 : charAt str pos ≠ ')')
    (hr : parseRepetition alt fuel str pos = .error f) :
    concatenationLoop alt fuel str (n + 1) p1 pos = .error f := by
  rw [concatenationLoop_succ, if_pos ⟨h1, h2, h3⟩, hr]

theorem alternationLoop_succ (alt : Nat → Parsed) (fuel : Nat) (str : List Char)
    (n : Nat) (p1 : Pattern) (pos : Nat) :
    alternationLoop alt fuel str (n + 1) p1 pos =
      if charAt str pos = '|' then
        match parseConcatenation alt fuel str (pos + 1) with
        | .error f => .error f
        | .ok (p2, pos1) => alternationLoop alt fuel str n (.Alternation p1 p2) pos1
      else .ok (p1, pos) := rfl

theorem alternationLoop_stop (alt : Nat → Parsed) (fuel : Nat) (str : List Char)
    (n : Nat) (p1 : Pattern) (pos : Nat) (h : charAt str pos ≠ '|') :
    alternationLoop alt fuel str (n + 1) p1 pos = .ok (p1, pos) := by
  rw [alternationLoop_succ, if_neg h]

theorem alternationLoop_step (alt : Nat → Parsed) (fuel : Nat) (str : List Char)
    (n : Nat) (p1 p2 : Pattern) (pos pos1 : Nat) (h : charAt str pos = '|')
    (hc : parseConcatenation alt fuel str (pos + 1) = .ok (p2, pos1)) :
    alternationLoop alt fuel str (n + 1) p1 pos =
      alternationLoop alt fuel str n (.Alternation p1 p2) pos1 := by
  rw [alternationLoop_succ, if_pos h, hc]

theorem parseConcatenation_of (alt : Nat → Parsed) (fuel : Nat) (str : List Char)
    (pos : Nat) (p1 : Pattern) (pos1 : Nat)
    (hr : parseRepetition alt fuel str pos = .ok (p1, pos1)) :
    parseConcatenation alt fuel str pos = concatenationLoop alt fuel str fuel p1 pos1 := by
  unfold parseConcatenation
  rw [hr]

theorem parseConcatenation_error (alt : Nat → Parsed) (fuel : Nat) (str : List Char)
    (pos : Nat) (f : Fault) (hr : parseRepetition alt fuel str pos = .error f) :
    parseConcatenation alt fuel str pos = .error f := by
  unfold parseConcatenation
  rw [hr]

theorem parseAlternation_succ (fuel : Nat) (str : List Char) (pos : Nat) :
    parseAlternation (fuel + 1) str pos =
      match parseConcatenation (parseAlternation fuel str) (fuel + 1) str pos with
      | .error f => .error f
      | .ok (p1, pos1) =>
        alternationLoop (parseAlternation fuel str) (fuel + 1) str (fuel + 1) p1 pos1 := rfl

theorem parseAlternation_of (fuel : Nat) (str : List Char) (pos : Nat) (p1 : Pattern)
    (pos1 : Nat)
    (hc : parseConcatenation (parseAlternation fuel str) (fuel + 1) str pos = .ok (p1, pos1)) :
    parseAlternation (fuel + 1) str pos =
      alternationLoop (parseAlternation fuel str) (fuel + 1) str (fuel + 1) p1 pos1 := by
  rw [parseAlternation_succ, hc]

theorem parseAlternation_error (fuel : Nat) (str : List Char) (pos : Nat) (f : Fault)
    (hc : parseConcatenation (parseAlternation fuel str) (fuel + 1) str pos = .error f) :
    parseAlternation (fuel + 1) str pos = .error f := by
  rw [parseAlternation_succ, hc]

theorem parsePattern_of (str : List Char) (pat : Pattern) (pos : Nat)
    (ha : parseAlternation (str.length + 2) str 0 = .ok (pat, pos))
    (hend : charAt str pos = NUL) : parsePattern str = .ok pat := by
  unfold parsePattern
  rw [ha]
  simp only [hend, ne_eq, not_true_eq_false, if_false]

theorem parsePattern_error (str : List Char) (f : Fault)
    (ha : parseAlternation (str.length + 2) str 0 = .error f) :
    parsePattern str = .error f := by
  unfold parsePattern
  rw [ha]

/-! ## Parsing at a position inside a longer string -/

theorem charAt_drop (str : List Char) (pos i : Nat) :
    charAt (str.drop pos) i = charAt str (pos + i) := by
  unfold charAt
  simp only [List.getD_eq_getElem?_getD, List.getElem?_drop]

theorem charAt_of_drop {str : List Char} {pos : Nat} {l : List Char}
    (h : str.drop pos = l) (i : Nat) : charAt str (pos + i) = charAt l i := by
  rw [← h, charAt_drop]

theorem drop_succ_of_drop {str : List Char} {pos : Nat} {c : Char} {l : List Char}
    (h : str.drop pos = c :: l) : str.drop (pos + 1) = l := by
  have h1 : str.drop (pos + 1) = (str.drop pos).drop 1 := by
    rw [List.drop_drop, Nat.add_comm]
  rw [h1, h]
  rfl

theorem drop_add_of_drop {str : List Char} {pos : Nat} (u : List Char) {l : List Char}
    (h : str.drop pos = u ++ l) : str.drop (pos + u.length) = l := by
  induction u generalizing pos with
  | nil => simpa using h
  | cons c u ih =>
    have h1 := ih (drop_succ_of_drop h)
    rw [List.length_cons, ← h1]
    congr 1
    omega

/-- The characters that may follow a word: the terminator, `|` or `)`. -/
theorem stop_not_quantifier {c : Char} (h : c = NUL ∨ c = '|' ∨ c = ')') :
    c ≠ '*' ∧ c ≠ '+' ∧ c ≠ '?' := by
  rcases h with h | h | h <;> (subst h; decide)

theorem concatenationLoop_word (alt : Nat → Parsed) (fuel : Nat) (str rest : List Char)
    (hstop : charAt rest 0 = NUL ∨ charAt rest 0 = '|' ∨ charAt rest 0 = ')') :
    ∀ (u : List Char) (pos : Nat) (p1 : Pattern) (n : Nat), str.drop pos = u ++ rest →
      (∀ d, d ∈ u → ordinary d = true) → u.length < n →
      concatenationLoop alt fuel str n p1 pos = .ok (literalChain p1 u, pos + u.length) := by
  intro u
  induction u with
  | nil =>
    intro pos p1 n hd _ hn
    obtain ⟨m, rfl⟩ := Nat.exists_eq_add_of_lt hn
    have h0 : charAt str pos = charAt rest 0 := by
      have := charAt_of_drop hd 0
      simpa using this
    have e1 : 0 + m + 1 = m + 1 := by omega
    rw [List.length_nil, e1, concatenationLoop_stop alt fuel str m p1 pos (by rw [h0]; exact hstop)]
    rfl
  | cons d u ih =>
    intro pos p1 n hd hord hn
    obtain ⟨m, rfl⟩ := Nat.exists_eq_add_of_lt hn
    have e1 : (d :: u).length + m + 1 = (u.length + m + 1) + 1 := by simp; omega
    have h0 : charAt str pos = d := by
      have := charAt_of_drop hd 0
      simpa [charAt] using this
    have hdo : ordinary d = true := hord d (List.mem_cons_self d u)
    obtain ⟨f0, _, _, _, _, _, _, f7, _, f9, _, _⟩ := ordinary_facts hdo
    have hd1 : str.drop (pos + 1) = u ++ rest := drop_succ_of_drop hd
    have hnext : charAt str (pos + 1) ≠ '*' ∧ charAt str (pos + 1) ≠ '+' ∧
        charAt str (pos + 1) ≠ '?' := by
      have h1 : charAt str (pos + 1) = charAt (u ++ rest) 0 := by
        have := charAt_of_drop hd1 0
        simpa using this
      rw [h1]
      cases u with
      | nil => exact stop_not_quantifier hstop
      | cons e u1 =>
        have heo : ordinary e = true :=
          hord e (List.mem_cons_of_mem d (List.mem_cons_self e u1))
        obtain ⟨_, _, _, _, g4, g5, g6, _⟩ := ordinary_facts heo
        exact ⟨g4, g6, g5⟩
    have hrep : parseRepetition alt fuel str pos = .ok (.Literal d, pos + 1) := by
      have ha := parseAtomicPattern_ordinary alt fuel str pos (by rw [h0]; exact hdo)
      rw [h0] at ha
      exact parseRepetition_plain alt fuel str pos _ _ ha hnext.1 hnext.2.1 hnext.2.2
    rw [e1, concatenationLoop_step alt fuel str _ p1 _ pos _ (by rw [h0]; exact f0)
      (by rw [h0]; exact f7) (by rw [h0]; exact f9) hrep,
      ih (pos + 1) _ _ hd1 (fun e he => hord e (List.mem_cons_of_mem d he)) (by omega)]
    have e2 : pos + 1 + u.length = pos + (d :: u).length := by simp; omega
    rw [e2]
    rfl

theorem parseConcatenation_word (alt : Nat → Parsed) (fuel : Nat) (str rest : List Char)
    (hstop : charAt rest 0 = NUL ∨ charAt rest 0 = '|' ∨ charAt rest 0 = ')')
    (w : List Char) (pos : Nat) (hne : w ≠ []) (hd : str.drop pos = w ++ rest)
    (hord : ∀ d, d ∈ w → ordinary d = true) (hfuel : w.length ≤ fuel) :
    parseConcatenation alt fuel str pos = .ok (literalWord w, pos + w.length) := by
  cases w with
  | nil => exact absurd rfl hne
  | cons c cs =>
    have hc : charAt str pos = c := by
      have := charAt_of_drop hd 0
      simpa [charAt] using this
    have hco : ordinary c = true := hord c (List.mem_cons_self c cs)
    have hd1 : str.drop (pos + 1) = cs ++ rest := drop_succ_of_drop hd
    have hnext : charAt str (pos + 1) ≠ '*' ∧ charAt str (pos + 1) ≠ '+' ∧
        charAt str (pos + 1) ≠ '?' := by
      have h1 : charAt str (pos + 1) = charAt (cs ++ rest) 0 := by
        have := charAt_of_drop hd1 0
        simpa using this
      rw [h1]
      cases cs with
      | nil => exact stop_not_quantifier hstop
      | cons e u1 =>
        have heo : ordinary e = true :=
          hord e (List.mem_cons_of_mem c (List.mem_cons_self e u1))
        obtain ⟨_, _, _, _, g4, g5, g6, _⟩ := ordinary_facts heo
        exact ⟨g4, g6, g5⟩
    have hrep : parseRepetition alt fuel str pos = .ok (.Literal c, pos + 1) := by
      have ha := parseAtomicPattern_ordinary alt fuel str pos (by rw [hc]; exact hco)
      rw [hc] at ha
      exact parseRepetition_plain alt fuel str pos _ _ ha hnext.1 hnext.2.1 hnext.2.2
    rw [parseConcatenation_of alt fuel str pos _ _ hrep,
      concatenationLoop_word alt fuel str rest hstop cs (pos + 1) (.Literal c) fuel hd1
        (fun e he => hord e (List.mem_cons_of_mem c he)) (by simp at hfuel; omega)]
    have e2 : pos + 1 + cs.length = pos + (c :: cs).length := by simp; omega
    rw [e2]
    rfl

theorem barJoin_stop (vs : List (List Char)) (rest : List Char)
    (hrest : charAt rest 0 = NUL ∨ charAt rest 0 = ')') :
    charAt (barJoin vs ++ rest) 0 = NUL ∨ charAt (barJoin vs ++ rest) 0 = '|' ∨
      charAt (barJoin vs ++ rest) 0 = ')' := by
  cases vs with
  | nil =>
    rcases hrest with h | h
    · exact Or.inl h
    · exact Or.inr (Or.inr h)
  | cons v vs => exact Or.inr (Or.inl rfl)

theorem alternationLoop_words (alt : Nat → Parsed) (fuel : Nat) (str rest : List Char)
    (hrest : charAt rest 0 = NUL ∨ charAt rest 0 = ')') :
    ∀ (ws : List (List Char)) (pos : Nat) (p1 : Pattern) (n : Nat),
      str.drop pos = barJoin ws ++ rest →
      (∀ v, v ∈ ws → v ≠ [] ∧ ∀ d, d ∈ v → ordinary d = true) →
      (barJoin ws).length < n → (barJoin ws).length ≤ fuel →
      alternationLoop alt fuel str n p1 pos =
        .ok (ws.foldl (fun p v => .Alternation p (literalWord v)) p1,
          pos + (barJoin ws).length) := by
  intro ws
  induction ws with
  | nil =>
    intro pos p1 n hd _ hn _
    obtain ⟨m, rfl⟩ := Nat.exists_eq_add_of_lt hn
    have h0 : charAt str pos = charAt rest 0 := by
      have := charAt_of_drop hd 0
      simpa [barJoin] using this
    have hnb : charAt str pos ≠ '|' := by
      rw [h0]
      rcases hrest with h | h <;> (rw [h]; decide)
    have e1 : (barJoin []).length + m + 1 = m + 1 := by simp [barJoin]
    rw [e1, alternationLoop_stop alt fuel str m p1 pos hnb]
    rfl
  | cons v vs ih =>
    intro pos p1 n hd hws hn hfuel
    obtain ⟨m, rfl⟩ := Nat.exists_eq_add_of_lt hn
    have hlen : (barJoin (v :: vs)).length = 1 + v.length + (barJoin vs).length := by
      simp [barJoin]; omega
    have hd0 : str.drop pos = '|' :: (v ++ (barJoin vs ++ rest)) := by
      rw [hd]; simp [barJoin]
    have h0 : charAt str pos = '|' := by
      have := charAt_of_drop hd0 0
      simpa [charAt] using this
    have hd1 : str.drop (pos + 1) = v ++ (barJoin vs ++ rest) := drop_succ_of_drop hd0
    have hv := hws v (List.mem_cons_self v vs)
    have hcat := parseConcatenation_word alt fuel str (barJoin vs ++ rest)
      (barJoin_stop vs rest hrest) v (pos + 1) hv.1 hd1 hv.2 (by omega)
    have hd2 : str.drop (pos + 1 + v.length) = barJoin vs ++ rest := drop_add_of_drop v hd1
    have e1 : (barJoin (v :: vs)).length + m + 1 = (v.length + (barJoin vs).length + m + 1) + 1 := by
      omega
    rw [e1, alternationLoop_step alt fuel str _ p1 _ pos _ h0 hcat,
      ih (pos + 1 + v.length) _ _ hd2 (fun u hu => hws u (List.mem_cons_of_mem v hu))
        (by omega) (by omega)]
    have e2 : pos + 1 + v.length + (barJoin vs).length = pos + (barJoin (v :: vs)).length := by
      omega
    rw [e2]
    rfl

theorem parsePattern_words (w : List Char) (ws : List (List Char)) (hne : w ≠ [])
    (hw : ∀ d, d ∈ w → ordinary d = true)
    (hws : ∀ v, v ∈ ws → v ≠ [] ∧ ∀ d, d ∈ v → ordinary d = true) :
    parsePattern (w ++ barJoin ws) =
      .ok (ws.foldl (fun p v => .Alternation p (literalWord v)) (literalWord w)) := by
  have hlen : (w ++ barJoin ws).length = w.length + (barJoin ws).length := List.length_append _ _
  have hd : (w ++ barJoin ws).drop 0 = w ++ (barJoin ws ++ []) := by simp
  have hcat : ∀ alt, parseConcatenation alt ((w ++ barJoin ws).length + 1 + 1) (w ++ barJoin ws) 0 =
      .ok (literalWord w, 0 + w.length) := fun alt =>
    parseConcatenation_word alt _ _ (barJoin ws ++ [])
      (barJoin_stop ws [] (Or.inl rfl)) w 0 hne hd hw (by omega)
  have hd2 : (w ++ barJoin ws).drop (0 + w.length) = barJoin ws ++ [] := drop_add_of_drop w hd
  have hloop := alternationLoop_words
    (parseAlternation ((w ++ barJoin ws).length + 1) (w ++ barJoin ws))
    ((w ++ barJoin ws).length + 1 + 1) (w ++ barJoin ws) [] (Or.inl rfl) ws (0 + w.length)
    (literalWord w) ((w ++ barJoin ws).length + 1 + 1) hd2 hws (by omega) (by omega)
  refine parsePattern_of _ _ (0 + w.length + (barJoin ws).length) ?_ ?_
  · rw [parseAlternation_of _ _ 0 _ _ (hcat _)]
    exact hloop
  · exact charAt_of_le (by omega)

/-! ## Quantified atoms and groups -/

theorem parsePattern_xyq (x y q : Char) (Qp : Pattern) (hx : ordinary x = true)
    (hy : ordinary y = true)
    (hq : ∀ alt fuel, parseAtomicPattern alt fuel [x, y, q] 1 = .ok (.Literal y, 2) →
      parseRepetition alt fuel [x, y, q] 1 = .ok (Qp, 3)) :
    parsePattern [x, y, q] = .ok (.Concatenation (.Literal x) Qp) := by
  obtain ⟨y0, _, _, _, y4, y5, y6, y7, _, y9, _, _⟩ := ordinary_facts hy
  have hrep0 : ∀ alt fuel, parseRepetition alt fuel [x, y, q] 0 = .ok (.Literal x, 1) :=
    fun alt fuel => parseRepetition_plain alt fuel _ 0 _ _
      (parseAtomicPattern_ordinary alt fuel [x, y, q] 0 hx) y4 y6 y5
  have hrep1 : ∀ alt fuel, parseRepetition alt fuel [x, y, q] 1 = .ok (Qp, 3) :=
    fun alt fuel => hq alt fuel (parseAtomicPattern_ordinary alt fuel [x, y, q] 1 hy)
  have hcat : ∀ alt, parseConcatenation alt 5 [x, y, q] 0 =
      .ok (.Concatenation (.Literal x) Qp, 3) := by
    intro alt
    rw [parseConcatenation_of alt 5 _ 0 _ _ (hrep0 alt 5)]
    show concatenationLoop alt 5 [x, y, q] (4 + 1) _ 1 = _
    rw [concatenationLoop_step alt 5 [x, y, q] 4 _ _ 1 3 y0 y7 y9 (hrep1 alt 5)]
    exact concatenationLoop_stop alt 5 _ 3 _ 3 (Or.inl rfl)
  have ha : parseAlternation 5 [x, y, q] 0 = .ok (.Concatenation (.Literal x) Qp, 3) := by
    show parseAlternation (4 + 1) [x, y, q] 0 = _
    rw [parseAlternation_of 4 _ 0 _ _ (hcat _)]
    exact alternationLoop_stop _ _ _ 4 _ 3 (show NUL ≠ '|' by decide)
  exact parsePattern_of _ _ 3 ha rfl

theorem parsePattern_group_q (x y q : Char) (Qp : Pattern) (hx : ordinary x = true)
    (hy : ordinary y = true)
    (hq : ∀ alt fuel,
      parseAtomicPattern alt fuel ['(', x, y, ')', q] 0 =
        .ok (.Concatenation (.Literal x) (.Literal y), 4) →
      parseRepetition alt fuel ['(', x, y, ')', q] 0 = .ok (Qp, 5)) :
    parsePattern ['(', x, y, ')', q] = .ok Qp := by
  have hword : ∀ d, d ∈ [x, y] → ordinary d = true := by
    intro d hd
    rcases List.mem_cons.1 hd with rfl | hd1
    · exact hx
    · rcases List.mem_cons.1 hd1 with rfl | hd2
      · exact hy
      · exact absurd hd2 (List.not_mem_nil d)
  have hinner : parseAlternation 6 ['(', x, y, ')', q] 1 =
      .ok (.Concatenation (.Literal x) (.Literal y), 3) := by
    have hcat := parseConcatenation_word (parseAlternation 5 ['(', x, y, ')', q]) 6
      ['(', x, y, ')', q] [')', q] (Or.inr (Or.inr rfl)) [x, y] 1 (by simp) rfl hword
      (by simp)
    show parseAlternation (5 + 1) ['(', x, y, ')', q] 1 = _
    rw [parseAlternation_of 5 _ 1 _ _ hcat]
    exact alternationLoop_stop _ _ _ 5 _ 3 (show ')' ≠ '|' by decide)
  have hatom : parseAtomicPattern (parseAlternation 6 ['(', x, y, ')', q]) 7
      ['(', x, y, ')', q] 0 = .ok (.Concatenation (.Literal x) (.Literal y), 4) := by
    rw [parseAtomicPattern_group _ 7 ['(', x, y, ')', q] 0 rfl, hinner]
    simp only []
    rw [if_neg (fun h => h rfl)]
  have hcat : parseConcatenation (parseAlternation 6 ['(', x, y, ')', q]) 7
      ['(', x, y, ')', q] 0 = .ok (Qp, 5) := by
    rw [parseConcatenation_of _ 7 _ 0 _ _ (hq _ 7 hatom)]
    exact concatenationLoop_stop _ 7 _ 6 _ 5 (Or.inl rfl)
  have ha : parseAlternation 7 ['(', x, y, ')', q] 0 = .ok (Qp, 5) := by
    show parseAlternation (6 + 1) ['(', x, y, ')', q] 0 = _
    rw [parseAlternation_of 6 _ 0 _ _ hcat]
    exact alternationLoop_stop _ _ _ 6 _ 5 (show NUL ≠ '|' by decide)
  exact parsePattern_of _ _ 5 ha rfl

/-! ## Bracket expressions -/

theorem classLoop_succ (str : List Char) (fuel pos : Nat) :
    classLoop str (fuel + 1) pos =
      if charAt str pos ≠ NUL ∧ charAt str pos ≠ ']' then classLoop str fuel (pos + 1)
      else .ok pos := rfl

theorem classLoop_scan (str rest : List Char) :
    ∀ (v : List Char) (pos fuel : Nat), str.drop pos = v ++ ']' :: rest →
      (∀ c, c ∈ v → c ≠ ']' ∧ c ≠ NUL) → v.length < fuel →
      classLoop str fuel pos = .ok (pos + v.length) := by
  intro v
  induction v with
  | nil =>
    intro pos fuel hd _ hf
    obtain ⟨m, rfl⟩ := Nat.exists_eq_add_of_lt hf
    have h0 : charAt str pos = ']' := by
      have := charAt_of_drop hd 0
      simpa [charAt] using this
    have e1 : ([] : List Char).length + m + 1 = m + 1 := by simp
    rw [e1, classLoop_succ, if_neg (fun h => h.2 h0)]
    rfl
  | cons c v ih =>
    intro pos fuel hd hv hf
    obtain ⟨m, rfl⟩ := Nat.exists_eq_add_of_lt hf
    have h0 : charAt str pos = c := by
      have := charAt_of_drop hd 0
      simpa [charAt] using this
    have hc := hv c (List.mem_cons_self c v)
    have e1 : (c :: v).length + m + 1 = (v.length + m + 1) + 1 := by simp; omega
    rw [e1, classLoop_succ, if_pos ⟨by rw [h0]; exact hc.2, by rw [h0]; exact hc.1⟩,
      ih (pos + 1) _ (drop_succ_of_drop hd) (fun d hd1 => hv d (List.mem_cons_of_mem c hd1))
        (by omega)]
    have e2 : pos + 1 + v.length = pos + (c :: v).length := by simp; omega
    rw [e2]

theorem map_charAt_range' (str rest : List Char) :
    ∀ (v : List Char) (a : Nat), str.drop a = v ++ rest →
      (List.range' a v.length).map (charAt str) = v := by
  intro v
  induction v with
  | nil => intro a _; rfl
  | cons c v ih =>
    intro a hd
    have h0 : charAt str a = c := by
      have := charAt_of_drop hd 0
      simpa [charAt] using this
    rw [List.length_cons, List.range'_succ, List.map_cons, h0, ih (a + 1) (drop_succ_of_drop hd)]

theorem parseAtomicPattern_class_ok (alt : Nat → Parsed) (fuel : Nat) (str rest : List Char)
    (v : List Char) (pos : Nat) (hd : str.drop pos = '[' :: (v ++ ']' :: rest))
    (hv : ∀ c, c ∈ v → c ≠ ']' ∧ c ≠ NUL) (hf : v.length < fuel) :
    parseAtomicPattern alt fuel str pos = .ok (.CharacterClass v, pos + 1 + v.length + 1) := by
  have h0 : charAt str pos = '[' := by
    have := charAt_of_drop hd 0
    simpa [charAt] using this
  have hd1 : str.drop (pos + 1) = v ++ ']' :: rest := drop_succ_of_drop hd
  have hend : charAt str (pos + 1 + v.length) = ']' := by
    have := charAt_of_drop (drop_add_of_drop v hd1) 0
    simpa [charAt] using this
  rw [parseAtomicPattern_class alt fuel str pos h0, classLoop_scan str rest v (pos + 1) fuel hd1 hv hf]
  simp only []
  rw [if_neg (by rw [hend]; decide)]
  have e1 : pos + 1 + v.length - (pos + 1) = v.length := by omega
  rw [e1, map_charAt_range' str (']' :: rest) v (pos + 1) hd1]

theorem parsePattern_class (v : List Char) (hv : ∀ c, c ∈ v → c ≠ ']' ∧ c ≠ NUL) :
    parsePattern ('[' :: (v ++ [']'])) = .ok (.CharacterClass v) := by
  have hlen : ('[' :: (v ++ [']'])).length = v.length + 2 := by simp
  have hendc : charAt ('[' :: (v ++ [']'])) (0 + 1 + v.length + 1) = NUL :=
    charAt_of_le (by rw [hlen]; omega)
  have hatom : ∀ alt, parseAtomicPattern alt (('[' :: (v ++ [']'])).length + 1 + 1)
      ('[' :: (v ++ [']'])) 0 = .ok (.CharacterClass v, 0 + 1 + v.length + 1) := fun alt =>
    parseAtomicPattern_class_ok alt _ _ [] v 0 rfl hv (by rw [hlen]; omega)
  have hq := stop_not_quantifier (Or.inl hendc)
  have hrep : ∀ alt, parseRepetition alt (('[' :: (v ++ [']'])).length + 1 + 1)
      ('[' :: (v ++ [']'])) 0 = .ok (.CharacterClass v, 0 + 1 + v.length + 1) := fun alt =>
    parseRepetition_plain alt _ _ 0 _ _ (hatom alt) hq.1 hq.2.1 hq.2.2
  have hcat : ∀ alt, parseConcatenation alt (('[' :: (v ++ [']'])).length + 1 + 1)
      ('[' :: (v ++ [']'])) 0 = .ok (.CharacterClass v, 0 + 1 + v.length + 1) := by
    intro alt
    rw [parseConcatenation_of alt _ _ 0 _ _ (hrep alt)]
    exact concatenationLoop_stop alt _ _ _ _ _ (Or.inl hendc)
  refine parsePattern_of _ _ (0 + 1 + v.length + 1) ?_ hendc
  rw [parseAlternation_of _ _ 0 _ _ (hcat _)]
  exact alternationLoop_stop _ _ _ _ _ _ (by rw [hendc]; decide)

/-! ## Parsing behind one extra leading character -/

theorem charAt_cons_succ (c : Char) (str : List Char) (i : Nat) :
    charAt (c :: str) (i + 1) = charAt str i := rfl

theorem classLoop_cons (c : Char) (str : List Char) :
    ∀ fuel pos, classLoop (c :: str) fuel (pos + 1) =
      match classLoop str fuel pos with
      | .error f => .error f
      | .ok q => .ok (q + 1) := by
  intro fuel
  induction fuel with
  | zero => intro pos; rfl
  | succ fuel ih =>
    intro pos
    rw [classLoop_succ, classLoop_succ, charAt_cons_succ]
    by_cases h : charAt str pos ≠ NUL ∧ charAt str pos ≠ ']'
    · rw [if_pos h, if_pos h, ih (pos + 1)]
    · rw [if_neg h, if_neg h]

theorem map_charAt_cons (c : Char) (str : List Char) :
    ∀ n a, (List.range' (a + 1) n).map (charAt (c :: str)) =
      (List.range' a n).map (charAt str) := by
  intro n
  induction n with
  | zero => intro a; rfl
  | succ n ih =>
    intro a
    rw [List.range'_succ, List.range'_succ, List.map_cons, List.map_cons, ih (a + 1),
      charAt_cons_succ]

theorem parseAtomicPattern_cons (c : Char) (str : List Char) (alt alt1 : Nat → Parsed)
    (halt : ∀ q, alt1 (q + 1) = bump (alt q)) (fuel pos : Nat) :
    parseAtomicPattern alt1 fuel (c :: str) (pos + 1) =
      bump (parseAtomicPattern alt fuel str pos) := by
  unfold parseAtomicPattern
  rw [charAt_cons_succ]
  by_cases h0 : ordinary (charAt str pos) = true
  · rw [if_pos h0, if_pos h0]; rfl
  rw [if_neg h0, if_neg h0]
  by_cases h1 : charAt str pos = '.'
  · rw [if_pos h1, if_pos h1]; rfl
  rw [if_neg h1, if_neg h1]
  by_cases h2 : charAt str pos = '^'
  · rw [if_pos h2, if_pos h2]; rfl
  rw [if_neg h2, if_neg h2]
  by_cases h3 : charAt str pos = '$'
  · rw [if_pos h3, if_pos h3]; rfl
  rw [if_neg h3, if_neg h3]
  by_cases h4 : charAt str pos = '['
  · rw [if_pos h4, if_pos h4, classLoop_cons c str fuel (pos + 1)]
    cases hcl : classLoop str fuel (pos + 1) with
    | error f => rfl
    | ok pos1 =>
      simp only [charAt_cons_succ]
      by_cases h5 : charAt str pos1 = NUL
      · rw [if_pos h5, if_pos h5]; rfl
      · rw [if_neg h5, if_neg h5]
        have e1 : pos1 + 1 - (pos + 1 + 1) = pos1 - (pos + 1) := by omega
        rw [e1, map_charAt_cons c str]
        rfl
  rw [if_neg h4, if_neg h4]
  by_cases h5 : charAt str pos = '('
  · rw [if_pos h5, if_pos h5, halt (pos + 1)]
    cases hr : alt (pos + 1) with
    | error f => rfl
    | ok r =>
      obtain ⟨p, pos1⟩ := r
      simp only [bump, charAt_cons_succ]
      by_cases h6 : charAt str pos1 ≠ ')'
      · rw [if_pos h6, if_pos h6]
      · rw [if_neg h6, if_neg h6]
  · rw [if_neg h5, if_neg h5]; rfl

theorem parseRepetition_cons (c : Char) (str : List Char) (alt alt1 : Nat → Parsed)
    (halt : ∀ q, alt1 (q + 1) = bump (alt q)) (fuel pos : Nat) :
    parseRepetition alt1 fuel (c :: str) (pos + 1) =
      bump (parseRepetition alt fuel str pos) := by
  unfold parseRepetition
  rw [parseAtomicPattern_cons c str alt alt1 halt fuel pos]
  cases hr : parseAtomicPattern alt fuel str pos with
  | error f => rfl
  | ok r =>
    obtain ⟨p, pos1⟩ := r
    simp only [bump, charAt_cons_succ]
    by_cases h1 : charAt str pos1 = '*'
    · rw [if_pos h1, if_pos h1]
    rw [if_neg h1, if_neg h1]
    by_cases h2 : charAt str pos1 = '+'
    · rw [if_pos h2, if_pos h2]
    rw [if_neg h2, if_neg h2]
    by_cases h3 : charAt str pos1 = '?'
    · rw [if_pos h3, if_pos h3]
    · rw [if_neg h3, if_neg h3]

theorem concatenationLoop_cons (c : Char) (str : List Char) (alt alt1 : Nat → Parsed)
    (halt : ∀ q, alt1 (q + 1) = bump (alt q)) (fuel : Nat) :
    ∀ n p1 pos, concatenationLoop alt1 fuel (c :: str) n p1 (pos + 1) =
      bump (concatenationLoop alt fuel str n p1 pos) := by
  intro n
  induction n with
  | zero => intro p1 pos; rfl
  | succ n ih =>
    intro p1 pos
    rw [concatenationLoop_succ, concatenationLoop_succ, charAt_cons_succ,
      parseRepetition_cons c str alt alt1 halt fuel pos]
    by_cases h : charAt str pos ≠ NUL ∧ charAt str pos ≠ '|' ∧ charAt str pos ≠ ')'
    · rw [if_pos h, if_pos h]
      cases hr : parseRepetition alt fuel str pos with
      | error f => rfl
      | ok r =>
        obtain ⟨p2, pos1⟩ := r
        simp only [bump]
        exact ih _ pos1
    · rw [if_neg h, if_neg h]; rfl

theorem parseConcatenation_cons (c : Char) (str : List Char) (alt alt1 : Nat → Parsed)
    (halt : ∀ q, alt1 (q + 1) = bump (alt q)) (fuel pos : Nat) :
    parseConcatenation alt1 fuel (c :: str) (pos + 1) =
      bump (parseConcatenation alt fuel str pos) := by
  unfold parseConcatenation
  rw [parseRepetition_cons c str alt alt1 halt fuel pos]
  cases hr : parseRepetition alt fuel str pos with
  | error f => rfl
  | ok r =>
    obtain ⟨p1, pos1⟩ := r
    simp only [bump]
    exact concatenationLoop_cons c str alt alt1 halt fuel fuel p1 pos1

theorem alternationLoop_cons (c : Char) (str : List Char) (alt alt1 : Nat → Parsed)
    (halt : ∀ q, alt1 (q + 1) = bump (alt q)) (fuel : Nat) :
    ∀ n p1 pos, alternationLoop alt1 fuel (c :: str) n p1 (pos + 1) =
      bump (alternationLoop alt fuel str n p1 pos) := by
  intro n
  induction n with
  | zero => intro p1 pos; rfl
  | succ n ih =>
    intro p1 pos
    rw [alternationLoop_succ, alternationLoop_succ, charAt_cons_succ,
      parseConcatenation_cons c str alt alt1 halt fuel (pos + 1)]
    by_cases h : charAt str pos = '|'
    · rw [if_pos h, if_pos h]
      cases hr : parseConcatenation alt fuel str (pos + 1) with
      | error f => rfl
      | ok r =>
        obtain ⟨p2, pos1⟩ := r
        simp only [bump]
        exact ih _ pos1
    · rw [if_neg h, if_neg h]; rfl

theorem parseAlternation_cons (c : Char) (str : List Char) :
    ∀ fuel pos, parseAlternation fuel (c :: str) (pos + 1) =
      bump (parseAlternation fuel str pos) := by
  intro fuel
  induction fuel with
  | zero => intro pos; rfl
  | succ fuel ih =>
    intro pos
    rw [parseAlternation_succ, parseAlternation_succ,
      parseConcatenation_cons c str (parseAlternation fuel str)
        (parseAlternation fuel (c :: str)) ih (fuel + 1) pos]
    cases hr : parseConcatenation (parseAlternation fuel str) (fuel + 1) str pos with
    | error f => rfl
    | ok r =>
      obtain ⟨p1, pos1⟩ := r
      simp only [bump]
      exact alternationLoop_cons c str (parseAlternation fuel str)
        (parseAlternation fuel (c :: str)) ih (fuel + 1) (fuel + 1) p1 pos1

theorem parsePattern_ok_inv {str : List Char} {pat : Pattern}
    (h : parsePattern str = .ok pat) :
    ∃ pos, parseAlternation (str.length + 2) str 0 = .ok (pat, pos) ∧ charAt str pos = NUL := by
  unfold parsePattern at h
  cases hr : parseAlternation (str.length + 2) str 0 with
  | error f => rw [hr] at h; exact absurd h (by simp)
  | ok r =>
    obtain ⟨p, pos⟩ := r
    rw [hr] at h
    simp only [] at h
    by_cases hn : charAt str pos ≠ NUL
    · rw [if_pos hn] at h; exact absurd h (by simp)
    · rw [if_neg hn] at h
      simp only [Except.ok.injEq] at h
      subst h
      exact ⟨pos, rfl, not_not.1 hn⟩

theorem parsePattern_open_group (s : List Char) (pat : Pattern)
    (h : parsePattern s = .ok pat) : parsePattern ('(' :: s) = .error .InvalidPattern := by
  obtain ⟨pos, ha, hend⟩ := parsePattern_ok_inv h
  have hinner : parseAlternation (s.length + 2) ('(' :: s) (0 + 1) = .ok (pat, pos + 1) := by
    rw [parseAlternation_cons '(' s (s.length + 2) 0, ha]
    rfl
  have hatom : parseAtomicPattern (parseAlternation (s.length + 2) ('(' :: s))
      (s.length + 2 + 1) ('(' :: s) 0 = .error .InvalidPattern := by
    rw [parseAtomicPattern_group _ _ ('(' :: s) 0 rfl, hinner]
    simp only []
    rw [if_pos (by rw [charAt_cons_succ, hend]; decide)]
  refine parsePattern_error _ _ ?_
  show parseAlternation (s.length + 2 + 1) ('(' :: s) 0 = _
  exact parseAlternation_error _ _ 0 _
    (parseConcatenation_error _ _ _ 0 _ (parseRepetition_error _ _ _ 0 _ hatom))

/-! ## The parser never runs out of fuel and closes every bracket it consumes -/

theorem lt_length_of_charAt_ne (str : List Char) (i : Nat) (h : charAt str i ≠ NUL) :
    i < str.length := by
  by_contra hcon
  exact h (charAt_of_le (by omega))

theorem closed_trans {str : List Char} {a b c : Nat} (hbc : b ≤ c) (h1 : Closed str a b)
    (h2 : Closed str b c) : Closed str a c := by
  intro i hai hic hopen
  by_cases hib : i < b
  · obtain ⟨j, hj1, hj2, hj3⟩ := h1 i hai hib hopen
    exact ⟨j, hj1, by omega, hj3⟩
  · exact h2 i (by omega) hic hopen

theorem closed_single {str : List Char} {a : Nat} (h : charAt str a ≠ '[') :
    Closed str a (a + 1) := by
  intro i hai hic hopen
  have : i = a := by omega
  subst this
  exact absurd hopen h

theorem classLoop_good (str : List Char) :
    ∀ fuel pos, pos ≤ str.length → str.length < fuel + pos →
      ∃ pos1, classLoop str fuel pos = .ok pos1 ∧ pos ≤ pos1 ∧ pos1 ≤ str.length ∧
        (charAt str pos1 = NUL ∨ charAt str pos1 = ']') := by
  intro fuel
  induction fuel with
  | zero => intro pos h1 h2; omega
  | succ fuel ih =>
    intro pos h1 h2
    rw [classLoop_succ]
    by_cases h : charAt str pos ≠ NUL ∧ charAt str pos ≠ ']'
    · rw [if_pos h]
      have hlt := lt_length_of_charAt_ne _ _ h.1
      obtain ⟨pos1, h3, h4, h5, h6⟩ := ih (pos + 1) (by omega) (by omega)
      exact ⟨pos1, h3, by omega, h5, h6⟩
    · rw [if_neg h]
      refine ⟨pos, rfl, le_refl _, h1, ?_⟩
      by_cases hn : charAt str pos = NUL
      · exact Or.inl hn
      · exact Or.inr (not_not.1 (fun h2 => h ⟨hn, h2⟩))

theorem parseAtomicPattern_good (alt : Nat → Parsed) (fuel : Nat) (str : List Char)
    (pos : Nat) (halt : ∀ q, pos < q → q ≤ str.length → GoodParse str q (alt q))
    (hfuel : str.length < fuel + pos) :
    GoodParse str pos (parseAtomicPattern alt fuel str pos) := by
  unfold parseAtomicPattern
  by_cases h0 : ordinary (charAt str pos) = true
  · rw [if_pos h0]
    obtain ⟨f0, _, _, _, _, _, _, _, _, _, f10, _⟩ := ordinary_facts h0
    have := lt_length_of_charAt_ne _ _ f0
    exact ⟨by omega, by omega, closed_single f10⟩
  rw [if_neg h0]
  by_cases h1 : charAt str pos = '.'
  · rw [if_pos h1]
    have := lt_length_of_charAt_ne str pos (by rw [h1]; decide)
    exact ⟨by omega, by omega, closed_single (by rw [h1]; decide)⟩
  rw [if_neg h1]
  by_cases h2 : charAt str pos = '^'
  · rw [if_pos h2]
    have := lt_length_of_charAt_ne str pos (by rw [h2]; decide)
    exact ⟨by omega, by omega, closed_single (by rw [h2]; decide)⟩
  rw [if_neg h2]
  by_cases h3 : charAt str pos = '$'
  · rw [if_pos h3]
    have := lt_length_of_charAt_ne str pos (by rw [h3]; decide)
    exact ⟨by omega, by omega, closed_single (by rw [h3]; decide)⟩
  rw [if_neg h3]
  by_cases h4 : charAt str pos = '['
  · rw [if_pos h4]
    have hlt := lt_length_of_charAt_ne str pos (by rw [h4]; decide)
    obtain ⟨pos1, hcl, hle, hlen, hstop⟩ := classLoop_good str fuel (pos + 1) (by omega)
      (by omega)
    rw [hcl]
    simp only []
    by_cases hn : charAt str pos1 = NUL
    · rw [if_pos hn]; rfl
    · rw [if_neg hn]
      have hclose : charAt str pos1 = ']' := by
        rcases hstop with h | h
        · exact absurd h hn
        · exact h
      have := lt_length_of_charAt_ne _ _ hn
      refine ⟨by omega, by omega, fun i hi1 hi2 hopen => ⟨pos1, ?_, by omega, hclose⟩⟩
      rcases Nat.lt_or_ge i pos1 with hlt1 | hge
      · exact hlt1
      · have : i = pos1 := by omega
        subst this
        rw [hclose] at hopen
        exact absurd hopen (by decide)
  rw [if_neg h4]
  by_cases h5 : charAt str pos = '('
  · rw [if_pos h5]
    have hlt := lt_length_of_charAt_ne str pos (by rw [h5]; decide)
    have hg := halt (pos + 1) (by omega) (by omega)
    cases hr : alt (pos + 1) with
    | error f => rw [hr] at hg; exact hg
    | ok r =>
      obtain ⟨p, pos1⟩ := r
      rw [hr] at hg
      obtain ⟨g1, g2, g3⟩ := hg
      simp only []
      by_cases h6 : charAt str pos1 ≠ ')'
      · rw [if_pos h6]; rfl
      · rw [if_neg h6]
        have hclose : charAt str pos1 = ')' := not_not.1 h6
        have := lt_length_of_charAt_ne str pos1 (by rw [hclose]; decide)
        refine ⟨by omega, by omega, ?_⟩
        exact closed_trans (by omega) (closed_single (by rw [h5]; decide))
          (closed_trans (by omega) g3 (closed_single (by rw [hclose]; decide)))
  · rw [if_neg h5]; rfl

theorem parseRepetition_good (alt : Nat → Parsed) (fuel : Nat) (str : List Char)
    (pos : Nat) (halt : ∀ q, pos < q → q ≤ str.length → GoodParse str q (alt q))
    (hfuel : str.length < fuel + pos) :
    GoodParse str pos (parseRepetition alt fuel str pos) := by
  have hg := parseAtomicPattern_good alt fuel str pos halt hfuel
  unfold parseRepetition
  cases hr : parseAtomicPattern alt fuel str pos with
  | error f => rw [hr] at hg; exact hg
  | ok r =>
    obtain ⟨p, pos1⟩ := r
    rw [hr] at hg
    obtain ⟨g1, g2, g3⟩ := hg
    simp only []
    have hq : ∀ q : Char, q ≠ NUL → q ≠ '[' → charAt str pos1 = q →
        pos < pos1 + 1 ∧ pos1 + 1 ≤ str.length ∧ Closed str pos (pos1 + 1) := by
      intro q hq1 hq2 hc
      have := lt_length_of_charAt_ne str pos1 (by rw [hc]; exact hq1)
      exact ⟨by omega, by omega,
        closed_trans (by omega) g3 (closed_single (by rw [hc]; exact hq2))⟩
    by_cases h1 : charAt str pos1 = '*'
    · rw [if_pos h1]; exact hq '*' (by decide) (by decide) h1
    rw [if_neg h1]
    by_cases h2 : charAt str pos1 = '+'
    · rw [if_pos h2]; exact hq '+' (by decide) (by decide) h2
    rw [if_neg h2]
    by_cases h3 : charAt str pos1 = '?'
    · rw [if_pos h3]; exact hq '?' (by decide) (by decide) h3
    · rw [if_neg h3]; exact ⟨g1, g2, g3⟩

theorem concatenationLoop_good (alt : Nat → Parsed) (fuel : Nat) (str : List Char)
    (pos0 : Nat) (halt : ∀ q, pos0 < q → q ≤ str.length → GoodParse str q (alt q))
    (hfuel : str.length < fuel + pos0) :
    ∀ n p1 pos, pos0 < pos → pos ≤ str.length → Closed str pos0 pos →
      str.length < n + pos →
      GoodParse str pos0 (concatenationLoop alt fuel str n p1 pos) := by
  intro n
  induction n with
  | zero => intro p1 pos _ h2 _ h4; omega
  | succ n ih =>
    intro p1 pos h1 h2 h3 h4
    rw [concatenationLoop_succ]
    by_cases hc : charAt str pos ≠ NUL ∧ charAt str pos ≠ '|' ∧ charAt str pos ≠ ')'
    · rw [if_pos hc]
      have hg := parseRepetition_good alt fuel str pos
        (fun q hq1 hq2 => halt q (by omega) hq2) (by omega)
      cases hr : parseRepetition alt fuel str pos with
      | error f => rw [hr] at hg; exact hg
      | ok r =>
        obtain ⟨p2, pos1⟩ := r
        rw [hr] at hg
        obtain ⟨g1, g2, g3⟩ := hg
        exact ih _ pos1 (by omega) g2 (closed_trans (by omega) h3 g3) (by omega)
    · rw [if_neg hc]
      exact ⟨h1, h2, h3⟩

theorem parseConcatenation_good (alt : Nat → Parsed) (fuel : Nat) (str : List Char)
    (pos : Nat) (halt : ∀ q, pos < q → q ≤ str.length → GoodParse str q (alt q))
    (hfuel : str.length < fuel + pos) :
    GoodParse str pos (parseConcatenation alt fuel str pos) := by
  have hg := parseRepetition_good alt fuel str pos halt hfuel
  unfold parseConcatenation
  cases hr : parseRepetition alt fuel str pos with
  | error f => rw [hr] at hg; exact hg
  | ok r =>
    obtain ⟨p1, pos1⟩ := r
    rw [hr] at hg
    obtain ⟨g1, g2, g3⟩ := hg
    exact concatenationLoop_good alt fuel str pos halt hfuel fuel p1 pos1 g1 g2 g3 (by omega)

theorem alternationLoop_good (alt : Nat → Parsed) (fuel : Nat) (str : List Char)
    (pos0 : Nat) (halt : ∀ q, pos0 < q → q ≤ str.length → GoodParse str q (alt q))
    (hfuel : str.length < fuel + pos0) :
    ∀ n p1 pos, pos0 < pos → pos ≤ str.length → Closed str pos0 pos →
      str.length < n + pos →
      GoodParse str pos0 (alternationLoop alt fuel str n p1 pos) := by
  intro n
  induction n with
  | zero => intro p1 pos _ h2 _ h4; omega
  | succ n ih =>
    intro p1 pos h1 h2 h3 h4
    rw [alternationLoop_succ]
    by_cases hc : charAt str pos = '|'
    · rw [if_pos hc]
      have hlt := lt_length_of_charAt_ne str pos (by rw [hc]; decide)
      have hg := parseConcatenation_good alt fuel str (pos + 1)
        (fun q hq1 hq2 => halt q (by omega) hq2) (by omega)
      cases hr : parseConcatenation alt fuel str (pos + 1) with
      | error f => rw [hr] at hg; exact hg
      | ok r =>
        obtain ⟨p2, pos1⟩ := r
        rw [hr] at hg
        obtain ⟨g1, g2, g3⟩ := hg
        refine ih _ pos1 (by omega) g2 ?_ (by omega)
        exact closed_trans (by omega) h3
          (closed_trans (by omega) (closed_single (by rw [hc]; decide)) g3)
    · rw [if_neg hc]
      exact ⟨h1, h2, h3⟩

theorem parseAlternation_good (str : List Char) :
    ∀ fuel pos, pos ≤ str.length → str.length + 2 ≤ fuel + pos →
      GoodParse str pos (parseAlternation fuel str pos) := by
  intro fuel
  induction fuel with
  | zero => intro pos h1 h2; omega
  | succ fuel ih =>
    intro pos h1 h2
    have halt : ∀ q, pos < q → q ≤ str.length → GoodParse str q (parseAlternation fuel str q) :=
      fun q hq1 hq2 => ih q hq2 (by omega)
    have hg := parseConcatenation_good (parseAlternation fuel str) (fuel + 1) str pos halt
      (by omega)
    rw [parseAlternation_succ]
    cases hr : parseConcatenation (parseAlternation fuel str) (fuel + 1) str pos with
    | error f => rw [hr] at hg; exact hg
    | ok r =>
      obtain ⟨p1, pos1⟩ := r
      rw [hr] at hg
      obtain ⟨g1, g2, g3⟩ := hg
      exact alternationLoop_good (parseAlternation fuel str) (fuel + 1) str pos halt
        (by omega) (fuel + 1) p1 pos1 g1 g2 g3 (by omega)

/-- The result of `parsePattern`: either `InvalidPattern`, or a tree obtained after
consuming the string up to a terminator, every consumed `[` being closed. -/
theorem parsePattern_good (str : List Char) :
    parsePattern str = .error .InvalidPattern ∨
      ∃ pat pos, parsePattern str = .ok pat ∧ 0 < pos ∧ pos ≤ str.length ∧
        charAt str pos = NUL ∧ Closed str 0 pos := by
  have hg := parseAlternation_good str (str.length + 2) 0 (Nat.zero_le _) (by omega)
  unfold parsePattern
  cases hr : parseAlternation (str.length + 2) str 0 with
  | error f =>
    rw [hr] at hg
    have hf : f = .InvalidPattern := hg
    subst hf
    exact Or.inl rfl
  | ok r =>
    obtain ⟨pat, pos⟩ := r
    rw [hr] at hg
    obtain ⟨g1, g2, g3⟩ := hg
    simp only []
    by_cases hn : charAt str pos ≠ NUL
    · rw [if_pos hn]; exact Or.inl rfl
    · rw [if_neg hn]
      exact Or.inr ⟨pat, pos, rfl, g1, g2, not_not.1 hn, g3⟩

/-! ## How a successful parse ends -/

theorem classLoop_stop_char (str : List Char) :
    ∀ fuel pos q, classLoop str fuel pos = .ok q →
      charAt str q = NUL ∨ charAt str q = ']' := by
  intro fuel
  induction fuel with
  | zero => intro pos q h; simp [classLoop] at h
  | succ fuel ih =>
    intro pos q h
    rw [classLoop_succ] at h
    by_cases hc : charAt str pos ≠ NUL ∧ charAt str pos ≠ ']'
    · rw [if_pos hc] at h
      exact ih _ q h
    · rw [if_neg hc] at h
      simp only [Except.ok.injEq] at h
      subst h
      by_cases hn : charAt str pos = NUL
      · exact Or.inl hn
      · exact Or.inr (not_not.1 (fun h2 => hc ⟨hn, h2⟩))

theorem atomEnd_succ {str : List Char} {pos : Nat} (h1 : charAt str pos ≠ '|')
    (h2 : charAt str pos ≠ '*') (h3 : charAt str pos ≠ '+') (h4 : charAt str pos ≠ '?') :
    AtomEnd str (pos + 1) :=
  ⟨Nat.succ_pos pos, h1, h2, h3, h4⟩

theorem atomEnd_of_char {str : List Char} {pos : Nat} (c : Char) (hc : charAt str pos = c)
    (h1 : c ≠ '|') (h2 : c ≠ '*') (h3 : c ≠ '+') (h4 : c ≠ '?') : AtomEnd str (pos + 1) :=
  atomEnd_succ (by rw [hc]; exact h1) (by rw [hc]; exact h2) (by rw [hc]; exact h3)
    (by rw [hc]; exact h4)

theorem parseAtomicPattern_atomEnd (alt : Nat → Parsed) (fuel : Nat) (str : List Char)
    (pos : Nat) (p : Pattern) (q : Nat)
    (h : parseAtomicPattern alt fuel str pos = .ok (p, q)) : AtomEnd str q := by
  unfold parseAtomicPattern at h
  by_cases h0 : ordinary (charAt str pos) = true
  · rw [if_pos h0] at h
    simp only [Except.ok.injEq, Prod.mk.injEq] at h
    obtain ⟨_, _, _, _, f4, f5, f6, f7, _⟩ := ordinary_facts h0
    rw [← h.2]
    exact atomEnd_succ f7 f4 f6 f5
  rw [if_neg h0] at h
  by_cases h1 : charAt str pos = '.'
  · rw [if_pos h1] at h
    simp only [Except.ok.injEq, Prod.mk.injEq] at h
    rw [← h.2]
    exact atomEnd_of_char '.' h1 (by decide) (by decide) (by decide) (by decide)
  rw [if_neg h1] at h
  by_cases h2 : charAt str pos = '^'
  · rw [if_pos h2] at h
    simp only [Except.ok.injEq, Prod.mk.injEq] at h
    rw [← h.2]
    exact atomEnd_of_char '^' h2 (by decide) (by decide) (by decide) (by decide)
  rw [if_neg h2] at h
  by_cases h3 : charAt str pos = '$'
  · rw [if_pos h3] at h
    simp only [Except.ok.injEq, Prod.mk.injEq] at h
    rw [← h.2]
    exact atomEnd_of_char '$' h3 (by decide) (by decide) (by decide) (by decide)
  rw [if_neg h3] at h
  by_cases h4 : charAt str pos = '['
  · rw [if_pos h4] at h
    cases hcl : classLoop str fuel (pos + 1) with
    | error f => rw [hcl] at h; exact absurd h (by simp)
    | ok pos1 =>
      rw [hcl] at h
      simp only [] at h
      by_cases hn : charAt str pos1 = NUL
      · rw [if_pos hn] at h; exact absurd h (by simp)
      · rw [if_neg hn] at h
        simp only [Except.ok.injEq, Prod.mk.injEq] at h
        rw [← h.2]
        rcases classLoop_stop_char str fuel (pos + 1) pos1 hcl with hs | hs
        · exact absurd hs hn
        · exact atomEnd_of_char ']' hs (by decide) (by decide) (by decide) (by decide)
  rw [if_neg h4] at h
  by_cases h5 : charAt str pos = '('
  · rw [if_pos h5] at h
    cases hr : alt (pos + 1) with
    | error f => rw [hr] at h; exact absurd h (by simp)
    | ok r =>
      obtain ⟨p1, pos1⟩ := r
      rw [hr] at h
      simp only [] at h
      by_cases h6 : charAt str pos1 ≠ ')'
      · rw [if_pos h6] at h; exact absurd h (by simp)
      · rw [if_neg h6] at h
        simp only [Except.ok.injEq, Prod.mk.injEq] at h
        rw [← h.2]
        exact atomEnd_of_char ')' (not_not.1 h6) (by decide) (by decide) (by decide)
          (by decide)
  · rw [if_neg h5] at h; exact absurd h (by simp)

theorem endsWell_of_atomEnd {str : List Char} {q : Nat} (h : AtomEnd str q) :
    EndsWell str q := by
  obtain ⟨h0, h1, h2, h3, h4⟩ := h
  refine ⟨h0, h1, fun hq => ?_⟩
  rcases hq with hq | hq | hq
  · exact absurd hq h2
  · exact absurd hq h3
  · exact absurd hq h4

theorem endsWell_quantifier {str : List Char} {q : Nat} (h : AtomEnd str q) (c : Char)
    (hc : charAt str q = c) (hbar : c ≠ '|') : EndsWell str (q + 1) := by
  obtain ⟨h0, _, h2, h3, h4⟩ := h
  refine ⟨Nat.succ_pos q, ?_, fun _ => ⟨by omega, ?_⟩⟩
  · rw [Nat.add_sub_cancel, hc]; exact hbar
  · have e1 : q + 1 - 2 = q - 1 := by omega
    rw [e1]
    exact ⟨h2, h3, h4⟩

theorem parseRepetition_endsWell (alt : Nat → Parsed) (fuel : Nat) (str : List Char)
    (pos : Nat) (p : Pattern) (q : Nat)
    (h : parseRepetition alt fuel str pos = .ok (p, q)) : EndsWell str q := by
  unfold parseRepetition at h
  cases hr : parseAtomicPattern alt fuel str pos with
  | error f => rw [hr] at h; exact absurd h (by simp)
  | ok r =>
    obtain ⟨p1, pos1⟩ := r
    have ha := parseAtomicPattern_atomEnd alt fuel str pos p1 pos1 hr
    rw [hr] at h
    simp only [] at h
    by_cases h1 : charAt str pos1 = '*'
    · rw [if_pos h1] at h
      simp only [Except.ok.injEq, Prod.mk.injEq] at h
      rw [← h.2]
      exact endsWell_quantifier ha '*' h1 (by decide)
    rw [if_neg h1] at h
    by_cases h2 : charAt str pos1 = '+'
    · rw [if_pos h2] at h
      simp only [Except.ok.injEq, Prod.mk.injEq] at h
      rw [← h.2]
      exact endsWell_quantifier ha '+' h2 (by decide)
    rw [if_neg h2] at h
    by_cases h3 : charAt str pos1 = '?'
    · rw [if_pos h3] at h
      simp only [Except.ok.injEq, Prod.mk.injEq] at h
      rw [← h.2]
      exact endsWell_quantifier ha '?' h3 (by decide)
    · rw [if_neg h3] at h
      simp only [Except.ok.injEq, Prod.mk.injEq] at h
      rw [← h.2]
      exact endsWell_of_atomEnd ha

theorem concatenationLoop_endsWell (alt : Nat → Parsed) (fuel : Nat) (str : List Char) :
    ∀ n p1 pos p q, EndsWell str pos →
      concatenationLoop alt fuel str n p1 pos = .ok (p, q) → EndsWell str q := by
  intro n
  induction n with
  | zero => intro p1 pos p q _ h; simp [concatenationLoop] at h
  | succ n ih =>
    intro p1 pos p q h0 h
    rw [concatenationLoop_succ] at h
    by_cases hc : charAt str pos ≠ NUL ∧ charAt str pos ≠ '|' ∧ charAt str pos ≠ ')'
    · rw [if_pos hc] at h
      cases hr : parseRepetition alt fuel str pos with
      | error f => rw [hr] at h; exact absurd h (by simp)
      | ok r =>
        obtain ⟨p2, pos1⟩ := r
        rw [hr] at h
        exact ih _ pos1 p q (parseRepetition_endsWell alt fuel str pos p2 pos1 hr) h
    · rw [if_neg hc] at h
      simp only [Except.ok.injEq, Prod.mk.injEq] at h
      rw [← h.2]
      exact h0

theorem parseConcatenation_endsWell (alt : Nat → Parsed) (fuel : Nat) (str : List Char)
    (pos : Nat) (p : Pattern) (q : Nat)
    (h : parseConcatenation alt fuel str pos = .ok (p, q)) : EndsWell str q := by
  unfold parseConcatenation at h
  cases hr : parseRepetition alt fuel str pos with
  | error f => rw [hr] at h; exact absurd h (by simp)
  | ok r =>
    obtain ⟨p1, pos1⟩ := r
    rw [hr] at h
    exact concatenationLoop_endsWell alt fuel str fuel p1 pos1 p q
      (parseRepetition_endsWell alt fuel str pos p1 pos1 hr) h

theorem alternationLoop_endsWell (alt : Nat → Parsed) (fuel : Nat) (str : List Char) :
    ∀ n p1 pos p q, EndsWell str pos →
      alternationLoop alt fuel str n p1 pos = .ok (p, q) → EndsWell str q := by
  intro n
  induction n with
  | zero => intro p1 pos p q _ h; simp [alternationLoop] at h
  | succ n ih =>
    intro p1 pos p q h0 h
    rw [alternationLoop_succ] at h
    by_cases hc : charAt str pos = '|'
    · rw [if_pos hc] at h
      cases hr : parseConcatenation alt fuel str (pos + 1) with
      | error f => rw [hr] at h; exact absurd h (by simp)
      | ok r =>
        obtain ⟨p2, pos1⟩ := r
        rw [hr] at h
        exact ih _ pos1 p q (parseConcatenation_endsWell alt fuel str (pos + 1) p2 pos1 hr) h
    · rw [if_neg hc] at h
      simp only [Except.ok.injEq, Prod.mk.injEq] at h
      rw [← h.2]
      exact h0

theorem parseAlternation_endsWell (fuel : Nat) (str : List Char) (pos : Nat) (p : Pattern)
    (q : Nat) (h : parseAlternation fuel str pos = .ok (p, q)) : EndsWell str q := by
  cases fuel with
  | zero => simp [parseAlternation] at h
  | succ fuel =>
    rw [parseAlternation_succ] at h
    cases hr : parseConcatenation (parseAlternation fuel str) (fuel + 1) str pos with
    | error f => rw [hr] at h; exact absurd h (by simp)
    | ok r =>
      obtain ⟨p1, pos1⟩ := r
      rw [hr] at h
      exact alternationLoop_endsWell _ _ str (fuel + 1) p1 pos1 p q
        (parseConcatenation_endsWell _ _ str pos p1 pos1 hr) h

/-- A pattern string without NUL either is rejected with `InvalidPattern` or is
consumed to its end, and then it ends well. -/
theorem parsePattern_full (str : List Char) (hnul : ∀ c, c ∈ str → c ≠ NUL) :
    parsePattern str = .error .InvalidPattern ∨
      ∃ pat, parsePattern str = .ok pat ∧
        parseAlternation (str.length + 2) str 0 = .ok (pat, str.length) ∧
        EndsWell str str.length ∧ Closed str 0 str.length := by
  rcases parsePattern_good str with h | ⟨pat, _, hp, _⟩
  · exact Or.inl h
  · obtain ⟨pos, ha, hend⟩ := parsePattern_ok_inv hp
    have hg := parseAlternation_good str (str.length + 2) 0 (Nat.zero_le _) (by omega)
    rw [ha] at hg
    obtain ⟨_, g2, g3⟩ := hg
    have hpos : pos = str.length := by
      by_contra hne
      have hlt : pos < str.length := by omega
      have h1 := charAt_of_lt hlt
      rw [hend] at h1
      exact hnul _ (List.getElem_mem hlt) h1.symm
    subst hpos
    exact Or.inr ⟨pat, hp, ha, parseAlternation_endsWell _ str 0 pat _ ha, g3⟩

theorem parsePattern_no_atom (c : Char) (s : List Char)
    (hc : c ∈ ['*', '+', '?', '|', ')', '{']) :
    parsePattern (c :: s) = .error .InvalidPattern := by
  have hfacts : ordinary c = false ∧ c ≠ '.' ∧ c ≠ '^' ∧ c ≠ '$' ∧ c ≠ '[' ∧ c ≠ '(' := by
    simp only [List.mem_cons, List.mem_singleton, List.not_mem_nil, or_false] at hc
    rcases hc with rfl | rfl | rfl | rfl | rfl | rfl <;> decide
  obtain ⟨h0, h1, h2, h3, h4, h5⟩ := hfacts
  have hatom : ∀ alt fuel, parseAtomicPattern alt fuel (c :: s) 0 = .error .InvalidPattern :=
    fun alt fuel => parseAtomicPattern_invalid alt fuel (c :: s) 0 h0 h1 h2 h3 h4 h5
  refine parsePattern_error _ _ ?_
  show parseAlternation (s.length + 2 + 1) (c :: s) 0 = _
  exact parseAlternation_error _ _ 0 _
    (parseConcatenation_error _ _ _ 0 _ (parseRepetition_error _ _ _ 0 _ (hatom _ _)))

theorem charAt_append_right (s l : List Char) (i : Nat) :
    charAt (s ++ l) (s.length + i) = charAt l i :=
  charAt_of_drop (List.drop_left s l) i

theorem charAt_append_left (s l : List Char) (i : Nat) (h : i < s.length) :
    charAt (s ++ l) i = charAt s i := by
  unfold charAt
  exact List.getD_append s l NUL i h

theorem charAt_append_last (s : List Char) (c : Char) :
    charAt (s ++ [c]) s.length = c := by
  have h := charAt_append_right s [c] 0
  rw [Nat.add_zero] at h
  rw [h]
  rfl

theorem parsePattern_trailing_bar (s : List Char) (hnul : ∀ c, c ∈ s → c ≠ NUL) :
    parsePattern (s ++ ['|']) = .error .InvalidPattern := by
  have hn : ∀ c, c ∈ s ++ ['|'] → c ≠ NUL := by
    intro c hc
    rcases List.mem_append.1 hc with h | h
    · exact hnul c h
    · rw [List.mem_singleton.1 h]; decide
  rcases parsePattern_full (s ++ ['|']) hn with h | ⟨pat, _, _, hend, _⟩
  · exact h
  · have hlast : charAt (s ++ ['|']) ((s ++ ['|']).length - 1) = '|' := by
      have e1 : (s ++ ['|']).length - 1 = s.length := by simp
      rw [e1, charAt_append_last]
    exact absurd hlast hend.2.1

theorem parsePattern_two_quantifiers (s : List Char) (q1 q2 : Char)
    (hnul : ∀ c, c ∈ s → c ≠ NUL) (h1 : q1 ∈ ['*', '+', '?']) (h2 : q2 ∈ ['*', '+', '?']) :
    parsePattern (s ++ [q1, q2]) = .error .InvalidPattern := by
  have hq : ∀ q, q ∈ ['*', '+', '?'] → (q = '*' ∨ q = '+' ∨ q = '?') ∧ q ≠ NUL := by
    intro q hq
    simp only [List.mem_cons, List.mem_singleton, List.not_mem_nil, or_false] at hq
    rcases hq with rfl | rfl | rfl <;> decide
  have hn : ∀ c, c ∈ s ++ [q1, q2] → c ≠ NUL := by
    intro c hc
    rcases List.mem_append.1 hc with h | h
    · exact hnul c h
    · rcases List.mem_cons.1 h with rfl | h3
      · exact (hq _ h1).2
      · rw [List.mem_singleton.1 h3]; exact (hq _ h2).2
  rcases parsePattern_full (s ++ [q1, q2]) hn with h | ⟨pat, _, _, hend, _⟩
  · exact h
  · have hlen : (s ++ [q1, q2]).length = s.length + 2 := by simp
    have e0 : s ++ [q1, q2] = (s ++ [q1]) ++ [q2] := by simp
    have hlast : charAt (s ++ [q1, q2]) ((s ++ [q1, q2]).length - 1) = q2 := by
      have e1 : (s ++ [q1, q2]).length - 1 = (s ++ [q1]).length := by simp
      rw [e1, e0, charAt_append_last]
    have hprev : charAt (s ++ [q1, q2]) ((s ++ [q1, q2]).length - 2) = q1 := by
      have e1 : (s ++ [q1, q2]).length - 2 = s.length := by simp
      have h := charAt_append_right s [q1, q2] 0
      rw [e1]
      simpa [charAt] using h
    have h3 := hend.2.2 (by rw [hlast]; exact (hq _ h2).1)
    rw [hprev] at h3
    rcases (hq _ h1).1 with h | h | h
    · exact absurd h h3.2.1
    · exact absurd h h3.2.2.1
    · exact absurd h h3.2.2.2

/-! ## A successful parse is unchanged by more fuel and by what follows a `)` -/

theorem continues_char {str1 str2 : List Char} {L : Nat} (hc : Continues str1 str2 L)
    {pos : Nat} (hpos : pos ≤ L) :
    (charAt str1 pos ≠ NUL ∧ pos < L ∧ charAt str2 pos = charAt str1 pos) ∨
      (charAt str1 pos = NUL ∧ pos = L ∧ (charAt str2 pos = NUL ∨ charAt str2 pos = ')')) := by
  obtain ⟨h1, h2, h3⟩ := hc
  rcases Nat.eq_or_lt_of_le hpos with rfl | hlt
  · exact Or.inr ⟨h2, rfl, h3⟩
  · exact Or.inl ⟨(h1 pos hlt).2, hlt, (h1 pos hlt).1⟩

theorem continues_lt {str1 str2 : List Char} {L : Nat} (hc : Continues str1 str2 L)
    {pos : Nat} (hpos : pos ≤ L) (hne : charAt str1 pos ≠ NUL) :
    pos < L ∧ charAt str2 pos = charAt str1 pos := by
  rcases continues_char hc hpos with ⟨_, h2, h3⟩ | ⟨h1, _, _⟩
  · exact ⟨h2, h3⟩
  · exact absurd h1 hne

theorem classLoop_ext {str1 str2 : List Char} {L : Nat} (hc : Continues str1 str2 L) :
    ∀ f1 f2 pos q, f1 ≤ f2 → pos ≤ L → classLoop str1 f1 pos = .ok q →
      charAt str1 q ≠ NUL → classLoop str2 f2 pos = .ok q ∧ q < L := by
  intro f1
  induction f1 with
  | zero => intro f2 pos q _ _ h; simp [classLoop] at h
  | succ f1 ih =>
    intro f2 pos q hf hpos h hq
    obtain ⟨k, rfl⟩ := Nat.exists_eq_add_of_le hf
    have e1 : f1 + 1 + k = (f1 + k) + 1 := by omega
    rw [e1, classLoop_succ]
    rw [classLoop_succ] at h
    by_cases hcond : charAt str1 pos ≠ NUL ∧ charAt str1 pos ≠ ']'
    · obtain ⟨hlt, hsame⟩ := continues_lt hc hpos hcond.1
      rw [if_pos hcond] at h
      rw [hsame, if_pos hcond]
      exact ih (f1 + k) (pos + 1) q (by omega) (by omega) h hq
    · rw [if_neg hcond] at h
      simp only [Except.ok.injEq] at h
      subst h
      obtain ⟨hlt, hsame⟩ := continues_lt hc hpos hq
      rw [hsame, if_neg hcond]
      exact ⟨rfl, hlt⟩

theorem classLoop_le (str : List Char) :
    ∀ fuel a b, classLoop str fuel a = .ok b → a ≤ b := by
  intro fuel
  induction fuel with
  | zero => intro a b hab; simp [classLoop] at hab
  | succ fuel ih =>
    intro a b hab
    rw [classLoop_succ] at hab
    by_cases hcd : charAt str a ≠ NUL ∧ charAt str a ≠ ']'
    · rw [if_pos hcd] at hab
      have := ih (a + 1) b hab
      omega
    · rw [if_neg hcd] at hab
      simp only [Except.ok.injEq] at hab
      omega

theorem map_charAt_ext {str1 str2 : List Char} {L : Nat} (hc : Continues str1 str2 L) :
    ∀ n a, a + n ≤ L →
      (List.range' a n).map (charAt str2) = (List.range' a n).map (charAt str1) := by
  intro n
  induction n with
  | zero => intro a _; rfl
  | succ n ih =>
    intro a h
    rw [List.range'_succ, List.map_cons, List.map_cons, ih (a + 1) (by omega),
      (hc.1 a (by omega)).1]

theorem parseAtomicPattern_ext {str1 str2 : List Char} {L : Nat}
    (hc : Continues str1 str2 L) (alt1 alt2 : Nat → Parsed)
    (halt : ∀ a p r, a ≤ L → alt1 a = .ok (p, r) → alt2 a = .ok (p, r) ∧ r ≤ L)
    (f1 f2 pos : Nat) (p : Pattern) (q : Nat) (hf : f1 ≤ f2) (hpos : pos ≤ L)
    (h : parseAtomicPattern alt1 f1 str1 pos = .ok (p, q)) :
    parseAtomicPattern alt2 f2 str2 pos = .ok (p, q) ∧ q ≤ L := by
  have hne : charAt str1 pos ≠ NUL := by
    intro hn
    rw [parseAtomicPattern_invalid alt1 f1 str1 pos (by rw [hn]; decide) (by rw [hn]; decide)
      (by rw [hn]; decide) (by rw [hn]; decide) (by rw [hn]; decide) (by rw [hn]; decide)] at h
    exact absurd h (by simp)
  obtain ⟨hlt, hsame⟩ := continues_lt hc hpos hne
  unfold parseAtomicPattern at h ⊢
  rw [hsame]
  by_cases h0 : ordinary (charAt str1 pos) = true
  · rw [if_pos h0] at h ⊢
    have hq := h
    simp only [Except.ok.injEq, Prod.mk.injEq] at hq
    exact ⟨h, by omega⟩
  rw [if_neg h0] at h ⊢
  by_cases h1 : charAt str1 pos = '.'
  · rw [if_pos h1] at h ⊢
    have hq := h
    simp only [Except.ok.injEq, Prod.mk.injEq] at hq
    exact ⟨h, by omega⟩
  rw [if_neg h1] at h ⊢
  by_cases h2 : charAt str1 pos = '^'
  · rw [if_pos h2] at h ⊢
    have hq := h
    simp only [Except.ok.injEq, Prod.mk.injEq] at hq
    exact ⟨h, by omega⟩
  rw [if_neg h2] at h ⊢
  by_cases h3 : charAt str1 pos = '$'
  · rw [if_pos h3] at h ⊢
    have hq := h
    simp only [Except.ok.injEq, Prod.mk.injEq] at hq
    exact ⟨h, by omega⟩
  rw [if_neg h3] at h ⊢
  by_cases h4 : charAt str1 pos = '['
  · rw [if_pos h4] at h ⊢
    cases hcl : classLoop str1 f1 (pos + 1) with
    | error f => rw [hcl] at h; exact absurd h (by simp)
    | ok pos1 =>
      rw [hcl] at h
      simp only [] at h
      by_cases hn : charAt str1 pos1 = NUL
      · rw [if_pos hn] at h; exact absurd h (by simp)
      · rw [if_neg hn] at h
        obtain ⟨hcl2, hlt1⟩ := classLoop_ext hc f1 f2 (pos + 1) pos1 hf (by omega) hcl hn
        have hle : pos + 1 ≤ pos1 := classLoop_le str1 f1 (pos + 1) pos1 hcl
        rw [hcl2]
        simp only []
        rw [(hc.1 pos1 hlt1).1, if_neg hn,
          map_charAt_ext hc (pos1 - (pos + 1)) (pos + 1) (by omega)]
        have hq := h
        simp only [Except.ok.injEq, Prod.mk.injEq] at hq
        exact ⟨h, by omega⟩
  rw [if_neg h4] at h ⊢
  by_cases h5 : charAt str1 pos = '('
  · rw [if_pos h5] at h ⊢
    cases hr : alt1 (pos + 1) with
    | error f => rw [hr] at h; exact absurd h (by simp)
    | ok r =>
      obtain ⟨p1, pos1⟩ := r
      rw [hr] at h
      simp only [] at h
      obtain ⟨hr2, hle1⟩ := halt (pos + 1) p1 pos1 (by omega) hr
      rw [hr2]
      simp only []
      by_cases h6 : charAt str1 pos1 ≠ ')'
      · rw [if_pos h6] at h; exact absurd h (by simp)
      · rw [if_neg h6] at h
        have hclose : charAt str1 pos1 = ')' := not_not.1 h6
        obtain ⟨hlt1, hsame1⟩ := continues_lt hc hle1 (by rw [hclose]; decide)
        rw [hsame1, if_neg h6]
        have hq := h
        simp only [Except.ok.injEq, Prod.mk.injEq] at hq
        exact ⟨h, by omega⟩
  · rw [if_neg h5] at h; exact absurd h (by simp)

theorem continues_not_quantifier {str1 str2 : List Char} {L : Nat}
    (hc : Continues str1 str2 L) {pos : Nat} (hpos : pos ≤ L) (c : Char) (hcn : c ≠ NUL)
    (hcp : c ≠ ')') : charAt str2 pos = c ↔ charAt str1 pos = c := by
  rcases continues_char hc hpos with ⟨_, _, h3⟩ | ⟨h1, _, h3⟩
  · rw [h3]
  · constructor
    · intro h
      rcases h3 with h4 | h4
      · rw [h4] at h; exact absurd h.symm hcn
      · rw [h4] at h; exact absurd h.symm hcp
    · intro h
      rw [h1] at h
      exact absurd h.symm hcn

theorem parseRepetition_ext {str1 str2 : List Char} {L : Nat}
    (hc : Continues str1 str2 L) (alt1 alt2 : Nat → Parsed)
    (halt : ∀ a p r, a ≤ L → alt1 a = .ok (p, r) → alt2 a = .ok (p, r) ∧ r ≤ L)
    (f1 f2 pos : Nat) (p : Pattern) (q : Nat) (hf : f1 ≤ f2) (hpos : pos ≤ L)
    (h : parseRepetition alt1 f1 str1 pos = .ok (p, q)) :
    parseRepetition alt2 f2 str2 pos = .ok (p, q) ∧ q ≤ L := by
  unfold parseRepetition at h ⊢
  cases hr : parseAtomicPattern alt1 f1 str1 pos with
  | error f => rw [hr] at h; exact absurd h (by simp)
  | ok r =>
    obtain ⟨p1, pos1⟩ := r
    obtain ⟨hr2, hle1⟩ := parseAtomicPattern_ext hc alt1 alt2 halt f1 f2 pos p1 pos1 hf hpos hr
    rw [hr] at h
    rw [hr2]
    simp only [] at h ⊢
    have hq1 := continues_not_quantifier hc hle1 '*' (by decide) (by decide)
    have hq2 := continues_not_quantifier hc hle1 '+' (by decide) (by decide)
    have hq3 := continues_not_quantifier hc hle1 '?' (by decide) (by decide)
    have hcons : ∀ c : Char, c ≠ NUL → charAt str1 pos1 = c → pos1 + 1 ≤ L := by
      intro c hcn hcc
      have := (continues_lt hc hle1 (by rw [hcc]; exact hcn)).1
      omega
    by_cases h1 : charAt str1 pos1 = '*'
    · rw [if_pos h1] at h
      rw [if_pos (hq1.2 h1)]
      have hq := h
      simp only [Except.ok.injEq, Prod.mk.injEq] at hq
      have := hcons '*' (by decide) h1
      exact ⟨h, by omega⟩
    rw [if_neg h1] at h
    rw [if_neg (fun hh => h1 (hq1.1 hh))]
    by_cases h2 : charAt str1 pos1 = '+'
    · rw [if_pos h2] at h
      rw [if_pos (hq2.2 h2)]
      have hq := h
      simp only [Except.ok.injEq, Prod.mk.injEq] at hq
      have := hcons '+' (by decide) h2
      exact ⟨h, by omega⟩
    rw [if_neg h2] at h
    rw [if_neg (fun hh => h2 (hq2.1 hh))]
    by_cases h3 : charAt str1 pos1 = '?'
    · rw [if_pos h3] at h
      rw [if_pos (hq3.2 h3)]
      have hq := h
      simp only [Except.ok.injEq, Prod.mk.injEq] at hq
      have := hcons '?' (by decide) h3
      exact ⟨h, by omega⟩
    · rw [if_neg h3] at h
      rw [if_neg (fun hh => h3 (hq3.1 hh))]
      have hq := h
      simp only [Except.ok.injEq, Prod.mk.injEq] at hq
      exact ⟨h, by omega⟩

theorem continues_concat_cond {str1 str2 : List Char} {L : Nat}
    (hc : Continues str1 str2 L) {pos : Nat} (hpos : pos ≤ L) :
    (charAt str2 pos ≠ NUL ∧ charAt str2 pos ≠ '|' ∧ charAt str2 pos ≠ ')') ↔
      (charAt str1 pos ≠ NUL ∧ charAt str1 pos ≠ '|' ∧ charAt str1 pos ≠ ')') := by
  rcases continues_char hc hpos with ⟨_, _, h3⟩ | ⟨h1, _, h3⟩
  · rw [h3]
  · constructor
    · rintro ⟨h4, _, h6⟩
      rcases h3 with h | h
      · exact absurd h h4
      · exact absurd h h6
    · rintro ⟨h4, _, _⟩
      exact absurd h1 h4

theorem concatenationLoop_ext {str1 str2 : List Char} {L : Nat}
    (hc : Continues str1 str2 L) (alt1 alt2 : Nat → Parsed)
    (halt : ∀ a p r, a ≤ L → alt1 a = .ok (p, r) → alt2 a = .ok (p, r) ∧ r ≤ L)
    (f1 f2 : Nat) (hf : f1 ≤ f2) :
    ∀ n1 n2 p1 pos p q, n1 ≤ n2 → pos ≤ L →
      concatenationLoop alt1 f1 str1 n1 p1 pos = .ok (p, q) →
      concatenationLoop alt2 f2 str2 n2 p1 pos = .ok (p, q) ∧ q ≤ L := by
  intro n1
  induction n1 with
  | zero => intro n2 p1 pos p q _ _ h; simp [concatenationLoop] at h
  | succ n1 ih =>
    intro n2 p1 pos p q hn hpos h
    obtain ⟨k, rfl⟩ := Nat.exists_eq_add_of_le hn
    have e1 : n1 + 1 + k = (n1 + k) + 1 := by omega
    rw [e1, concatenationLoop_succ]
    rw [concatenationLoop_succ] at h
    have hcond := continues_concat_cond hc hpos
    by_cases hcd : charAt str1 pos ≠ NUL ∧ charAt str1 pos ≠ '|' ∧ charAt str1 pos ≠ ')'
    · rw [if_pos hcd] at h
      rw [if_pos (hcond.2 hcd)]
      cases hr : parseRepetition alt1 f1 str1 pos with
      | error f => rw [hr] at h; exact absurd h (by simp)
      | ok r =>
        obtain ⟨p2, pos1⟩ := r
        obtain ⟨hr2, hle1⟩ := parseRepetition_ext hc alt1 alt2 halt f1 f2 pos p2 pos1 hf hpos hr
        rw [hr] at h
        rw [hr2]
        exact ih (n1 + k) _ pos1 p q (by omega) hle1 h
    · rw [if_neg hcd] at h
      rw [if_neg (fun hh => hcd (hcond.1 hh))]
      have hq := h
      simp only [Except.ok.injEq, Prod.mk.injEq] at hq
      exact ⟨h, by omega⟩

theorem parseConcatenation_ext {str1 str2 : List Char} {L : Nat}
    (hc : Continues str1 str2 L) (alt1 alt2 : Nat → Parsed)
    (halt : ∀ a p r, a ≤ L → alt1 a = .ok (p, r) → alt2 a = .ok (p, r) ∧ r ≤ L)
    (f1 f2 pos : Nat) (p : Pattern) (q : Nat) (hf : f1 ≤ f2) (hpos : pos ≤ L)
    (h : parseConcatenation alt1 f1 str1 pos = .ok (p, q)) :
    parseConcatenation alt2 f2 str2 pos = .ok (p, q) ∧ q ≤ L := by
  unfold parseConcatenation at h ⊢
  cases hr : parseRepetition alt1 f1 str1 pos with
  | error f => rw [hr] at h; exact absurd h (by simp)
  | ok r =>
    obtain ⟨p1, pos1⟩ := r
    obtain ⟨hr2, hle1⟩ := parseRepetition_ext hc alt1 alt2 halt f1 f2 pos p1 pos1 hf hpos hr
    rw [hr] at h
    rw [hr2]
    exact concatenationLoop_ext hc alt1 alt2 halt f1 f2 hf f1 f2 p1 pos1 p q hf hle1 h

theorem alternationLoop_ext {str1 str2 : List Char} {L : Nat}
    (hc : Continues str1 str2 L) (alt1 alt2 : Nat → Parsed)
    (halt : ∀ a p r, a ≤ L → alt1 a = .ok (p, r) → alt2 a = .ok (p, r) ∧ r ≤ L)
    (f1 f2 : Nat) (hf : f1 ≤ f2) :
    ∀ n1 n2 p1 pos p q, n1 ≤ n2 → pos ≤ L →
      alternationLoop alt1 f1 str1 n1 p1 pos = .ok (p, q) →
      alternationLoop alt2 f2 str2 n2 p1 pos = .ok (p, q) ∧ q ≤ L := by
  intro n1
  induction n1 with
  | zero => intro n2 p1 pos p q _ _ h; simp [alternationLoop] at h
  | succ n1 ih =>
    intro n2 p1 pos p q hn hpos h
    obtain ⟨k, rfl⟩ := Nat.exists_eq_add_of_le hn
    have e1 : n1 + 1 + k = (n1 + k) + 1 := by omega
    rw [e1, alternationLoop_succ]
    rw [alternationLoop_succ] at h
    have hbar := continues_not_quantifier hc hpos '|' (by decide) (by decide)
    by_cases hcd : charAt str1 pos = '|'
    · rw [if_pos hcd] at h
      rw [if_pos (hbar.2 hcd)]
      have hlt := (continues_lt hc hpos (by rw [hcd]; decide)).1
      cases hr : parseConcatenation alt1 f1 str1 (pos + 1) with
      | error f => rw [hr] at h; exact absurd h (by simp)
      | ok r =>
        obtain ⟨p2, pos1⟩ := r
        obtain ⟨hr2, hle1⟩ := parseConcatenation_ext hc alt1 alt2 halt f1 f2 (pos + 1) p2 pos1
          hf (by omega) hr
        rw [hr] at h
        rw [hr2]
        exact ih (n1 + k) _ pos1 p q (by omega) hle1 h
    · rw [if_neg hcd] at h
      rw [if_neg (fun hh => hcd (hbar.1 hh))]
      have hq := h
      simp only [Except.ok.injEq, Prod.mk.injEq] at hq
      exact ⟨h, by omega⟩

theorem parseAlternation_ext {str1 str2 : List Char} {L : Nat}
    (hc : Continues str1 str2 L) :
    ∀ f1 f2 pos p q, f1 ≤ f2 → pos ≤ L → parseAlternation f1 str1 pos = .ok (p, q) →
      parseAlternation f2 str2 pos = .ok (p, q) ∧ q ≤ L := by
  intro f1
  induction f1 with
  | zero => intro f2 pos p q _ _ h; simp [parseAlternation] at h
  | succ f1 ih =>
    intro f2 pos p q hf hpos h
    obtain ⟨k, rfl⟩ := Nat.exists_eq_add_of_le hf
    have e1 : f1 + 1 + k = (f1 + k) + 1 := by omega
    rw [e1, parseAlternation_succ]
    rw [parseAlternation_succ] at h
    have halt : ∀ a p r, a ≤ L → parseAlternation f1 str1 a = .ok (p, r) →
        parseAlternation (f1 + k) str2 a = .ok (p, r) ∧ r ≤ L :=
      fun a p r ha hr => ih (f1 + k) a p r (by omega) ha hr
    cases hr : parseConcatenation (parseAlternation f1 str1) (f1 + 1) str1 pos with
    | error f => rw [hr] at h; exact absurd h (by simp)
    | ok r =>
      obtain ⟨p1, pos1⟩ := r
      obtain ⟨hr2, hle1⟩ := parseConcatenation_ext hc _ _ halt (f1 + 1) (f1 + k + 1) pos p1 pos1
        (by omega) hpos hr
      rw [hr] at h
      rw [hr2]
      exact alternationLoop_ext hc _ _ halt (f1 + 1) (f1 + k + 1) (by omega) (f1 + 1)
        (f1 + k + 1) p1 pos1 p q (by omega) hle1 h

theorem continues_append (s t : List Char) (hnul : ∀ c, c ∈ s → c ≠ NUL) :
    Continues s (s ++ ')' :: t) s.length := by
  refine ⟨fun i hi => ⟨charAt_append_left s _ i hi, ?_⟩, charAt_of_le (le_refl _), Or.inr ?_⟩
  · rw [charAt_of_lt hi]
    exact hnul _ (List.getElem_mem hi)
  · have h := charAt_append_right s (')' :: t) 0
    rw [Nat.add_zero] at h
    rw [h]
    rfl

theorem parsePattern_stray_close (s t : List Char) (pat : Pattern)
    (hnul : ∀ c, c ∈ s → c ≠ NUL) (h : parsePattern s = .ok pat) :
    parsePattern (s ++ ')' :: t) = .error .InvalidPattern := by
  rcases parsePattern_full s hnul with he | ⟨pat1, _, ha, _, _⟩
  · rw [he] at h; exact absurd h (by simp)
  · have hc := continues_append s t hnul
    obtain ⟨h2, _⟩ := parseAlternation_ext hc (s.length + 2) ((s ++ ')' :: t).length + 2) 0
      pat1 s.length (by simp) (Nat.zero_le _) ha
    have hL : charAt (s ++ ')' :: t) s.length = ')' := by
      have h3 := charAt_append_right s (')' :: t) 0
      rw [Nat.add_zero] at h3
      rw [h3]
      rfl
    unfold parsePattern
    rw [h2]
    simp only []
    rw [if_pos (by rw [hL]; decide)]

/-! ## The driver: what one line prints -/

theorem longest_some {table : Table} {begin : Nat} :
    ∀ k e, longest table begin k = some e →
      begin ≤ e ∧ e < k ∧ table begin e = true ∧
        ∀ e1, e < e1 → e1 < k → table begin e1 = false := by
  intro k
  induction k with
  | zero => intro e h; simp [longest] at h
  | succ k ih =>
    intro e h
    simp only [longest] at h
    by_cases hb : begin ≤ k
    · rw [if_pos hb] at h
      by_cases ht : table begin k = true
      · rw [if_pos ht] at h
        simp only [Option.some.injEq] at h
        subst h
        exact ⟨hb, Nat.lt_succ_self _, ht, fun e1 h1 h2 => by omega⟩
      · rw [if_neg ht] at h
        obtain ⟨h1, h2, h3, h4⟩ := ih e h
        refine ⟨h1, by omega, h3, fun e1 h5 h6 => ?_⟩
        rcases Nat.eq_or_lt_of_le (Nat.le_of_lt_succ h6) with rfl | hlt
        · simpa using ht
        · exact h4 e1 h5 hlt
    · rw [if_neg hb] at h
      exact absurd h (by simp)

theorem longest_none {table : Table} {begin : Nat} :
    ∀ k, longest table begin k = none → ∀ e, begin ≤ e → e < k → table begin e = false := by
  intro k
  induction k with
  | zero => intro _ e _ h; omega
  | succ k ih =>
    intro h e h1 h2
    simp only [longest] at h
    by_cases hb : begin ≤ k
    · rw [if_pos hb] at h
      by_cases ht : table begin k = true
      · rw [if_pos ht] at h; exact absurd h (by simp)
      · rw [if_neg ht] at h
        rcases Nat.eq_or_lt_of_le (Nat.le_of_lt_succ h2) with rfl | hlt
        · simpa using ht
        · exact ih h e h1 hlt
    · omega

theorem endLoop_exit (table : Table) (string : List Char) (k begin : Nat) (out : List Out)
    (h : k ≤ begin) : endLoop table string k begin out = (begin, out) := by
  cases k with
  | zero => rfl
  | succ e =>
    simp only [endLoop]
    rw [if_neg (by omega)]

theorem endLoop_eq (table : Table) (string : List Char) :
    ∀ k begin out, endLoop table string k begin out =
      match longest table begin k with
      | none => (begin, out)
      | some e => (e, out ++ [Out.RED] ++ printSpan string begin e ++ [Out.DEFAULT]) := by
  intro k
  induction k with
  | zero => intro begin out; rfl
  | succ k ih =>
    intro begin out
    simp only [endLoop, longest]
    by_cases hb : begin ≤ k
    · rw [if_pos hb, if_pos hb]
      by_cases ht : table begin k = true
      · rw [if_pos ht, if_pos ht]
        have hb1 : (if begin < k then k else begin) = k := by
          by_cases hlt : begin < k
          · rw [if_pos hlt]
          · rw [if_neg hlt]; omega
        rw [hb1, endLoop_exit table string k k _ (le_refl k)]
      · rw [if_neg ht, if_neg ht]
        exact ih begin out
    · rw [if_neg hb, if_neg hb]

theorem lineStep_bounds (table : Table) (string : List Char) (length begin : Nat)
    (h : begin ≤ length) :
    begin ≤ (lineStep table string length begin).1 ∧
      (lineStep table string length begin).1 ≤ length := by
  unfold lineStep
  cases hl : longest table begin (length + 1) with
  | none => exact ⟨le_refl _, h⟩
  | some e =>
    obtain ⟨h1, h2, _, _⟩ := longest_some (length + 1) e hl
    show begin ≤ e ∧ e ≤ length
    exact ⟨h1, by omega⟩

theorem beginLoop_succ (table : Table) (string : List Char) (length fuel begin : Nat)
    (out : List Out) (h : begin ≤ length) :
    beginLoop table string length (fuel + 1) begin out =
      beginLoop table string length fuel ((lineStep table string length begin).1 + 1)
        (out ++ (lineStep table string length begin).2) := by
  simp only [beginLoop]
  rw [if_pos h, endLoop_eq]
  unfold lineStep plainAt
  cases hl : longest table begin (length + 1) with
  | none =>
    simp only []
    by_cases hn : charAt string begin ≠ NUL
    · rw [if_pos hn, if_pos hn]
    · rw [if_neg hn, if_neg hn, List.append_nil]
  | some e =>
    simp only []
    by_cases hn : charAt string e ≠ NUL
    · rw [if_pos hn, if_pos hn]
      simp only [List.append_assoc]
    · rw [if_neg hn, if_neg hn]
      simp only [List.append_assoc, List.append_nil]

theorem beginLoop_eq (table : Table) (string : List Char) (length : Nat) :
    ∀ fuel begin out, begin ≤ length + 1 → length + 2 ≤ fuel + begin →
      beginLoop table string length fuel begin out =
        .ok (out ++ renderFrom table string length fuel begin) := by
  intro fuel
  induction fuel with
  | zero => intro begin out h1 h2; omega
  | succ fuel ih =>
    intro begin out h1 h2
    by_cases hb : begin ≤ length
    · have hs := lineStep_bounds table string length begin hb
      rw [beginLoop_succ table string length fuel begin out hb,
        ih _ _ (by omega) (by omega)]
      simp only [renderFrom]
      rw [if_pos hb, List.append_assoc]
    · simp only [beginLoop, renderFrom]
      rw [if_neg hb, if_neg hb, List.append_nil]

theorem foundMatch_iff (table : Table) (length : Nat) :
    foundMatch table length = true ↔ ∃ b e, b ≤ e ∧ e ≤ length ∧ table b e = true := by
  unfold foundMatch
  simp only [List.any_eq_true, List.mem_range, List.mem_range'_1]
  constructor
  · rintro ⟨b, hb, e, ⟨h1, h2⟩, h3⟩
    exact ⟨b, e, h1, by omega, h3⟩
  · rintro ⟨b, e, h1, h2, h3⟩
    exact ⟨b, by omega, e, ⟨h1, by omega⟩, h3⟩

theorem printLine_eq (table : Table) (string : List Char) (length : Nat) :
    printLine table string length =
      if foundMatch table length then
        .ok (renderFrom table string length (length + 2) 0 ++ [Out.chr '\n'])
      else .ok [] := by
  unfold printLine
  rw [beginLoop_eq table string length (length + 2) 0 [] (by omega) (by omega)]
  rfl

/-! ## The driver: highlighted spans -/

theorem spansFrom_red (rest : List Out) (pos : Nat) (st : Option Nat) :
    spansFrom (Out.RED :: rest) pos st = spansFrom rest pos (some pos) := by
  cases st <;> rfl

theorem spansFrom_default_some (rest : List Out) (pos s : Nat) :
    spansFrom (Out.DEFAULT :: rest) pos (some s) = (s, pos) :: spansFrom rest pos none := rfl

theorem spansFrom_chr (c : Char) (rest : List Out) (pos : Nat) (st : Option Nat) :
    spansFrom (Out.chr c :: rest) pos st = spansFrom rest (pos + 1) st := by
  cases st <;> rfl

theorem spansFrom_chars (l : List Nat) (string : List Char) (rest : List Out) (pos : Nat)
    (st : Option Nat) :
    spansFrom (l.map (fun i => Out.chr (charAt string i)) ++ rest) pos st =
      spansFrom rest (pos + l.length) st := by
  induction l generalizing pos with
  | nil => rfl
  | cons a l ih =>
    rw [List.map_cons, List.cons_append, spansFrom_chr, ih (pos + 1), List.length_cons]
    congr 1
    omega

theorem printSpan_length (string : List Char) (begin e : Nat) :
    (printSpan string begin e).length = e - begin := by
  unfold printSpan
  simp

theorem plainAt_of_lt {string : List Char} (hnul : ∀ c, c ∈ string → c ≠ NUL) {p : Nat}
    (h : p < string.length) : plainAt string p = [Out.chr (charAt string p)] := by
  unfold plainAt
  rw [if_pos]
  rw [charAt_of_lt h]
  exact hnul _ (List.getElem_mem h)

theorem plainAt_of_le {string : List Char} {p : Nat} (h : string.length ≤ p) :
    plainAt string p = [] := by
  unfold plainAt
  rw [if_neg]
  rw [charAt_of_le h]
  simp

theorem renderFrom_past (table : Table) (string : List Char) (length fuel begin : Nat)
    (h : length < begin) : renderFrom table string length fuel begin = [] := by
  cases fuel with
  | zero => rfl
  | succ fuel =>
    simp only [renderFrom]
    rw [if_neg (by omega)]

/-- The spans of the rendering from `begin` on (with `begin` characters printed before)
are longest matches at their start, lie at or after `begin`, and each ends before the
next begins. -/
theorem spans_renderFrom (table : Table) (string : List Char)
    (hnul : ∀ c, c ∈ string → c ≠ NUL) :
    ∀ fuel begin, begin ≤ string.length →
      (∀ s, s ∈ spansFrom (renderFrom table string string.length fuel begin ++ [Out.chr '\n'])
          begin none →
        begin ≤ s.1 ∧ s.1 ≤ s.2 ∧ s.2 ≤ string.length ∧ table s.1 s.2 = true ∧
          ∀ e1, s.2 < e1 → e1 ≤ string.length → table s.1 e1 = false) ∧
      (spansFrom (renderFrom table string string.length fuel begin ++ [Out.chr '\n'])
          begin none).Pairwise (fun a b => a.2 < b.1) := by
  intro fuel
  induction fuel with
  | zero =>
    intro begin _
    simp [renderFrom, spansFrom]
  | succ fuel ih =>
    intro begin hb
    simp only [renderFrom]
    rw [if_pos hb]
    unfold lineStep
    cases hl : longest table begin (string.length + 1) with
    | none =>
      simp only []
      rcases Nat.eq_or_lt_of_le hb with heq | hlt
      · rw [plainAt_of_le (by omega), renderFrom_past _ _ _ _ _ (by omega)]
        simp [spansFrom]
      · rw [plainAt_of_lt hnul hlt, List.append_assoc, List.singleton_append, spansFrom_chr]
        obtain ⟨h1, h2⟩ := ih (begin + 1) (by omega)
        exact ⟨fun s hs => by have := h1 s hs; exact ⟨by omega, this.2⟩, h2⟩
    | some e =>
      obtain ⟨g1, g2, g3, g4⟩ := longest_some (string.length + 1) e hl
      simp only []
      have hspan : ∀ rest, spansFrom (([Out.RED] ++ printSpan string begin e ++ [Out.DEFAULT] ++
          plainAt string e) ++ rest) begin none =
          (begin, e) :: spansFrom (plainAt string e ++ rest) e none := by
        intro rest
        have e1 : begin + (e - begin) = e := by omega
        simp only [List.cons_append, List.nil_append, List.append_assoc]
        unfold printSpan
        rw [spansFrom_red, spansFrom_chars, List.length_range', e1, spansFrom_default_some]
      rw [List.append_assoc, hspan]
      have hhead : begin ≤ (begin, e).1 ∧ (begin, e).1 ≤ (begin, e).2 ∧
          (begin, e).2 ≤ string.length ∧ table (begin, e).1 (begin, e).2 = true ∧
          ∀ e1, (begin, e).2 < e1 → e1 ≤ string.length → table (begin, e).1 e1 = false :=
        ⟨le_refl _, g1, by omega, g3, fun e1 h1 h2 => g4 e1 h1 (by omega)⟩
      rcases Nat.eq_or_lt_of_le (Nat.le_of_lt_succ g2) with heq | hlt
      · rw [plainAt_of_le (by omega), renderFrom_past _ _ _ _ _ (by omega)]
        simp only [List.nil_append, spansFrom, List.mem_singleton, List.pairwise_cons,
          List.not_mem_nil, false_implies, implies_true, List.Pairwise.nil, and_self, and_true]
        intro s hs
        rw [hs]
        exact hhead
      · rw [plainAt_of_lt hnul hlt, List.singleton_append, spansFrom_chr]
        obtain ⟨h1, h2⟩ := ih (e + 1) (by omega)
        refine ⟨fun s hs => ?_, List.pairwise_cons.2 ⟨fun b hb1 => ?_, h2⟩⟩
        · rcases List.mem_cons.1 hs with rfl | hs1
          · exact hhead
          · have := h1 s hs1
            exact ⟨by omega, this.2⟩
        · have := h1 b hb1
          show e < b.1
          omega

/-! ## The driver on the pattern `c+` -/

theorem tableOf_oneOrMore_literal (fuel : Nat) (c : Char) (str : List Char) (len : Nat)
    (hfuel : len + 1 < fuel) :
    ∃ t, tableOf fuel (.OneOrMoreCharacter (.Literal c)) str len = .ok t ∧
      ∀ b e, t b e = true ↔ (b < e ∧ e ≤ len ∧ ∀ i, b ≤ i → i < e → charAt str i = c) := by
  obtain ⟨tp, hp, hiff, hw⟩ := tableOf_literal_width fuel c str len
  have hup := tableOf_upper hp
  have hnd : NoDiagonal len tp := by
    intro i _
    cases hti : tp i i with
    | false => rfl
    | true => have := hw i i hti; omega
  obtain ⟨t, ht⟩ := repeatFill_returns fuel tp len hfuel
    (strict_of_upper_noDiagonal hup hnd) tp
  have hupt : Upper len t := repeatFill_upper hup ht
  have hndt := repeatFill_noDiagonal hup hnd ht
  refine ⟨t, by rw [tableOf_oneOrMore_eq hp, ht], fun b e => ?_⟩
  constructor
  · intro hbe
    obtain ⟨h1, h2⟩ := hupt b e hbe
    have hlt : b < e := by
      rcases Nat.eq_or_lt_of_le h1 with rfl | hlt
      · rw [hndt b h2] at hbe; exact absurd hbe (by simp)
      · exact hlt
    refine ⟨hlt, h2, fun i hi1 hi2 => ?_⟩
    obtain ⟨L, n, hL, hn, hlen, hch⟩ := (repeatFill_chain_iff hup hnd ht b e hlt h2).1 hbe
    have h0 := hw _ _ (hch 0 (by omega))
    have hL1 : L = 1 := by
      simp only [Nat.zero_mul, Nat.add_zero, Nat.zero_add, Nat.one_mul] at h0
      omega
    subst hL1
    have h3 := ((hiff _ _).1 (hch (i - b) (by omega))).2.2
    have e1 : b + (i - b) * 1 = i := by omega
    rw [e1] at h3
    exact h3
  · rintro ⟨hlt, he, hall⟩
    refine (repeatFill_chain_iff hup hnd ht b e hlt he).2
      ⟨1, e - b, le_refl 1, by omega, by omega, fun k hk => ?_⟩
    rw [hiff]
    exact ⟨by omega, by omega, hall _ (by omega) (by omega)⟩

theorem parsePattern_plus (c : Char) (hc : ordinary c = true) :
    parsePattern [c, '+'] = .ok (.OneOrMoreCharacter (.Literal c)) := by
  have hrep : ∀ alt fuel, parseRepetition alt fuel [c, '+'] 0 =
      .ok (.OneOrMoreCharacter (.Literal c), 2) := fun alt fuel =>
    parseRepetition_plus alt fuel [c, '+'] 0 _ 1
      (parseAtomicPattern_ordinary alt fuel [c, '+'] 0 hc) rfl
  have hcat : ∀ alt, parseConcatenation alt 4 [c, '+'] 0 =
      .ok (.OneOrMoreCharacter (.Literal c), 2) := by
    intro alt
    rw [parseConcatenation_of alt 4 _ 0 _ _ (hrep alt 4)]
    exact concatenationLoop_stop alt 4 _ 3 _ 2 (Or.inl rfl)
  have ha : parseAlternation 4 [c, '+'] 0 = .ok (.OneOrMoreCharacter (.Literal c), 2) := by
    show parseAlternation (3 + 1) [c, '+'] 0 = _
    rw [parseAlternation_of 3 _ 0 _ _ (hcat _)]
    exact alternationLoop_stop _ _ _ 3 _ 2 (show NUL ≠ '|' by decide)
  exact parsePattern_of _ _ 2 ha rfl

theorem printSpan_cons (string : List Char) (begin e : Nat) (h : begin < e) :
    printSpan string begin e = Out.chr (charAt string begin) :: printSpan string (begin + 1) e := by
  unfold printSpan
  obtain ⟨k, rfl⟩ := Nat.exists_eq_add_of_lt h
  have e1 : begin + k + 1 - begin = k + 1 := by omega
  have e2 : begin + k + 1 - (begin + 1) = k := by omega
  rw [e1, e2, List.range'_succ, List.map_cons]

theorem drop_eq_charAt_cons {string : List Char} {p : Nat} (h : p < string.length) :
    string.drop p = charAt string p :: string.drop (p + 1) := by
  rw [List.drop_eq_getElem_cons h, charAt_of_lt h]

theorem highlightRuns_run (c : Char) (string : List Char) :
    ∀ k begin, begin + k ≤ string.length →
      (∀ i, begin ≤ i → i < begin + k → charAt string i = c) →
      highlightRuns c true (string.drop begin) =
        printSpan string begin (begin + k) ++ highlightRuns c true (string.drop (begin + k)) := by
  intro k
  induction k with
  | zero =>
    intro begin _ _
    simp [printSpan]
  | succ k ih =>
    intro begin hle hall
    have hc := hall begin (le_refl _) (by omega)
    rw [drop_eq_charAt_cons (by omega : begin < string.length), printSpan_cons _ _ _ (by omega)]
    simp only [highlightRuns]
    rw [if_pos hc, List.cons_append]
    have e1 : begin + (k + 1) = begin + 1 + k := by omega
    rw [e1, ← ih (begin + 1) (by omega) (fun i h1 h2 => hall i (by omega) (by omega))]

theorem renderFrom_runs (c : Char) (table : Table) (string : List Char)
    (hnul : ∀ x, x ∈ string → x ≠ NUL)
    (hT : ∀ b e, table b e = true ↔
      (b < e ∧ e ≤ string.length ∧ ∀ i, b ≤ i → i < e → charAt string i = c)) :
    ∀ fuel begin, begin ≤ string.length → string.length + 2 ≤ fuel + begin →
      renderFrom table string string.length fuel begin =
        highlightRuns c false (string.drop begin) := by
  intro fuel
  induction fuel with
  | zero => intro begin h1 h2; omega
  | succ fuel ih =>
    intro begin h1 h2
    simp only [renderFrom]
    rw [if_pos h1]
    have hfalse : ∀ b e, ¬ (b < e ∧ e ≤ string.length ∧
        ∀ i, b ≤ i → i < e → charAt string i = c) → table b e = false := by
      intro b e h
      cases hv : table b e with
      | false => rfl
      | true => exact absurd ((hT b e).1 hv) h
    rcases Nat.eq_or_lt_of_le h1 with heq | hlt
    · -- the cursor is at the end of the line
      have hnone : longest table begin (string.length + 1) = none := by
        cases hl : longest table begin (string.length + 1) with
        | none => rfl
        | some e =>
          obtain ⟨_, h4, h5, _⟩ := longest_some _ e hl
          have := (hT begin e).1 h5
          omega
      unfold lineStep
      rw [hnone]
      show plainAt string begin ++ renderFrom table string string.length fuel (begin + 1) = _
      rw [plainAt_of_le (by omega), renderFrom_past _ _ _ _ _ (by omega), heq,
        List.drop_length]
      rfl
    · by_cases hx : charAt string begin = c
      · -- a run starts at the cursor
        cases hl : longest table begin (string.length + 1) with
        | none =>
          have h3 := longest_none _ hl (begin + 1) (by omega) (by omega)
          rw [(hT begin (begin + 1)).2 ⟨by omega, by omega, fun i hi1 hi2 => by
            have : i = begin := by omega
            rw [this]; exact hx⟩] at h3
          exact absurd h3 (by simp)
        | some e =>
          obtain ⟨h3, h4, h5, h6⟩ := longest_some _ e hl
          obtain ⟨h7, h8, h9⟩ := (hT begin e).1 h5
          unfold lineStep
          rw [hl]
          show ([Out.RED] ++ printSpan string begin e ++ [Out.DEFAULT] ++ plainAt string e) ++
            renderFrom table string string.length fuel (e + 1) = _
          obtain ⟨k, rfl⟩ := Nat.exists_eq_add_of_lt h7
          have hrun := highlightRuns_run c string (k + 1) begin (by omega)
            (fun i hi1 hi2 => h9 i hi1 (by omega))
          rw [drop_eq_charAt_cons hlt]
          simp only [highlightRuns]
          rw [if_pos hx]
          rw [drop_eq_charAt_cons hlt] at hrun
          simp only [highlightRuns] at hrun
          rw [if_pos hx, printSpan_cons _ _ _ (by omega : begin < begin + (k + 1))] at hrun
          rw [printSpan_cons _ _ _ (by omega : begin < begin + k + 1)]
          have hrun2 := List.cons_injective hrun
          rw [hrun2]
          have e0 : begin + k + 1 = begin + (k + 1) := by omega
          rw [e0]
          rcases Nat.eq_or_lt_of_le h8 with hend | hend
          · rw [plainAt_of_le (by omega), renderFrom_past _ _ _ _ _ (by omega)]
            rw [e0] at hend
            rw [hend, List.drop_length]
            simp [highlightRuns]
          · rw [e0] at hend
            have hy : charAt string (begin + (k + 1)) ≠ c := by
              intro hy
              have h10 := h6 (begin + (k + 1) + 1) (by omega) (by omega)
              rw [(hT begin (begin + (k + 1) + 1)).2 ⟨by omega, by omega, fun i hi1 hi2 => by
                rcases Nat.eq_or_lt_of_le (Nat.le_of_lt_succ hi2) with h11 | h11
                · rw [h11]; exact hy
                · exact h9 i hi1 (by omega)⟩] at h10
              exact absurd h10 (by simp)
            rw [plainAt_of_lt hnul hend, ih _ (by omega) (by omega),
              drop_eq_charAt_cons hend]
            simp only [highlightRuns]
            rw [if_neg hy]
            simp
      · -- the character at the cursor is not `c`
        have hnone : longest table begin (string.length + 1) = none := by
          cases hl : longest table begin (string.length + 1) with
          | none => rfl
          | some e =>
            obtain ⟨_, h4, h5, _⟩ := longest_some _ e hl
            obtain ⟨h7, _, h9⟩ := (hT begin e).1 h5
            exact absurd (h9 begin (le_refl _) h7) hx
        unfold lineStep
        rw [hnone]
        show plainAt string begin ++ renderFrom table string string.length fuel (begin + 1) = _
        rw [plainAt_of_lt hnul hlt, ih _ (by omega) (by omega), drop_eq_charAt_cons hlt]
        simp only [highlightRuns]
        rw [if_neg hx]
        rfl

theorem foundMatch_runs (c : Char) (table : Table) (string : List Char)
    (hT : ∀ b e, table b e = true ↔
      (b < e ∧ e ≤ string.length ∧ ∀ i, b ≤ i → i < e → charAt string i = c)) :
    foundMatch table string.length = true ↔ c ∈ string := by
  rw [foundMatch_iff]
  constructor
  · rintro ⟨b, e, _, _, h⟩
    obtain ⟨h1, h2, h3⟩ := (hT b e).1 h
    have h4 := h3 b (le_refl _) h1
    rw [charAt_of_lt (by omega : b < string.length)] at h4
    rw [← h4]
    exact List.getElem_mem _
  · intro h
    obtain ⟨i, hi, hget⟩ := List.getElem_of_mem h
    refine ⟨i, i + 1, by omega, by omega, (hT i (i + 1)).2 ⟨by omega, by omega, ?_⟩⟩
    intro j h1 h2
    have : j = i := by omega
    rw [this, charAt_of_lt hi, hget]

/-! ## The driver at an empty match -/

theorem longest_diagonal {table : Table} {length p : Nat} (hp : p ≤ length)
    (hd : table p p = true) (hno : ∀ e, p < e → e ≤ length → table p e = false) :
    longest table p (length + 1) = some p := by
  cases hl : longest table p (length + 1) with
  | none =>
    rw [longest_none _ hl p (le_refl _) (by omega)] at hd
    exact absurd hd (by simp)
  | some e =>
    obtain ⟨h1, h2, h3, _⟩ := longest_some _ e hl
    rcases Nat.eq_or_lt_of_le h1 with h4 | h4
    · rw [h4]
    · rw [hno e h4 (by omega)] at h3
      exact absurd h3 (by simp)

theorem printSpan_self (string : List Char) (p : Nat) : printSpan string p p = [] := by
  unfold printSpan
  rw [Nat.sub_self]
  rfl

/-! ## Tables without empty matches, and nested concatenations -/

theorem tableOf_alternation_iff {fuel : Nat} {P1 P2 : Pattern} {str : List Char} {len : Nat}
    {t1 t2 : Table} (h1 : tableOf fuel P1 str len = .ok t1)
    (h2 : tableOf fuel P2 str len = .ok t2) :
    ∃ t, tableOf fuel (.Alternation P1 P2) str len = .ok t ∧
      ∀ x y, t x y = true ↔ (t1 x y = true ∨ t2 x y = true) := by
  unfold tableOf at h1 h2
  refine ⟨alternationFill t1 t2 len zeroTable, ?_, fun x y => ?_⟩
  · unfold tableOf
    simp only [matchPattern, matchAlternationPattern, h1, h2]
  · rw [alternationFill_apply]
    by_cases hr : x ≤ len ∧ y ≤ len
    · rw [if_pos hr, Bool.or_eq_true]
    · rw [if_neg hr]
      constructor
      · intro h; exact absurd h (by simp [zeroTable])
      · rintro (h | h)
        · have := matchPattern_upper fuel str len P1 zeroTable t1 (upper_zeroTable len) h1 x y h
          omega
        · have := matchPattern_upper fuel str len P2 zeroTable t2 (upper_zeroTable len) h2 x y h
          omega

theorem tableOf_nonEmptyOnly (fuel : Nat) (str : List Char) (len : Nat)
    (hfuel : len + 1 < fuel) :
    ∀ p : Pattern, nonEmptyOnly p = true →
      ∃ t, tableOf fuel p str len = .ok t ∧ NoDiagonal len t := by
  intro p
  induction p with
  | Literal sym =>
    intro _
    refine ⟨matchLiteralPattern sym str len zeroTable, rfl, fun i _ => ?_⟩
    cases hv : matchLiteralPattern sym str len zeroTable i i with
    | false => rfl
    | true =>
      rcases (matchLiteralPattern_iff sym str len zeroTable i i).1 hv with h | ⟨_, h, _⟩
      · exact absurd h (by simp [zeroTable])
      · omega
  | AnyCharacter =>
    intro _
    refine ⟨matchAnyCharacterPattern len zeroTable, rfl, fun i _ => ?_⟩
    cases hv : matchAnyCharacterPattern len zeroTable i i with
    | false => rfl
    | true =>
      rcases (matchAnyCharacterPattern_iff len zeroTable i i).1 hv with h | ⟨_, h⟩
      · exact absurd h (by simp [zeroTable])
      · omega
  | CharacterClass cs =>
    intro _
    refine ⟨matchCharacterClassPattern cs str len zeroTable, rfl, fun i _ => ?_⟩
    cases hv : matchCharacterClassPattern cs str len zeroTable i i with
    | false => rfl
    | true =>
      rcases (matchCharacterClassPattern_iff cs str len zeroTable i i).1 hv with h | ⟨_, h, _⟩
      · exact absurd h (by simp [zeroTable])
      · omega
  | Starting => intro h; exact absurd h (by simp [nonEmptyOnly])
  | Ending => intro h; exact absurd h (by simp [nonEmptyOnly])
  | NoneOrMoreCharacter p _ => intro h; exact absurd h (by simp [nonEmptyOnly])
  | NoneOrOneCharacter p _ => intro h; exact absurd h (by simp [nonEmptyOnly])
  | Concatenation p1 p2 ih1 ih2 =>
    intro h
    simp only [nonEmptyOnly, Bool.and_eq_true] at h
    obtain ⟨t1, h1, hd1⟩ := ih1 h.1
    obtain ⟨t2, h2, _⟩ := ih2 h.2
    obtain ⟨t, ht, hiff⟩ := tableOf_concatenation_iff h1 h2
    refine ⟨t, ht, fun i hi => ?_⟩
    cases hv : t i i with
    | false => rfl
    | true =>
      obtain ⟨k, h3, h4⟩ := (hiff i i).1 hv
      have h5 := tableOf_upper h1 i k h3
      have h6 := tableOf_upper h2 k i h4
      have h7 : k = i := by omega
      rw [h7, hd1 i hi] at h3
      exact absurd h3 (by simp)
  | Alternation p1 p2 ih1 ih2 =>
    intro h
    simp only [nonEmptyOnly, Bool.and_eq_true] at h
    obtain ⟨t1, h1, hd1⟩ := ih1 h.1
    obtain ⟨t2, h2, hd2⟩ := ih2 h.2
    obtain ⟨t, ht, hiff⟩ := tableOf_alternation_iff h1 h2
    refine ⟨t, ht, fun i hi => ?_⟩
    cases hv : t i i with
    | false => rfl
    | true =>
      rcases (hiff i i).1 hv with h3 | h3
      · rw [hd1 i hi] at h3; exact absurd h3 (by simp)
      · rw [hd2 i hi] at h3; exact absurd h3 (by simp)
  | OneOrMoreCharacter p ih =>
    intro h
    simp only [nonEmptyOnly] at h
    obtain ⟨tp, hp, hd⟩ := ih h
    have hup := tableOf_upper hp
    obtain ⟨t, ht⟩ := repeatFill_returns fuel tp len hfuel
      (strict_of_upper_noDiagonal hup hd) tp
    exact ⟨t, by rw [tableOf_oneOrMore_eq hp, ht], repeatFill_noDiagonal hup hd ht⟩

theorem tableOf_concatenation_assoc (fuel : Nat) (P Q R : Pattern) (str : List Char)
    (len : Nat) :
    tableOf fuel (.Concatenation (.Concatenation P Q) R) str len =
      tableOf fuel (.Concatenation P (.Concatenation Q R)) str len := by
  cases hP : tableOf fuel P str len with
  | error f =>
    unfold tableOf at hP ⊢
    simp only [matchPattern, matchConcatenationPattern, hP]
  | ok tP =>
    cases hQ : tableOf fuel Q str len with
    | error f =>
      unfold tableOf at hP hQ ⊢
      simp only [matchPattern, matchConcatenationPattern, hP, hQ]
    | ok tQ =>
      cases hR : tableOf fuel R str len with
      | error f =>
        unfold tableOf at hP hQ hR ⊢
        simp only [matchPattern, matchConcatenationPattern, hP, hQ, hR]
      | ok tR =>
        obtain ⟨tPQ, hPQ, iPQ⟩ := tableOf_concatenation_iff hP hQ
        obtain ⟨tQR, hQR, iQR⟩ := tableOf_concatenation_iff hQ hR
        obtain ⟨t1, h1, i1⟩ := tableOf_concatenation_iff hPQ hR
        obtain ⟨t2, h2, i2⟩ := tableOf_concatenation_iff hP hQR
        rw [h1, h2]
        have : t1 = t2 := by
          funext b e
          rw [Bool.eq_iff_iff, i1, i2]
          constructor
          · rintro ⟨k, h3, h4⟩
            obtain ⟨j, h5, h6⟩ := (iPQ b k).1 h3
            exact ⟨j, h5, (iQR j e).2 ⟨k, h6, h4⟩⟩
          · rintro ⟨j, h3, h4⟩
            obtain ⟨k, h5, h6⟩ := (iQR j e).1 h4
            exact ⟨k, (iPQ b k).2 ⟨j, h3, h5⟩, h6⟩
        rw [this]

/-! ## The driver prints every character once -/

theorem textOf_append (a b : List Out) : textOf (a ++ b) = textOf a ++ textOf b := by
  induction a with
  | nil => rfl
  | cons x xs ih =>
    cases x with
    | RED => exact ih
    | DEFAULT => exact ih
    | chr c =>
      show c :: textOf (xs ++ b) = c :: textOf xs ++ textOf b
      rw [ih]
      rfl

theorem textOf_printSpan (string : List Char) :
    ∀ k begin, begin + k ≤ string.length →
      textOf (printSpan string begin (begin + k)) ++ string.drop (begin + k) =
        string.drop begin := by
  intro k
  induction k with
  | zero =>
    intro begin _
    rw [Nat.add_zero, printSpan_self]
    rfl
  | succ k ih =>
    intro begin h
    rw [printSpan_cons _ _ _ (by omega), drop_eq_charAt_cons (by omega : begin < string.length)]
    show charAt string begin :: textOf (printSpan string (begin + 1) (begin + (k + 1))) ++ _ = _
    have e1 : begin + (k + 1) = begin + 1 + k := by omega
    rw [e1, List.cons_append, ih (begin + 1) (by omega)]

theorem textOf_plainAt (string : List Char) (hnul : ∀ c, c ∈ string → c ≠ NUL) (p : Nat) :
    textOf (plainAt string p) ++ string.drop (p + 1) = string.drop p := by
  by_cases h : p < string.length
  · rw [plainAt_of_lt hnul h, drop_eq_charAt_cons h]
    rfl
  · rw [plainAt_of_le (by omega), List.drop_eq_nil_of_le (by omega : string.length ≤ p + 1),
      List.drop_eq_nil_of_le (by omega : string.length ≤ p)]
    rfl

theorem textOf_renderFrom (table : Table) (string : List Char)
    (hnul : ∀ c, c ∈ string → c ≠ NUL) :
    ∀ fuel begin, string.length + 2 ≤ fuel + begin →
      textOf (renderFrom table string string.length fuel begin) = string.drop begin := by
  intro fuel
  induction fuel with
  | zero =>
    intro begin h
    rw [List.drop_eq_nil_of_le (by omega : string.length ≤ begin)]
    rfl
  | succ fuel ih =>
    intro begin h
    by_cases hb : begin ≤ string.length
    · simp only [renderFrom]
      rw [if_pos hb, textOf_append]
      have hbd := lineStep_bounds table string string.length begin hb
      rw [ih _ (by omega)]
      unfold lineStep
      cases hl : longest table begin (string.length + 1) with
      | none => exact textOf_plainAt string hnul begin
      | some e =>
        obtain ⟨h1, h2, _, _⟩ := longest_some _ e hl
        show textOf ([Out.RED] ++ printSpan string begin e ++ [Out.DEFAULT] ++ plainAt string e)
          ++ string.drop (e + 1) = _
        obtain ⟨k, rfl⟩ := Nat.exists_eq_add_of_le h1
        rw [textOf_append, textOf_append, textOf_append, List.append_assoc,
          textOf_plainAt string hnul]
        show (textOf (printSpan string begin (begin + k)) ++ []) ++ _ = _
        rw [List.append_nil]
        exact textOf_printSpan string k begin (by omega)
    · rw [renderFrom_past _ _ _ _ _ (by omega),
        List.drop_eq_nil_of_le (by omega : string.length ≤ begin)]
      rfl

/-! ## A pattern in parentheses -/

theorem parsePattern_parenthesised (s : List Char) (pat : Pattern)
    (hnul : ∀ c, c ∈ s → c ≠ NUL) (h : parsePattern s = .ok pat) :
    parsePattern ('(' :: (s ++ [')'])) = .ok pat := by
  rcases parsePattern_full s hnul with he | ⟨pat1, hp1, ha, _, _⟩
  · rw [he] at h; exact absurd h (by simp)
  · rw [hp1] at h
    have hpat : pat1 = pat := Except.ok.inj h
    subst hpat
    have hc := continues_append s [] hnul
    obtain ⟨h2, _⟩ := parseAlternation_ext hc (s.length + 2) (s.length + 3) 0
      pat1 s.length (by omega) (Nat.zero_le _) ha
    have hlen : ('(' :: (s ++ [')'])).length = s.length + 2 := by simp
    -- the characters at the three positions that matter
    have c0 : charAt ('(' :: (s ++ [')'])) 0 = '(' := rfl
    have c1 : charAt ('(' :: (s ++ [')'])) (s.length + 1) = ')' := by
      rw [charAt_cons_succ, charAt_append_last]
    have c2 : charAt ('(' :: (s ++ [')'])) (s.length + 1 + 1) = NUL :=
      charAt_of_le (by rw [hlen])
    -- the group
    have hgroup : parseAlternation (s.length + 3) ('(' :: (s ++ [')'])) (0 + 1) =
        .ok (pat1, s.length + 1) := by
      rw [parseAlternation_cons, h2]
      rfl
    have hatom : parseAtomicPattern (parseAlternation (s.length + 3) ('(' :: (s ++ [')'])))
        (s.length + 3 + 1) ('(' :: (s ++ [')'])) 0 = .ok (pat1, s.length + 1 + 1) := by
      rw [parseAtomicPattern_group _ _ _ _ c0, hgroup]
      simp only []
      rw [if_neg (by rw [c1]; simp)]
    have hrep := parseRepetition_plain _ _ _ _ _ _ hatom
      (by rw [c2]; decide) (by rw [c2]; decide) (by rw [c2]; decide)
    have hcat : parseConcatenation (parseAlternation (s.length + 3) ('(' :: (s ++ [')'])))
        (s.length + 3 + 1) ('(' :: (s ++ [')'])) 0 = .ok (pat1, s.length + 1 + 1) := by
      rw [parseConcatenation_of _ _ _ _ _ _ hrep]
      exact concatenationLoop_stop _ _ _ _ _ _ (Or.inl c2)
    have halt : parseAlternation (s.length + 3 + 1) ('(' :: (s ++ [')'])) 0 =
        .ok (pat1, s.length + 1 + 1) := by
      rw [parseAlternation_of _ _ _ _ _ hcat]
      exact alternationLoop_stop _ _ _ _ _ _ (by rw [c2]; decide)
    exact parsePattern_of _ _ (s.length + 1 + 1) (by rw [hlen]; exact halt) c2

/-! ## Soundness of the tables for the standard semantics -/

theorem strchr_mem (l : List Char) (c : Char) (h : strchr l c = true) : c ∈ l ∨ c = NUL := by
  induction l with
  | nil =>
    simp only [strchr, beq_iff_eq] at h
    exact Or.inr h
  | cons x xs ih =>
    simp only [strchr] at h
    by_cases h1 : (x == c) = true
    · exact Or.inl (by rw [beq_iff_eq] at h1; rw [h1]; exact List.mem_cons_self _ _)
    · rw [if_neg h1] at h
      by_cases h2 : (x == NUL) = true
      · rw [if_pos h2] at h; exact absurd h (by simp)
      · rw [if_neg h2] at h
        rcases ih h with h3 | h3
        · exact Or.inl (List.mem_cons_of_mem _ h3)
        · exact Or.inr h3

theorem tableOf_noneOrOne_eq {fuel : Nat} {p : Pattern} {str : List Char} {len : Nat}
    {tp : Table} (hp : tableOf fuel p str len = .ok tp) :
    tableOf fuel (.NoneOrOneCharacter p) str len = .ok (diagonalFill len tp) := by
  unfold tableOf at hp ⊢
  simp only [matchPattern, matchNoneOrOneCharacterPattern, hp]

theorem oneOrMore_of_chain {str : List Char} {len : Nat} {p : Pattern} {tp : Table}
    (hp : ∀ b e, tp b e = true → Matches str len p b e) (L : Nat) :
    ∀ n b, (∀ k, k < n + 1 → tp (b + k * L) (b + (k + 1) * L) = true) →
      Matches str len (.OneOrMoreCharacter p) b (b + (n + 1) * L) := by
  intro n
  induction n with
  | zero =>
    intro b h
    have h0 := h 0 (by omega)
    simp only [Nat.zero_mul, Nat.add_zero, Nat.zero_add] at h0 ⊢
    exact Matches.oneOrMoreOne p _ _ (hp _ _ h0)
  | succ n ih =>
    intro b h
    have h0 := h 0 (by omega)
    simp only [Nat.zero_mul, Nat.add_zero, Nat.zero_add, Nat.one_mul] at h0
    have hrest := ih (b + L) (fun k hk => by
      have := h (k + 1) (by omega)
      have e1 : b + L + k * L = b + (k + 1) * L := by
        rw [Nat.add_mul, Nat.one_mul]; omega
      have e2 : b + L + (k + 1) * L = b + (k + 1 + 1) * L := by
        rw [Nat.add_mul (k + 1) 1 L, Nat.one_mul]; omega
      rw [e1, e2]
      exact this)
    have e3 : b + L + (n + 1) * L = b + (n + 1 + 1) * L := by
      rw [Nat.add_mul (n + 1) 1 L, Nat.one_mul]; omega
    rw [e3] at hrest
    exact Matches.oneOrMoreStep p b (b + L) _ (hp _ _ h0) hrest

theorem noneOrMore_of_oneOrMore {str : List Char} {len : Nat} {p : Pattern} {b e : Nat}
    (he : e ≤ len) (h : Matches str len (.OneOrMoreCharacter p) b e) :
    Matches str len (.NoneOrMoreCharacter p) b e := by
  generalize hq : Pattern.OneOrMoreCharacter p = q at h
  induction h with
  | oneOrMoreOne p1 b1 e1 h1 =>
    cases hq
    exact Matches.noneOrMoreStep p b1 e1 e1 h1 (Matches.noneOrMoreEmpty p e1 he)
  | oneOrMoreStep p1 b1 k1 e1 h1 _ _ ih2 =>
    cases hq
    exact Matches.noneOrMoreStep p b1 k1 e1 h1 (ih2 he rfl)
  | literal => cases hq
  | anyCharacter => cases hq
  | characterClass => cases hq
  | starting => cases hq
  | ending => cases hq
  | concatenation => cases hq
  | alternationLeft => cases hq
  | alternationRight => cases hq
  | noneOrOneEmpty => cases hq
  | noneOrOneInner => cases hq
  | noneOrMoreEmpty => cases hq
  | noneOrMoreStep => cases hq

theorem repeatFill_sound {fuel : Nat} {str : List Char} {len : Nat} {p : Pattern}
    {tp t : Table} (hup : Upper len tp) (hnd : NoDiagonal len tp)
    (hp : ∀ b e, tp b e = true → Matches str len p b e)
    (ht : repeatFill fuel tp len tp = .ok t) (b e : Nat) (hbe : t b e = true) :
    Matches str len (.OneOrMoreCharacter p) b e := by
  obtain ⟨h1, h2⟩ := repeatFill_upper hup ht b e hbe
  rcases Nat.eq_or_lt_of_le h1 with h3 | h3
  · rw [← h3, repeatFill_noDiagonal hup hnd ht b (by omega)] at hbe
    exact absurd hbe (by simp)
  · obtain ⟨L, n, _, hn, hlen, hch⟩ := (repeatFill_chain_iff hup hnd ht b e h3 h2).1 hbe
    obtain ⟨m, rfl⟩ := Nat.exists_eq_add_of_le hn
    have e1 : e = b + (m + 1) * L := by
      rw [Nat.add_comm 1 m] at hlen; omega
    rw [e1]
    exact oneOrMore_of_chain hp L m b (fun k hk => hch k (by omega))

theorem tableOf_sound (fuel : Nat) (str : List Char) (len : Nat)
    (hstr : ∀ i, i < len → charAt str i ≠ NUL) (hfuel : len + 1 < fuel) :
    ∀ p : Pattern, Tame fuel str len p →
      ∃ t, tableOf fuel p str len = .ok t ∧ ∀ b e, t b e = true → Matches str len p b e := by
  intro p
  induction p with
  | Literal sym =>
    intro _
    refine ⟨matchLiteralPattern sym str len zeroTable, rfl, fun b e h => ?_⟩
    rcases (matchLiteralPattern_iff sym str len zeroTable b e).1 h with h1 | ⟨h1, h2, h3⟩
    · exact absurd h1 (by simp [zeroTable])
    · rw [h2]; exact Matches.literal sym b h1 h3
  | AnyCharacter =>
    intro _
    refine ⟨matchAnyCharacterPattern len zeroTable, rfl, fun b e h => ?_⟩
    rcases (matchAnyCharacterPattern_iff len zeroTable b e).1 h with h1 | ⟨h1, h2⟩
    · exact absurd h1 (by simp [zeroTable])
    · rw [h2]; exact Matches.anyCharacter b h1
  | Starting =>
    intro _
    refine ⟨matchStartingPattern zeroTable, rfl, fun b e h => ?_⟩
    rcases (matchStartingPattern_iff zeroTable b e).1 h with h1 | ⟨h1, h2⟩
    · exact absurd h1 (by simp [zeroTable])
    · rw [h1, h2]; exact Matches.starting
  | Ending =>
    intro _
    refine ⟨matchEndingPattern len zeroTable, rfl, fun b e h => ?_⟩
    rcases (matchEndingPattern_iff len zeroTable b e).1 h with h1 | ⟨h1, h2⟩
    · exact absurd h1 (by simp [zeroTable])
    · rw [h1, h2]; exact Matches.ending
  | CharacterClass cs =>
    intro _
    refine ⟨matchCharacterClassPattern cs str len zeroTable, rfl, fun b e h => ?_⟩
    rcases (matchCharacterClassPattern_iff cs str len zeroTable b e).1 h with h1 | ⟨h1, h2, h3⟩
    · exact absurd h1 (by simp [zeroTable])
    · rw [h2]
      rcases strchr_mem cs _ h3 with h4 | h4
      · exact Matches.characterClass cs b h1 h4
      · exact absurd h4 (hstr b h1)
  | Concatenation p1 p2 ih1 ih2 =>
    intro h
    obtain ⟨t1, h1, s1⟩ := ih1 h.1
    obtain ⟨t2, h2, s2⟩ := ih2 h.2
    obtain ⟨t, ht, hiff⟩ := tableOf_concatenation_iff h1 h2
    refine ⟨t, ht, fun b e hbe => ?_⟩
    obtain ⟨k, h3, h4⟩ := (hiff b e).1 hbe
    exact Matches.concatenation p1 p2 b k e (s1 _ _ h3) (s2 _ _ h4)
  | Alternation p1 p2 ih1 ih2 =>
    intro h
    obtain ⟨t1, h1, s1⟩ := ih1 h.1
    obtain ⟨t2, h2, s2⟩ := ih2 h.2
    obtain ⟨t, ht, hiff⟩ := tableOf_alternation_iff h1 h2
    refine ⟨t, ht, fun b e hbe => ?_⟩
    rcases (hiff b e).1 hbe with h3 | h3
    · exact Matches.alternationLeft p1 p2 b e (s1 _ _ h3)
    · exact Matches.alternationRight p1 p2 b e (s2 _ _ h3)
  | NoneOrMoreCharacter p ih =>
    intro h
    obtain ⟨tp, hp, sp⟩ := ih h.1
    have hnd := h.2 tp hp
    have hup := tableOf_upper hp
    obtain ⟨t, ht⟩ := repeatFill_returns fuel tp len hfuel
      (strict_of_upper_noDiagonal hup hnd) tp
    refine ⟨diagonalFill len t, by rw [tableOf_noneOrMore_eq hp, ht], fun b e hbe => ?_⟩
    rcases (diagonalFill_iff len t b e).1 hbe with h1 | ⟨h1, h2⟩
    · exact noneOrMore_of_oneOrMore (repeatFill_upper hup ht b e h1).2
        (repeatFill_sound hup hnd sp ht b e h1)
    · rw [← h1]; exact Matches.noneOrMoreEmpty p b h2
  | OneOrMoreCharacter p ih =>
    intro h
    obtain ⟨tp, hp, sp⟩ := ih h.1
    have hnd := h.2 tp hp
    have hup := tableOf_upper hp
    obtain ⟨t, ht⟩ := repeatFill_returns fuel tp len hfuel
      (strict_of_upper_noDiagonal hup hnd) tp
    exact ⟨t, by rw [tableOf_oneOrMore_eq hp, ht],
      fun b e hbe => repeatFill_sound hup hnd sp ht b e hbe⟩
  | NoneOrOneCharacter p ih =>
    intro h
    obtain ⟨tp, hp, sp⟩ := ih h
    refine ⟨diagonalFill len tp, tableOf_noneOrOne_eq hp, fun b e hbe => ?_⟩
    rcases (diagonalFill_iff len tp b e).1 hbe with h1 | ⟨h1, h2⟩
    · exact Matches.noneOrOneInner p b e (sp _ _ h1)
    · rw [← h1]; exact Matches.noneOrOneEmpty p b h2

/-! ## Reading a line that ends with a newline -/

theorem scanLine_line (rest : List Char) :
    ∀ (s : List Char) (width : Nat), s.length ≤ width → (∀ c, c ∈ s → c ≠ '\n') →
      scanLine width (s ++ '\n' :: rest) = (s, '\n' :: rest) := by
  intro s
  induction s with
  | nil =>
    intro width _ _
    cases width with
    | zero => rfl
    | succ w => simp [scanLine]
  | cons x xs ih =>
    intro width hw hn
    cases width with
    | zero => simp at hw
    | succ w =>
      have hx : x ≠ '\n' := hn x (List.mem_cons_self _ _)
      have := ih w (by simpa using hw) (fun c hc => hn c (List.mem_cons_of_mem _ hc))
      show scanLine (w + 1) (x :: (xs ++ '\n' :: rest)) = _
      simp only [scanLine]
      rw [if_neg hx, this]

theorem strlen_eq_length (s : List Char) (hnul : ∀ c, c ∈ s → c ≠ NUL) :
    strlen s = s.length := by
  have h : s.takeWhile (fun c => c != NUL) = s := by
    rw [List.takeWhile_eq_self_iff]
    intro c hc
    simpa using hnul c hc
  unfold strlen
  rw [h]

theorem readLine_line (s rest : List Char) (hlen : s.length ≤ MAX_LINE_LENGTH)
    (hne : s ≠ []) (hn : ∀ c, c ∈ s → c ≠ '\n') (hnul : ∀ c, c ∈ s → c ≠ NUL) :
    readLine (s ++ '\n' :: rest) =
      if s.length = MAX_LINE_LENGTH then .tooLong else .line s rest := by
  unfold readLine
  rw [scanLine_line rest s MAX_LINE_LENGTH hlen hn]
  simp only []
  rw [if_neg hne, strlen_eq_length s hnul, List.take_length]
  by_cases h : s.length = MAX_LINE_LENGTH
  · rw [if_pos h, if_pos h]
  · rw [if_neg h, if_neg h]
    cases rest <;> simp [discardLoop]

end Ugrep

namespace Sudoku

/-! ## The row validator -/

theorem mem_digits (size : Nat) (d : Int) : d ∈ digits size ↔ 1 ≤ d ∧ d ≤ size := by
  unfold digits
  simp only [List.mem_map, List.mem_range'_1]
  constructor
  · rintro ⟨k, ⟨h1, h2⟩, rfl⟩
    simp only [Int.ofNat_eq_coe]
    omega
  · rintro ⟨h1, h2⟩
    exact ⟨d.toNat, by omega, by simp only [Int.ofNat_eq_coe]; omega⟩

theorem scanRow_iff (size : Nat) (grid : Grid) (rowIndex : Nat) (digit : Int) :
    ∀ m k, k + m = size →
      (scanRow size grid rowIndex digit (List.range' k m) = true ↔
        (m = 0 ∨ ∃ c, k ≤ c ∧ c < size ∧ grid rowIndex c = digit)) := by
  intro m
  induction m with
  | zero => intro k _; simp [scanRow]
  | succ m ih =>
    intro k hk
    rw [List.range'_succ]
    simp only [scanRow]
    by_cases h1 : grid rowIndex k = digit
    · rw [if_pos h1]
      simp only [true_iff]
      exact Or.inr ⟨k, le_refl _, by omega, h1⟩
    · rw [if_neg h1]
      by_cases h2 : k = size - 1
      · rw [if_pos h2]
        simp only [Bool.false_eq_true, false_iff]
        rintro (h | ⟨c, h3, h4, h5⟩)
        · omega
        · have : c = k := by omega
          rw [this] at h5
          exact h1 h5
      · rw [if_neg h2, ih (k + 1) (by omega)]
        constructor
        · rintro (h | ⟨c, h3, h4, h5⟩)
          · omega
          · exact Or.inr ⟨c, by omega, h4, h5⟩
        · rintro (h | ⟨c, h3, h4, h5⟩)
          · omega
          · refine Or.inr ⟨c, ?_, h4, h5⟩
            rcases Nat.eq_or_lt_of_le h3 with h6 | h6
            · rw [← h6] at h5; exact absurd h5 h1
            · exact h6

theorem validateRows_iff_exists (size : Nat) (grid : Grid) :
    validateRows size grid = true ↔
      ∀ r, r < size → ∀ d : Int, 1 ≤ d → d ≤ size → ∃ c, c < size ∧ grid r c = d := by
  unfold validateRows
  simp only [List.all_eq_true, List.mem_range, mem_digits]
  rw [List.range_eq_range']
  constructor
  · intro h r hr d h1 h2
    rcases (scanRow_iff size grid r d size 0 (by omega)).1 (h r hr d ⟨h1, h2⟩) with h3 | h3
    · omega
    · obtain ⟨c, _, h4, h5⟩ := h3
      exact ⟨c, h4, h5⟩
  · intro h r hr d hd
    obtain ⟨c, h4, h5⟩ := h r hr d hd.1 hd.2
    exact (scanRow_iff size grid r d size 0 (by omega)).2 (Or.inr ⟨c, Nat.zero_le _, h4, h5⟩)

/-- Among `size` cells that show every digit `1 .. size`, no digit shows twice. -/
theorem existsUnique_of_exists (size : Nat) (v : Nat → Int)
    (h : ∀ d : Int, 1 ≤ d → d ≤ size → ∃ c, c < size ∧ v c = d) :
    ∀ d : Int, 1 ≤ d → d ≤ size → ∃! c, c < size ∧ v c = d := by
  have hex : ∀ i : Fin size, ∃ c : Fin size, v c = ((i : Nat) : Int) + 1 := by
    intro i
    obtain ⟨c, h1, h2⟩ := h (((i : Nat) : Int) + 1) (by omega) (by have := i.2; omega)
    exact ⟨⟨c, h1⟩, h2⟩
  choose f hf using hex
  have hinj : Function.Injective f := by
    intro i j hij
    have h1 := hf i
    rw [hij, hf j] at h1
    exact Fin.ext (by omega)
  have hsur : Function.Surjective f := Finite.injective_iff_surjective.1 hinj
  intro d h1 h2
  obtain ⟨c, h3, h4⟩ := h d h1 h2
  refine ⟨c, ⟨h3, h4⟩, ?_⟩
  rintro c1 ⟨h5, h6⟩
  obtain ⟨i, hi⟩ := hsur ⟨c, h3⟩
  obtain ⟨j, hj⟩ := hsur ⟨c1, h5⟩
  have e1 := hf i
  have e2 := hf j
  rw [hi] at e1
  rw [hj] at e2
  simp only at e1 e2
  have : i = j := Fin.ext (by omega)
  rw [this, hj] at hi
  exact (congrArg Fin.val hi)

end Sudoku

namespace Bits

/-! ## The bit functions on every byte and index -/

set_option maxRecDepth 100000 in
theorem bits_table :
    ∀ ch, ch < 256 → ∀ n, n < 8 → ∀ v : Bool,
      putBit ch n v < 256 ∧ getBit (putBit ch n v) n = v ∧
        (∀ m, m < 8 → m ≠ n → getBit (putBit ch n v) m = getBit ch m) ∧
        putBit ch n (getBit ch n) = ch := by
  decide

end Bits

namespace Ugrep

/-! ## The claims -/

/-- C1: when the tables of `P1` and `P2` on a line are `t1` and `t2`, matching
`Concatenation P1 P2` returns a table whose entry `[b][e]`, `b ≤ e ≤ len`, is true
iff some split point `k` with `b ≤ k ≤ e` has `t1[b][k]` and `t2[k][e]` true. -/
theorem concatenation_split_iff (fuel : Nat) (P1 P2 : Pattern) (str : List Char) (len : Nat)
    (t1 t2 : Table) (h1 : tableOf fuel P1 str len = .ok t1)
    (h2 : tableOf fuel P2 str len = .ok t2) :
    ∃ t, tableOf fuel (.Concatenation P1 P2) str len = .ok t ∧
      ∀ b e, b ≤ e → e ≤ len →
        (t b e = true ↔ ∃ k, b ≤ k ∧ k ≤ e ∧ t1 b k = true ∧ t2 k e = true) := by
  unfold tableOf at h1 h2
  refine ⟨concatFill t1 t2 len zeroTable, ?_, fun b e hbe he => ?_⟩
  · simp only [tableOf, matchPattern, matchConcatenationPattern, h1, h2]
  · rw [concatFill_iff]
    simp only [zeroTable_apply, Bool.false_eq_true, false_or]
    constructor
    · rintro ⟨_, _, k, hk⟩; exact ⟨k, hk⟩
    · rintro ⟨k, hk⟩; exact ⟨hbe, he, k, hk⟩

/-- Witness for C1: pattern `ab` on the line `ab`. -/
theorem concatenation_split_iff_witness :
    tableOf 0 (.Literal 'a') ['a', 'b'] 2 = .ok (matchLiteralPattern 'a' ['a', 'b'] 2 zeroTable) ∧
    tableOf 0 (.Literal 'b') ['a', 'b'] 2 = .ok (matchLiteralPattern 'b' ['a', 'b'] 2 zeroTable) ∧
    ∃ t, tableOf 0 (.Concatenation (.Literal 'a') (.Literal 'b')) ['a', 'b'] 2 = .ok t ∧
      ∀ b e, b ≤ e → e ≤ 2 →
        (t b e = true ↔ ∃ k, b ≤ k ∧ k ≤ e ∧
          matchLiteralPattern 'a' ['a', 'b'] 2 zeroTable b k = true ∧
          matchLiteralPattern 'b' ['a', 'b'] 2 zeroTable k e = true) :=
  ⟨rfl, rfl, concatenation_split_iff 0 (.Literal 'a') (.Literal 'b') ['a', 'b'] 2 _ _ rfl rfl⟩

/-- C2: when the tables of `P1` and `P2` on a line are `t1` and `t2`, matching
`Alternation P1 P2` returns a table whose entry `[b][e]`, `b ≤ e ≤ len`, is true iff
`t1[b][e]` or `t2[b][e]` is, and `Alternation P2 P1` returns the very same table. -/
theorem alternation_union_iff (fuel : Nat) (P1 P2 : Pattern) (str : List Char) (len : Nat)
    (t1 t2 : Table) (h1 : tableOf fuel P1 str len = .ok t1)
    (h2 : tableOf fuel P2 str len = .ok t2) :
    ∃ t, tableOf fuel (.Alternation P1 P2) str len = .ok t ∧
      (∀ b e, b ≤ e → e ≤ len → (t b e = true ↔ (t1 b e = true ∨ t2 b e = true))) ∧
      tableOf fuel (.Alternation P2 P1) str len = .ok t := by
  unfold tableOf at h1 h2
  refine ⟨alternationFill t1 t2 len zeroTable, ?_, fun b e hbe he => ?_, ?_⟩
  · simp only [tableOf, matchPattern, matchAlternationPattern, h1, h2]
  · rw [alternationFill_apply, if_pos ⟨by omega, he⟩, Bool.or_eq_true]
  · simp only [tableOf, matchPattern, matchAlternationPattern, h1, h2]
    congr 1
    funext x y
    rw [alternationFill_apply, alternationFill_apply, Bool.or_comm]

/-- Witness for C2: pattern `a|b` on the line `ab`. -/
theorem alternation_union_iff_witness :
    tableOf 0 (.Literal 'a') ['a', 'b'] 2 = .ok (matchLiteralPattern 'a' ['a', 'b'] 2 zeroTable) ∧
    tableOf 0 (.Literal 'b') ['a', 'b'] 2 = .ok (matchLiteralPattern 'b' ['a', 'b'] 2 zeroTable) ∧
    ∃ t, tableOf 0 (.Alternation (.Literal 'a') (.Literal 'b')) ['a', 'b'] 2 = .ok t ∧
      (∀ b e, b ≤ e → e ≤ 2 →
        (t b e = true ↔ (matchLiteralPattern 'a' ['a', 'b'] 2 zeroTable b e = true ∨
          matchLiteralPattern 'b' ['a', 'b'] 2 zeroTable b e = true))) ∧
      tableOf 0 (.Alternation (.Literal 'b') (.Literal 'a')) ['a', 'b'] 2 = .ok t :=
  ⟨rfl, rfl, alternation_union_iff 0 (.Literal 'a') (.Literal 'b') ['a', 'b'] 2 _ _ rfl rfl⟩

/-- C3: when the table `tp` of the inner pattern `p` has no true diagonal entry,
matching `OneOrMoreCharacter p` (with fuel above `len + 1`) returns a table whose
entry `[b][e]`, `b < e ≤ len`, is true iff there are `L ≥ 1` and `n ≥ 1` with
`e - b = n * L` and `tp[b + k*L][b + (k+1)*L]` true for every `k < n`: a chain of
`n` contiguous inner matches that all have the same length `L`. -/
theorem oneOrMore_uniform_chain_iff (fuel : Nat) (p : Pattern) (str : List Char) (len : Nat)
    (tp : Table) (hfuel : len + 1 < fuel) (hp : tableOf fuel p str len = .ok tp)
    (hnd : ∀ i, i ≤ len → tp i i = false) :
    ∃ t, tableOf fuel (.OneOrMoreCharacter p) str len = .ok t ∧
      ∀ b e, b < e → e ≤ len →
        (t b e = true ↔ ∃ L n, 1 ≤ L ∧ 1 ≤ n ∧ e - b = n * L ∧
          ∀ k, k < n → tp (b + k * L) (b + (k + 1) * L) = true) := by
  have hup := tableOf_upper hp
  obtain ⟨t, ht⟩ := repeatFill_returns fuel tp len hfuel
    (strict_of_upper_noDiagonal hup hnd) tp
  refine ⟨t, by rw [tableOf_oneOrMore_eq hp, ht], fun b e hbe he => ?_⟩
  exact repeatFill_chain_iff hup hnd ht b e hbe he

/-- Witness for C3: pattern `a+` on the line `aa`. -/
theorem oneOrMore_uniform_chain_iff_witness :
    2 + 1 < 4 ∧
    tableOf 4 (.Literal 'a') ['a', 'a'] 2 = .ok (matchLiteralPattern 'a' ['a', 'a'] 2 zeroTable) ∧
    (∀ i, i ≤ 2 → matchLiteralPattern 'a' ['a', 'a'] 2 zeroTable i i = false) ∧
    ∃ t, tableOf 4 (.OneOrMoreCharacter (.Literal 'a')) ['a', 'a'] 2 = .ok t ∧
      ∀ b e, b < e → e ≤ 2 →
        (t b e = true ↔ ∃ L n, 1 ≤ L ∧ 1 ≤ n ∧ e - b = n * L ∧
          ∀ k, k < n →
            matchLiteralPattern 'a' ['a', 'a'] 2 zeroTable (b + k * L) (b + (k + 1) * L) = true) :=
  ⟨by decide, rfl, by decide,
    oneOrMore_uniform_chain_iff 4 (.Literal 'a') ['a', 'a'] 2 _ (by decide) rfl (by decide)⟩

/-- C4: when the table of the inner pattern `p` has no true diagonal entry, matching
`NoneOrMoreCharacter p` and `OneOrMoreCharacter p` (with fuel above `len + 1`) return
tables `t0` and `t1` such that for `b ≤ e ≤ len`, `t0[b][e]` is true iff `b = e` or
`t1[b][e]` is true; and every diagonal entry `t0[i][i]`, `i ≤ len`, is true. -/
theorem noneOrMore_eq_diagonal_or_oneOrMore (fuel : Nat) (p : Pattern) (str : List Char)
    (len : Nat) (tp : Table) (hfuel : len + 1 < fuel) (hp : tableOf fuel p str len = .ok tp)
    (hnd : ∀ i, i ≤ len → tp i i = false) :
    ∃ t0 t1, tableOf fuel (.NoneOrMoreCharacter p) str len = .ok t0 ∧
      tableOf fuel (.OneOrMoreCharacter p) str len = .ok t1 ∧
      (∀ b e, b ≤ e → e ≤ len → (t0 b e = true ↔ (b = e ∨ t1 b e = true))) ∧
      ∀ i, i ≤ len → t0 i i = true := by
  have hup := tableOf_upper hp
  obtain ⟨t, ht⟩ := repeatFill_returns fuel tp len hfuel
    (strict_of_upper_noDiagonal hup hnd) tp
  refine ⟨diagonalFill len t, t, by rw [tableOf_noneOrMore_eq hp, ht],
    by rw [tableOf_oneOrMore_eq hp, ht], fun b e hbe he => ?_, fun i hi => ?_⟩
  · rw [diagonalFill_iff]
    constructor
    · rintro (h | ⟨h, _⟩)
      · exact Or.inr h
      · exact Or.inl h
    · rintro (h | h)
      · exact Or.inr ⟨h, by omega⟩
      · exact Or.inl h
  · rw [diagonalFill_iff]
    exact Or.inr ⟨rfl, hi⟩

/-- Witness for C4: patterns `a*` and `a+` on the line `aa`. -/
theorem noneOrMore_eq_diagonal_or_oneOrMore_witness :
    2 + 1 < 4 ∧
    tableOf 4 (.Literal 'a') ['a', 'a'] 2 = .ok (matchLiteralPattern 'a' ['a', 'a'] 2 zeroTable) ∧
    (∀ i, i ≤ 2 → matchLiteralPattern 'a' ['a', 'a'] 2 zeroTable i i = false) ∧
    ∃ t0 t1, tableOf 4 (.NoneOrMoreCharacter (.Literal 'a')) ['a', 'a'] 2 = .ok t0 ∧
      tableOf 4 (.OneOrMoreCharacter (.Literal 'a')) ['a', 'a'] 2 = .ok t1 ∧
      (∀ b e, b ≤ e → e ≤ 2 → (t0 b e = true ↔ (b = e ∨ t1 b e = true))) ∧
      ∀ i, i ≤ 2 → t0 i i = true :=
  ⟨by decide, rfl, by decide,
    noneOrMore_eq_diagonal_or_oneOrMore 4 (.Literal 'a') ['a', 'a'] 2 _ (by decide) rfl
      (by decide)⟩

/-- C8: when the table of the inner pattern `p` has no true diagonal entry, matching
`OneOrMoreCharacter p` (with fuel above `len + 1`) returns a table with no true
diagonal entry either. -/
theorem oneOrMore_adds_no_diagonal (fuel : Nat) (p : Pattern) (str : List Char) (len : Nat)
    (tp : Table) (hfuel : len + 1 < fuel) (hp : tableOf fuel p str len = .ok tp)
    (hnd : ∀ i, i ≤ len → tp i i = false) :
    ∃ t, tableOf fuel (.OneOrMoreCharacter p) str len = .ok t ∧
      ∀ i, i ≤ len → t i i = false := by
  have hup := tableOf_upper hp
  obtain ⟨t, ht⟩ := repeatFill_returns fuel tp len hfuel
    (strict_of_upper_noDiagonal hup hnd) tp
  exact ⟨t, by rw [tableOf_oneOrMore_eq hp, ht], repeatFill_noDiagonal hup hnd ht⟩

/-- Witness for C8: pattern `a+` on the line `aa`. -/
theorem oneOrMore_adds_no_diagonal_witness :
    2 + 1 < 4 ∧
    tableOf 4 (.Literal 'a') ['a', 'a'] 2 = .ok (matchLiteralPattern 'a' ['a', 'a'] 2 zeroTable) ∧
    (∀ i, i ≤ 2 → matchLiteralPattern 'a' ['a', 'a'] 2 zeroTable i i = false) ∧
    ∃ t, tableOf 4 (.OneOrMoreCharacter (.Literal 'a')) ['a', 'a'] 2 = .ok t ∧
      ∀ i, i ≤ 2 → t i i = false :=
  ⟨by decide, rfl, by decide,
    oneOrMore_adds_no_diagonal 4 (.Literal 'a') ['a', 'a'] 2 _ (by decide) rfl (by decide)⟩

/-- C5 (the code does not do this): the patterns `(a?)*`, `(a?)+`, `^*` and `(a*)*`
parse, and on the line `a` their match never returns, whatever the fuel: the inner
table has a true diagonal entry, `length` is 0 and the `while` loop of the
repetition matcher never exits. -/
theorem repetition_of_empty_match_never_returns :
    parsePattern ['(', 'a', '?', ')', '*'] =
        .ok (.NoneOrMoreCharacter (.NoneOrOneCharacter (.Literal 'a'))) ∧
    parsePattern ['(', 'a', '?', ')', '+'] =
        .ok (.OneOrMoreCharacter (.NoneOrOneCharacter (.Literal 'a'))) ∧
    parsePattern ['^', '*'] = .ok (.NoneOrMoreCharacter .Starting) ∧
    parsePattern ['(', 'a', '*', ')', '*'] =
        .ok (.NoneOrMoreCharacter (.NoneOrMoreCharacter (.Literal 'a'))) ∧
    ∀ fuel,
      tableOf fuel (.NoneOrMoreCharacter (.NoneOrOneCharacter (.Literal 'a'))) ['a'] 1 =
          .error .OutOfFuel ∧
      tableOf fuel (.OneOrMoreCharacter (.NoneOrOneCharacter (.Literal 'a'))) ['a'] 1 =
          .error .OutOfFuel ∧
      tableOf fuel (.NoneOrMoreCharacter .Starting) ['a'] 1 = .error .OutOfFuel ∧
      tableOf fuel (.NoneOrMoreCharacter (.NoneOrMoreCharacter (.Literal 'a'))) ['a'] 1 =
          .error .OutOfFuel := by
  refine ⟨rfl, rfl, rfl, rfl, fun fuel => ?_⟩
  have h1 : tableOf fuel (.NoneOrOneCharacter (.Literal 'a')) ['a'] 1 =
      .ok (diagonalFill 1 (matchLiteralPattern 'a' ['a'] 1 zeroTable)) := rfl
  have h2 : tableOf fuel .Starting ['a'] 1 = .ok (matchStartingPattern zeroTable) := rfl
  refine ⟨(tableOf_repetition_diverges h1 0 (by decide) (by decide)).1,
    (tableOf_repetition_diverges h1 0 (by decide) (by decide)).2,
    (tableOf_repetition_diverges h2 0 (by decide) (by decide)).1, ?_⟩
  cases h3 : tableOf fuel (.NoneOrMoreCharacter (.Literal 'a')) ['a'] 1 with
  | error f =>
    have h4 : tableOf fuel (.Literal 'a') ['a'] 1 =
        .ok (matchLiteralPattern 'a' ['a'] 1 zeroTable) := rfl
    rw [tableOf_noneOrMore_eq h4] at h3
    cases h5 : repeatFill fuel (matchLiteralPattern 'a' ['a'] 1 zeroTable) 1
        (matchLiteralPattern 'a' ['a'] 1 zeroTable) with
    | ok t2 => rw [h5] at h3; exact absurd h3 (by simp)
    | error g =>
      have hg : g = .OutOfFuel := by
        unfold repeatFill at h5
        exact forEach_fault _ _ (fun begin _ => forEach_fault _ _ (fun end_ _ =>
          repeatStep_fault fuel _ 1 begin end_
            (fun h => ((tableOf_upper h4) begin end_ h).1))) _ g h5
      subst hg
      have h6 : tableOf fuel (.NoneOrMoreCharacter (.NoneOrMoreCharacter (.Literal 'a')))
          ['a'] 1 = matchNoneOrMoreCharacterPattern fuel
            (matchPattern fuel (.NoneOrMoreCharacter (.Literal 'a')) ['a'] 1) 1 zeroTable := rfl
      rw [h6]
      unfold matchNoneOrMoreCharacterPattern
      have h7 : matchPattern fuel (.NoneOrMoreCharacter (.Literal 'a')) ['a'] 1 zeroTable =
          .error .OutOfFuel := by
        have h8 := tableOf_noneOrMore_eq h4
        rw [h5] at h8
        exact h8
      rw [h7]
  | ok t =>
    have hdiag : t 0 0 = true := by
      have h4 : tableOf fuel (.Literal 'a') ['a'] 1 =
          .ok (matchLiteralPattern 'a' ['a'] 1 zeroTable) := rfl
      rw [tableOf_noneOrMore_eq h4] at h3
      cases h5 : repeatFill fuel (matchLiteralPattern 'a' ['a'] 1 zeroTable) 1
          (matchLiteralPattern 'a' ['a'] 1 zeroTable) with
      | error g => rw [h5] at h3; exact absurd h3 (by simp)
      | ok t2 =>
        rw [h5] at h3
        simp only [Except.ok.injEq] at h3
        subst h3
        rw [diagonalFill_iff]
        exact Or.inr ⟨rfl, by decide⟩
    exact (tableOf_repetition_diverges h3 0 (by decide) hdiag).1

/-- C6 (the code does not do this): for `p = a|bb` on the line `abb` the inner table
has no true diagonal entry and is true at `[0][1]` and `[1][3]`, yet the tables of
`p+` and `p*` are false at `[0][3]`: a chain of inner matches of lengths 1 and 2 is
not found. -/
theorem mixed_length_chain_not_matched :
    parsePattern ['(', 'a', '|', 'b', 'b', ')', '+'] =
      .ok (.OneOrMoreCharacter
        (.Alternation (.Literal 'a') (.Concatenation (.Literal 'b') (.Literal 'b')))) ∧
    parsePattern ['(', 'a', '|', 'b', 'b', ')', '*'] =
      .ok (.NoneOrMoreCharacter
        (.Alternation (.Literal 'a') (.Concatenation (.Literal 'b') (.Literal 'b')))) ∧
    (∀ i, i ≤ 3 → entry (tableOf 5
      (.Alternation (.Literal 'a') (.Concatenation (.Literal 'b') (.Literal 'b')))
      ['a', 'b', 'b'] 3) i i = some false) ∧
    entry (tableOf 5
      (.Alternation (.Literal 'a') (.Concatenation (.Literal 'b') (.Literal 'b')))
      ['a', 'b', 'b'] 3) 0 1 = some true ∧
    entry (tableOf 5
      (.Alternation (.Literal 'a') (.Concatenation (.Literal 'b') (.Literal 'b')))
      ['a', 'b', 'b'] 3) 1 3 = some true ∧
    entry (tableOf 5 (.OneOrMoreCharacter
      (.Alternation (.Literal 'a') (.Concatenation (.Literal 'b') (.Literal 'b'))))
      ['a', 'b', 'b'] 3) 0 3 = some false ∧
    entry (tableOf 5 (.NoneOrMoreCharacter
      (.Alternation (.Literal 'a') (.Concatenation (.Literal 'b') (.Literal 'b'))))
      ['a', 'b', 'b'] 3) 0 3 = some false := by
  refine ⟨rfl, rfl, by decide, by decide, by decide, by decide, by decide⟩

/-- C7: (1) when every true entry `[b][e]` of the inner table `tp` has the same length
`e - b = L`, `L ≥ 1`, matching `NoneOrMoreCharacter p` (with fuel above `len + 1`)
returns a table whose entry `[b][e]`, `b ≤ e ≤ len`, is true iff `[b,e)` splits into
zero or more consecutive pieces that are each a true entry of `tp`; (2) the tables
of `Literal c`, `AnyCharacter` and `CharacterClass cs` have that property with
`L = 1`; (3) for `p = Literal c` the entry `[b][e]` is true iff every character of
`str[b..e)` equals `c`; (4) `a*` on `aaa` has `[0][1]`, `[0][2]`, `[0][3]` and every
diagonal entry true. -/
theorem noneOrMore_fixed_width_splits :
    (∀ (fuel : Nat) (p : Pattern) (str : List Char) (len : Nat) (tp : Table) (L : Nat),
      len + 1 < fuel → tableOf fuel p str len = .ok tp → 1 ≤ L →
      (∀ b e, tp b e = true → e - b = L) →
      ∃ t, tableOf fuel (.NoneOrMoreCharacter p) str len = .ok t ∧
        ∀ b e, b ≤ e → e ≤ len → (t b e = true ↔ Splits tp b e)) ∧
    (∀ (fuel : Nat) (str : List Char) (len : Nat) (p : Pattern),
      ((∃ c, p = .Literal c) ∨ p = .AnyCharacter ∨ (∃ cs, p = .CharacterClass cs)) →
      ∃ tp, tableOf fuel p str len = .ok tp ∧ ∀ b e, tp b e = true → e - b = 1) ∧
    (∀ (fuel : Nat) (c : Char) (str : List Char), str.length + 1 < fuel →
      ∃ t, tableOf fuel (.NoneOrMoreCharacter (.Literal c)) str str.length = .ok t ∧
        ∀ b e, b ≤ e → e ≤ str.length →
          (t b e = true ↔ ∀ i, b ≤ i → i < e → charAt str i = c)) ∧
    (∃ t, tableOf 5 (.NoneOrMoreCharacter (.Literal 'a')) ['a', 'a', 'a'] 3 = .ok t ∧
      t 0 1 = true ∧ t 0 2 = true ∧ t 0 3 = true ∧ ∀ i, i ≤ 3 → t i i = true) := by
  refine ⟨fun fuel p str len tp L hfuel hp hL hw =>
      tableOf_noneOrMore_fixed_width hfuel hp hL hw, ?_,
    fun fuel c str hfuel => tableOf_noneOrMore_literal fuel c str hfuel, ?_⟩
  · rintro fuel str len p (⟨c, rfl⟩ | rfl | ⟨cs, rfl⟩)
    · obtain ⟨tp, hp, _, hw⟩ := tableOf_literal_width fuel c str len
      exact ⟨tp, hp, hw⟩
    · refine ⟨_, rfl, fun b e hbe => ?_⟩
      rw [matchAnyCharacterPattern_iff] at hbe
      simp only [zeroTable_apply, Bool.false_eq_true, false_or] at hbe
      omega
    · refine ⟨_, rfl, fun b e hbe => ?_⟩
      rw [matchCharacterClassPattern_iff] at hbe
      simp only [zeroTable_apply, Bool.false_eq_true, false_or] at hbe
      omega
  · obtain ⟨t, ht, hiff⟩ := tableOf_noneOrMore_literal 5 'a' ['a', 'a', 'a']
      (by decide)
    have hall : ∀ i, 0 ≤ i → i < 3 → charAt ['a', 'a', 'a'] i = 'a' := by
      intro i _ hi
      interval_cases i <;> rfl
    refine ⟨t, ht, ?_, ?_, ?_, fun i hi => ?_⟩
    · exact (hiff 0 1 (by decide) (by decide)).2 (fun i h1 h2 => hall i h1 (by omega))
    · exact (hiff 0 2 (by decide) (by decide)).2 (fun i h1 h2 => hall i h1 (by omega))
    · exact (hiff 0 3 (by decide) (by decide)).2 (fun i h1 h2 => hall i h1 (by omega))
    · exact (hiff i i (le_refl i) hi).2 (fun j h1 h2 => by omega)

/-- Witness for C7: part (1) at `p = Literal 'a'`, `L = 1`, on the line `ab`. -/
theorem noneOrMore_fixed_width_splits_witness :
    2 + 1 < 4 ∧
    tableOf 4 (.Literal 'a') ['a', 'b'] 2 = .ok (matchLiteralPattern 'a' ['a', 'b'] 2 zeroTable) ∧
    1 ≤ 1 ∧
    (∀ b e, matchLiteralPattern 'a' ['a', 'b'] 2 zeroTable b e = true → e - b = 1) ∧
    ∃ t, tableOf 4 (.NoneOrMoreCharacter (.Literal 'a')) ['a', 'b'] 2 = .ok t ∧
      ∀ b e, b ≤ e → e ≤ 2 →
        (t b e = true ↔ Splits (matchLiteralPattern 'a' ['a', 'b'] 2 zeroTable) b e) :=
  have hw : ∀ b e, matchLiteralPattern 'a' ['a', 'b'] 2 zeroTable b e = true → e - b = 1 := by
    intro b e h
    rw [matchLiteralPattern_iff] at h
    simp only [zeroTable_apply, Bool.false_eq_true, false_or] at h
    omega
  ⟨by decide, rfl, le_refl 1, hw,
    noneOrMore_fixed_width_splits.1 4 (.Literal 'a') ['a', 'b'] 2 _ 1 (by decide) rfl
      (le_refl 1) hw⟩

/-- C9: every non-empty string `w` of ordinary characters (none of the eleven special
characters, and not NUL) parses, and on every text the table of the parsed pattern
has `[b][e]`, `b ≤ e ≤ len`, true iff `e - b = |w|` and `text[b..e) = w`.  Pattern
`ab` on `xaby`: `[1][3]` is true and `[0][3]` is false. -/
theorem ordinary_string_matches_itself :
    (∀ (w : List Char), w ≠ [] → (∀ c, c ∈ w → c ∉ specialChars ∧ c ≠ NUL) →
      ∃ pat, parsePattern w = .ok pat ∧
        ∀ (fuel : Nat) (text : List Char),
          ∃ t, tableOf fuel pat text text.length = .ok t ∧
            ∀ b e, b ≤ e → e ≤ text.length →
              (t b e = true ↔ (e - b = w.length ∧ (text.drop b).take (e - b) = w))) ∧
    parsePattern ['a', 'b'] = .ok (.Concatenation (.Literal 'a') (.Literal 'b')) ∧
    entry (tableOf 0 (.Concatenation (.Literal 'a') (.Literal 'b')) ['x', 'a', 'b', 'y'] 4) 1 3 =
      some true ∧
    entry (tableOf 0 (.Concatenation (.Literal 'a') (.Literal 'b')) ['x', 'a', 'b', 'y'] 4) 0 3 =
      some false := by
  refine ⟨fun w hne hord => ?_, rfl, by decide, by decide⟩
  cases w with
  | nil => exact absurd rfl hne
  | cons c cs =>
    refine ⟨literalChain (.Literal c) cs,
      parsePattern_ordinary c cs (fun d hd => (ordinary_iff d).2 (hord d hd)),
      fun fuel text => ?_⟩
    obtain ⟨t, ht, hiff⟩ := tableOf_ordinary_string fuel c cs text
    exact ⟨t, ht, fun b e hbe _ => hiff b e hbe⟩

/-- Witness for C9: the string `ab`. -/
theorem ordinary_string_matches_itself_witness :
    ['a', 'b'] ≠ [] ∧ (∀ c, c ∈ ['a', 'b'] → c ∉ specialChars ∧ c ≠ NUL) ∧
    ∃ pat, parsePattern ['a', 'b'] = .ok pat ∧
      ∀ (fuel : Nat) (text : List Char),
        ∃ t, tableOf fuel pat text text.length = .ok t ∧
          ∀ b e, b ≤ e → e ≤ text.length →
            (t b e = true ↔
              (e - b = ['a', 'b'].length ∧ (text.drop b).take (e - b) = ['a', 'b'])) :=
  ⟨by decide, by decide,
    ordinary_string_matches_itself.1 ['a', 'b'] (by decide) (by decide)⟩

/-- C10: when the table of `P` on a line is `tp`, matching
`Concatenation (Concatenation Starting P) Ending` returns a table whose entry
`[b][e]`, `b ≤ e ≤ len`, is true iff `b = 0`, `e = len` and `tp[0][len]` is true.
The pattern `^a$` parses to this shape with `P = Literal a`; on the line `a` exactly
`[0][1]` is true and on the line `ab` no entry is true. -/
theorem anchored_pattern_matches_whole_line :
    (∀ (fuel : Nat) (P : Pattern) (str : List Char) (len : Nat) (tp : Table),
      tableOf fuel P str len = .ok tp →
      ∃ t, tableOf fuel (.Concatenation (.Concatenation .Starting P) .Ending) str len = .ok t ∧
        ∀ b e, b ≤ e → e ≤ len → (t b e = true ↔ (b = 0 ∧ e = len ∧ tp 0 len = true))) ∧
    parsePattern ['^', 'a', '$'] =
      .ok (.Concatenation (.Concatenation .Starting (.Literal 'a')) .Ending) ∧
    (∃ t, tableOf 0 (.Concatenation (.Concatenation .Starting (.Literal 'a')) .Ending)
        ['a'] 1 = .ok t ∧
      ∀ b e, b ≤ e → e ≤ 1 → (t b e = true ↔ (b = 0 ∧ e = 1))) ∧
    (∃ t, tableOf 0 (.Concatenation (.Concatenation .Starting (.Literal 'a')) .Ending)
        ['a', 'b'] 2 = .ok t ∧
      ∀ b e, b ≤ e → e ≤ 2 → t b e = false) := by
  refine ⟨fun fuel P str len tp hp => ?_, rfl, ?_, ?_⟩
  · obtain ⟨t, ht, hiff⟩ := tableOf_anchored hp
    exact ⟨t, ht, fun b e _ _ => hiff b e⟩
  · have hl : tableOf 0 (.Literal 'a') ['a'] 1 =
        .ok (matchLiteralPattern 'a' ['a'] 1 zeroTable) := rfl
    obtain ⟨t, ht, hiff⟩ := tableOf_anchored hl
    refine ⟨t, ht, fun b e _ _ => ?_⟩
    rw [hiff]
    have h01 : matchLiteralPattern 'a' ['a'] 1 zeroTable 0 1 = true := by decide
    simp [h01]
  · have hl : tableOf 0 (.Literal 'a') ['a', 'b'] 2 =
        .ok (matchLiteralPattern 'a' ['a', 'b'] 2 zeroTable) := rfl
    obtain ⟨t, ht, hiff⟩ := tableOf_anchored hl
    refine ⟨t, ht, fun b e _ _ => ?_⟩
    have h02 : matchLiteralPattern 'a' ['a', 'b'] 2 zeroTable 0 2 = false := by decide
    cases hbe : t b e with
    | false => rfl
    | true =>
      have := ((hiff b e).1 hbe).2.2
      rw [h02] at this
      exact absurd this (by simp)

/-- Witness for C10: the general part at `P = Literal 'a'` on the line `a`. -/
theorem anchored_pattern_matches_whole_line_witness :
    tableOf 0 (.Literal 'a') ['a'] 1 = .ok (matchLiteralPattern 'a' ['a'] 1 zeroTable) ∧
    ∃ t, tableOf 0 (.Concatenation (.Concatenation .Starting (.Literal 'a')) .Ending)
        ['a'] 1 = .ok t ∧
      ∀ b e, b ≤ e → e ≤ 1 →
        (t b e = true ↔
          (b = 0 ∧ e = 1 ∧ matchLiteralPattern 'a' ['a'] 1 zeroTable 0 1 = true)) :=
  ⟨rfl, anchored_pattern_matches_whole_line.1 0 (.Literal 'a') ['a'] 1 _ rfl⟩

/-- C11: the table of `Literal sym` has `[b][e]`, `b ≤ e ≤ len`, true iff `e = b + 1`
and `str[b] = sym`; the table of `AnyCharacter` has `[b][e]` true iff `e = b + 1`. -/
theorem literal_and_anyCharacter_tables (fuel : Nat) (sym : Char) (str : List Char)
    (len : Nat) :
    (∃ t, tableOf fuel (.Literal sym) str len = .ok t ∧
      ∀ b e, b ≤ e → e ≤ len → (t b e = true ↔ (e = b + 1 ∧ charAt str b = sym))) ∧
    (∃ t, tableOf fuel .AnyCharacter str len = .ok t ∧
      ∀ b e, b ≤ e → e ≤ len → (t b e = true ↔ e = b + 1)) := by
  constructor
  · refine ⟨_, rfl, fun b e _ he => ?_⟩
    rw [matchLiteralPattern_iff]
    simp only [zeroTable_apply, Bool.false_eq_true, false_or]
    constructor
    · rintro ⟨_, h1, h2⟩; exact ⟨h1, h2⟩
    · rintro ⟨h1, h2⟩; exact ⟨by omega, h1, h2⟩
  · refine ⟨_, rfl, fun b e _ he => ?_⟩
    rw [matchAnyCharacterPattern_iff]
    simp only [zeroTable_apply, Bool.false_eq_true, false_or]
    constructor
    · rintro ⟨_, h1⟩; exact h1
    · intro h1; exact ⟨by omega, h1⟩

/-- C12: for a member string `cs` and a text, neither containing NUL, the table of
`CharacterClass cs` has `[b][e]`, `b ≤ e ≤ len`, true iff `e = b + 1` and `str[b]` is
one of the characters of `cs`; the class with no members has no true entry. -/
theorem characterClass_table (fuel : Nat) (cs : List Char) (str : List Char) (len : Nat)
    (hcs : ∀ x, x ∈ cs → x ≠ NUL) (htext : ∀ i, i < len → charAt str i ≠ NUL) :
    ∃ t, tableOf fuel (.CharacterClass cs) str len = .ok t ∧
      (∀ b e, b ≤ e → e ≤ len → (t b e = true ↔ (e = b + 1 ∧ charAt str b ∈ cs))) ∧
      (cs = [] → ∀ b e, t b e = false) := by
  have key : ∀ b e, matchCharacterClassPattern cs str len zeroTable b e = true ↔
      (b < len ∧ e = b + 1 ∧ charAt str b ∈ cs) := by
    intro b e
    rw [matchCharacterClassPattern_iff]
    simp only [zeroTable_apply, Bool.false_eq_true, false_or]
    constructor
    · rintro ⟨h1, h2, h3⟩
      rcases (strchr_iff cs hcs _).1 h3 with h4 | h4
      · exact ⟨h1, h2, h4⟩
      · exact absurd h4 (htext b h1)
    · rintro ⟨h1, h2, h3⟩
      exact ⟨h1, h2, (strchr_iff cs hcs _).2 (Or.inl h3)⟩
  refine ⟨_, rfl, fun b e _ he => ?_, fun hnil b e => ?_⟩
  · rw [key]
    constructor
    · rintro ⟨_, h1, h2⟩; exact ⟨h1, h2⟩
    · rintro ⟨h1, h2⟩; exact ⟨by omega, h1, h2⟩
  · cases hbe : matchCharacterClassPattern cs str len zeroTable b e with
    | false => rfl
    | true =>
      have h := ((key b e).1 hbe).2.2
      rw [hnil] at h
      exact absurd h (List.not_mem_nil _)

/-- Witness for C12: the class `[ab]` on the line `ac`. -/
theorem characterClass_table_witness :
    (∀ x, x ∈ ['a', 'b'] → x ≠ NUL) ∧ (∀ i, i < 2 → charAt ['a', 'c'] i ≠ NUL) ∧
    ∃ t, tableOf 0 (.CharacterClass ['a', 'b']) ['a', 'c'] 2 = .ok t ∧
      (∀ b e, b ≤ e → e ≤ 2 →
        (t b e = true ↔ (e = b + 1 ∧ charAt ['a', 'c'] b ∈ ['a', 'b']))) ∧
      (['a', 'b'] = [] → ∀ b e, t b e = false) :=
  ⟨by decide, by decide,
    characterClass_table 0 ['a', 'b'] ['a', 'c'] 2 (by decide) (by decide)⟩

/-- C13: the table of `Starting` has `[b][e]`, `b ≤ e ≤ len`, true iff `b = e = 0`, the
table of `Ending` iff `b = e = len`; on the empty line the two tables are the same
table, true exactly at `[0][0]`. -/
theorem starting_and_ending_tables (fuel : Nat) (str : List Char) (len : Nat) :
    (∃ t, tableOf fuel .Starting str len = .ok t ∧
      ∀ b e, b ≤ e → e ≤ len → (t b e = true ↔ (b = 0 ∧ e = 0))) ∧
    (∃ t, tableOf fuel .Ending str len = .ok t ∧
      ∀ b e, b ≤ e → e ≤ len → (t b e = true ↔ (b = len ∧ e = len))) ∧
    (∃ t, tableOf fuel .Starting [] 0 = .ok t ∧ tableOf fuel .Ending [] 0 = .ok t ∧
      ∀ b e, t b e = true ↔ (b = 0 ∧ e = 0)) := by
  refine ⟨⟨_, rfl, fun b e _ _ => ?_⟩, ⟨_, rfl, fun b e _ _ => ?_⟩,
    ⟨_, rfl, rfl, fun b e => ?_⟩⟩
  · rw [matchStartingPattern_iff]
    simp only [zeroTable_apply, Bool.false_eq_true, false_or]
  · rw [matchEndingPattern_iff]
    simp only [zeroTable_apply, Bool.false_eq_true, false_or]
  · rw [matchStartingPattern_iff]
    simp only [zeroTable_apply, Bool.false_eq_true, false_or]

/-- C14: when the table of `p` on a line is `tp`, matching `NoneOrOneCharacter p`
returns a table whose entry `[b][e]`, `b ≤ e ≤ len`, is true iff `b = e` or
`tp[b][e]` is true. -/
theorem noneOrOne_table (fuel : Nat) (p : Pattern) (str : List Char) (len : Nat) (tp : Table)
    (hp : tableOf fuel p str len = .ok tp) :
    ∃ t, tableOf fuel (.NoneOrOneCharacter p) str len = .ok t ∧
      ∀ b e, b ≤ e → e ≤ len → (t b e = true ↔ (b = e ∨ tp b e = true)) := by
  unfold tableOf at hp
  refine ⟨diagonalFill len tp, ?_, fun b e hbe he => ?_⟩
  · simp only [tableOf, matchPattern, matchNoneOrOneCharacterPattern, hp]
  · rw [diagonalFill_iff]
    constructor
    · rintro (h | ⟨h, _⟩)
      · exact Or.inr h
      · exact Or.inl h
    · rintro (h | h)
      · exact Or.inr ⟨h, by omega⟩
      · exact Or.inl h

/-- Witness for C14: pattern `a?` on the line `ab`. -/
theorem noneOrOne_table_witness :
    tableOf 0 (.Literal 'a') ['a', 'b'] 2 = .ok (matchLiteralPattern 'a' ['a', 'b'] 2 zeroTable) ∧
    ∃ t, tableOf 0 (.NoneOrOneCharacter (.Literal 'a')) ['a', 'b'] 2 = .ok t ∧
      ∀ b e, b ≤ e → e ≤ 2 →
        (t b e = true ↔ (b = e ∨ matchLiteralPattern 'a' ['a', 'b'] 2 zeroTable b e = true)) :=
  ⟨rfl, noneOrOne_table 0 (.Literal 'a') ['a', 'b'] 2 _ rfl⟩

/-- C15: for ordinary characters `x`, `y` (none of the eleven special characters, not
NUL) the patterns `xy*`, `xy+`, `xy?` parse to `Concatenation (Literal x) (Q (Literal y))`
and `(xy)*`, `(xy)+`, `(xy)?` to `Q (Concatenation (Literal x) (Literal y))`, with `Q` the
node of the quantifier; and `a(b|c)*d` parses to
`Concatenation (Concatenation a (NoneOrMoreCharacter (Alternation b c))) d`.
`parsePattern` is a function of the string, so every call gives this tree. -/
theorem quantifier_wraps_preceding_unit :
    (∀ x y : Char, x ∉ specialChars ∧ x ≠ NUL → y ∉ specialChars ∧ y ≠ NUL →
      parsePattern [x, y, '*'] =
        .ok (.Concatenation (.Literal x) (.NoneOrMoreCharacter (.Literal y))) ∧
      parsePattern [x, y, '+'] =
        .ok (.Concatenation (.Literal x) (.OneOrMoreCharacter (.Literal y))) ∧
      parsePattern [x, y, '?'] =
        .ok (.Concatenation (.Literal x) (.NoneOrOneCharacter (.Literal y))) ∧
      parsePattern ['(', x, y, ')', '*'] =
        .ok (.NoneOrMoreCharacter (.Concatenation (.Literal x) (.Literal y))) ∧
      parsePattern ['(', x, y, ')', '+'] =
        .ok (.OneOrMoreCharacter (.Concatenation (.Literal x) (.Literal y))) ∧
      parsePattern ['(', x, y, ')', '?'] =
        .ok (.NoneOrOneCharacter (.Concatenation (.Literal x) (.Literal y)))) ∧
    parsePattern ['a', '(', 'b', '|', 'c', ')', '*', 'd'] =
      .ok (.Concatenation
        (.Concatenation (.Literal 'a')
          (.NoneOrMoreCharacter (.Alternation (.Literal 'b') (.Literal 'c'))))
        (.Literal 'd')) := by
  refine ⟨fun x y hx hy => ?_, rfl⟩
  have hx1 := (ordinary_iff x).2 hx
  have hy1 := (ordinary_iff y).2 hy
  exact ⟨parsePattern_xyq x y '*' _ hx1 hy1
      (fun alt fuel ha => parseRepetition_star alt fuel _ 1 _ 2 ha rfl),
    parsePattern_xyq x y '+' _ hx1 hy1
      (fun alt fuel ha => parseRepetition_plus alt fuel _ 1 _ 2 ha rfl),
    parsePattern_xyq x y '?' _ hx1 hy1
      (fun alt fuel ha => parseRepetition_question alt fuel _ 1 _ 2 ha rfl),
    parsePattern_group_q x y '*' _ hx1 hy1
      (fun alt fuel ha => parseRepetition_star alt fuel _ 0 _ 4 ha rfl),
    parsePattern_group_q x y '+' _ hx1 hy1
      (fun alt fuel ha => parseRepetition_plus alt fuel _ 0 _ 4 ha rfl),
    parsePattern_group_q x y '?' _ hx1 hy1
      (fun alt fuel ha => parseRepetition_question alt fuel _ 0 _ 4 ha rfl)⟩

/-- Witness for C15: the characters `a` and `b`. -/
theorem quantifier_wraps_preceding_unit_witness :
    ('a' ∉ specialChars ∧ 'a' ≠ NUL) ∧ ('b' ∉ specialChars ∧ 'b' ≠ NUL) ∧
    parsePattern ['a', 'b', '*'] =
      .ok (.Concatenation (.Literal 'a') (.NoneOrMoreCharacter (.Literal 'b'))) ∧
    parsePattern ['(', 'a', 'b', ')', '+'] =
      .ok (.OneOrMoreCharacter (.Concatenation (.Literal 'a') (.Literal 'b'))) :=
  ⟨by decide, by decide,
    (quantifier_wraps_preceding_unit.1 'a' 'b' (by decide) (by decide)).1,
    (quantifier_wraps_preceding_unit.1 'a' 'b' (by decide) (by decide)).2.2.2.2.1⟩

/-- C16: for non-empty words `w`, `v1`, ..., `vn` of ordinary characters, the pattern
`w|v1|...|vn` parses to `Alternation (... (Alternation C(w) C(v1)) ...) C(vn)`, where
`C(u)` is the left-nested concatenation of the literals of `u`; `ab|cd` gives
`Alternation (Concatenation a b) (Concatenation c d)` and `abc` gives
`Concatenation (Concatenation a b) c`. -/
theorem alternation_of_words_nests_left :
    (∀ (w : List Char) (ws : List (List Char)),
      (w ≠ [] ∧ ∀ c, c ∈ w → c ∉ specialChars ∧ c ≠ NUL) →
      (∀ v, v ∈ ws → v ≠ [] ∧ ∀ c, c ∈ v → c ∉ specialChars ∧ c ≠ NUL) →
      parsePattern (w ++ barJoin ws) =
        .ok (ws.foldl (fun p v => .Alternation p (literalWord v)) (literalWord w))) ∧
    parsePattern ['a', 'b', '|', 'c', 'd'] =
      .ok (.Alternation (.Concatenation (.Literal 'a') (.Literal 'b'))
        (.Concatenation (.Literal 'c') (.Literal 'd'))) ∧
    parsePattern ['a', 'b', 'c'] =
      .ok (.Concatenation (.Concatenation (.Literal 'a') (.Literal 'b')) (.Literal 'c')) ∧
    literalWord ['a', 'b', 'c'] =
      .Concatenation (.Concatenation (.Literal 'a') (.Literal 'b')) (.Literal 'c') := by
  refine ⟨fun w ws hw hws => ?_, rfl, rfl, rfl⟩
  exact parsePattern_words w ws hw.1 (fun d hd => (ordinary_iff d).2 (hw.2 d hd))
    (fun v hv => ⟨(hws v hv).1, fun d hd => (ordinary_iff d).2 ((hws v hv).2 d hd)⟩)

/-- Witness for C16: the pattern `ab|c|de`. -/
theorem alternation_of_words_nests_left_witness :
    (['a', 'b'] ≠ [] ∧ ∀ c, c ∈ ['a', 'b'] → c ∉ specialChars ∧ c ≠ NUL) ∧
    (∀ v, v ∈ [['c'], ['d', 'e']] → v ≠ [] ∧ ∀ c, c ∈ v → c ∉ specialChars ∧ c ≠ NUL) ∧
    parsePattern (['a', 'b'] ++ barJoin [['c'], ['d', 'e']]) =
      .ok ([['c'], ['d', 'e']].foldl (fun p v => .Alternation p (literalWord v))
        (literalWord ['a', 'b'])) :=
  ⟨by decide, by decide,
    alternation_of_words_nests_left.1 ['a', 'b'] [['c'], ['d', 'e']] (by decide) (by decide)⟩

/-- C17: for a character `c` other than NUL, the one-character pattern `c` parses to
`Literal c` iff `c` is none of the eleven special characters; `.`, `^`, `$` parse to
`AnyCharacter`, `Starting`, `Ending`; each of `*`, `?`, `+`, `|`, `(`, `)`, `[`, `{`
alone is rejected with `InvalidPattern`; `]` and `}` are literals. -/
theorem single_character_pattern :
    (∀ c : Char, c ≠ NUL → (parsePattern [c] = .ok (.Literal c) ↔ c ∉ specialChars)) ∧
    parsePattern ['.'] = .ok .AnyCharacter ∧
    parsePattern ['^'] = .ok .Starting ∧
    parsePattern ['$'] = .ok .Ending ∧
    (∀ c, c ∈ ['*', '?', '+', '|', '(', ')', '[', '{'] →
      parsePattern [c] = .error .InvalidPattern) ∧
    parsePattern [']'] = .ok (.Literal ']') ∧
    parsePattern ['}'] = .ok (.Literal '}') := by
  have hbad : ∀ c, c ∈ ['*', '?', '+', '|', '(', ')', '[', '{'] →
      parsePattern [c] = .error .InvalidPattern := by
    intro c hc
    simp only [List.mem_cons, List.mem_singleton, List.not_mem_nil, or_false] at hc
    rcases hc with rfl | rfl | rfl | rfl | rfl | rfl | rfl | rfl <;> rfl
  refine ⟨fun c hc => ⟨fun h hmem => ?_, fun h => ?_⟩, rfl, rfl, rfl, hbad, rfl, rfl⟩
  · simp only [specialChars, List.mem_cons, List.mem_singleton, List.not_mem_nil,
      or_false] at hmem
    rcases hmem with rfl | rfl | rfl | rfl | rfl | rfl | rfl | rfl | rfl | rfl | rfl
    · have h2 : parsePattern ['.'] = .ok .AnyCharacter := rfl
      rw [h2] at h; cases h
    · have h2 : parsePattern ['^'] = .ok .Starting := rfl
      rw [h2] at h; cases h
    · have h2 : parsePattern ['$'] = .ok .Ending := rfl
      rw [h2] at h; cases h
    · rw [hbad '*' (by decide)] at h; cases h
    · rw [hbad '?' (by decide)] at h; cases h
    · rw [hbad '+' (by decide)] at h; cases h
    · rw [hbad '|' (by decide)] at h; cases h
    · rw [hbad '(' (by decide)] at h; cases h
    · rw [hbad ')' (by decide)] at h; cases h
    · rw [hbad '[' (by decide)] at h; cases h
    · rw [hbad '{' (by decide)] at h; cases h
  · have ho : ∀ d, d ∈ [c] → ordinary d = true := by
      intro d hd
      rw [List.mem_singleton.1 hd]
      exact (ordinary_iff c).2 ⟨h, hc⟩
    exact parsePattern_ordinary c [] ho

/-- C18: for every string `v` without `]` and NUL, the pattern `[v]` parses to the
character class whose members are the characters of `v` as written: special
characters, `-`, `^` and the backslash are plain members and `[]` is the empty class.
A `]` ends the class at its first occurrence: `[]a]` is the empty class followed by
the literals `a` and `]`. -/
theorem bracket_expression_members :
    (∀ v : List Char, (∀ c, c ∈ v → c ≠ ']' ∧ c ≠ NUL) →
      parsePattern ('[' :: (v ++ [']'])) = .ok (.CharacterClass v)) ∧
    parsePattern ['[', ']'] = .ok (.CharacterClass []) ∧
    parsePattern ['[', '.', '*', '-', '^', '\\', '(', '[', ']'] =
      .ok (.CharacterClass ['.', '*', '-', '^', '\\', '(', '[']) ∧
    parsePattern ['[', ']', 'a', ']'] =
      .ok (.Concatenation (.Concatenation (.CharacterClass []) (.Literal 'a'))
        (.Literal ']')) :=
  ⟨fun v hv => parsePattern_class v hv, rfl, rfl, rfl⟩

/-- Witness for C18: the class `[a-^]`. -/
theorem bracket_expression_members_witness :
    (∀ c, c ∈ ['a', '-', '^'] → c ≠ ']' ∧ c ≠ NUL) ∧
    parsePattern ('[' :: (['a', '-', '^'] ++ [']'])) = .ok (.CharacterClass ['a', '-', '^']) :=
  ⟨by decide, bracket_expression_members.1 ['a', '-', '^'] (by decide)⟩

/-- C20: when the pattern string `s` parses, the pattern `(` followed by `s` is
rejected with `InvalidPattern` (no tree is returned); so is `(a`. -/
theorem unmatched_open_paren_rejected :
    (∀ (s : List Char) (pat : Pattern), parsePattern s = .ok pat →
      parsePattern ('(' :: s) = .error .InvalidPattern) ∧
    parsePattern ['(', 'a'] = .error .InvalidPattern :=
  ⟨fun s pat h => parsePattern_open_group s pat h, rfl⟩

/-- Witness for C20: the pattern `a|b` behind an opening parenthesis. -/
theorem unmatched_open_paren_rejected_witness :
    parsePattern ['a', '|', 'b'] = .ok (.Alternation (.Literal 'a') (.Literal 'b')) ∧
    parsePattern ('(' :: ['a', '|', 'b']) = .error .InvalidPattern :=
  ⟨rfl, unmatched_open_paren_rejected.1 ['a', '|', 'b'] _ rfl⟩

/-- C19: a pattern string (without NUL) that has a `[` at some position `i` and no `]`
at any later position is rejected with `InvalidPattern`, whatever stands before the
`[`. -/
theorem unclosed_bracket_rejected (s : List Char) (i : Nat)
    (hnul : ∀ c, c ∈ s → c ≠ NUL) (hopen : charAt s i = '[')
    (hno : ∀ j, i < j → charAt s j ≠ ']') :
    parsePattern s = .error .InvalidPattern := by
  rcases parsePattern_good s with h | ⟨pat, pos, _, _, hle, hend, hclosed⟩
  · exact h
  · have hi : i < s.length := lt_length_of_charAt_ne s i (by rw [hopen]; decide)
    have hpos : pos = s.length := by
      by_contra hne
      have hlt : pos < s.length := by omega
      have h1 := charAt_of_lt hlt
      rw [hend] at h1
      exact hnul _ (List.getElem_mem hlt) h1.symm
    subst hpos
    obtain ⟨j, hj1, _, hj3⟩ := hclosed i (Nat.zero_le i) hi hopen
    exact absurd hj3 (hno j hj1)

/-- Witness for C19: the pattern `a]([b`. -/
theorem unclosed_bracket_rejected_witness :
    (∀ c, c ∈ ['a', ']', '(', '[', 'b'] → c ≠ NUL) ∧
    charAt ['a', ']', '(', '[', 'b'] 3 = '[' ∧
    (∀ j, 3 < j → charAt ['a', ']', '(', '[', 'b'] j ≠ ']') ∧
    parsePattern ['a', ']', '(', '[', 'b'] = .error .InvalidPattern :=
  have hno : ∀ j, 3 < j → charAt ['a', ']', '(', '[', 'b'] j ≠ ']' := by
    intro j hj
    rcases Nat.lt_or_ge j 5 with h | h
    · have : j = 4 := by omega
      subst this
      decide
    · rw [charAt_of_le (by simpa using h)]
      decide
  ⟨by decide, rfl, hno,
    unclosed_bracket_rejected ['a', ']', '(', '[', 'b'] 3 (by decide) rfl hno⟩

/-- C22: the empty pattern is rejected with `InvalidPattern`; so is every pattern that
begins with one of `*`, `+`, `?`, `|`, `)`, `{`; and so is every pattern (without
NUL) that ends with `|`. -/
theorem missing_atom_rejected :
    parsePattern [] = .error .InvalidPattern ∧
    (∀ (c : Char) (s : List Char), c ∈ ['*', '+', '?', '|', ')', '{'] →
      parsePattern (c :: s) = .error .InvalidPattern) ∧
    (∀ s : List Char, (∀ c, c ∈ s → c ≠ NUL) →
      parsePattern (s ++ ['|']) = .error .InvalidPattern) :=
  ⟨rfl, fun c s hc => parsePattern_no_atom c s hc,
    fun s hs => parsePattern_trailing_bar s hs⟩

/-- Witness for C22: the patterns `*ab` and `a|`. -/
theorem missing_atom_rejected_witness :
    '*' ∈ ['*', '+', '?', '|', ')', '{'] ∧
    parsePattern ('*' :: ['a', 'b']) = .error .InvalidPattern ∧
    (∀ c, c ∈ ['a'] → c ≠ NUL) ∧
    parsePattern (['a'] ++ ['|']) = .error .InvalidPattern :=
  ⟨by decide, missing_atom_rejected.2.1 '*' ['a', 'b'] (by decide), by decide,
    missing_atom_rejected.2.2 ['a'] (by decide)⟩

/-- C30: every pattern string (without NUL) that ends with two quantifier characters
is rejected with `InvalidPattern`, whatever stands before them, in particular a
pattern that parses; `a**`, `a+?` and `(ab)*+` are rejected. -/
theorem double_quantifier_rejected :
    (∀ (s : List Char) (q1 q2 : Char), (∀ c, c ∈ s → c ≠ NUL) →
      q1 ∈ ['*', '+', '?'] → q2 ∈ ['*', '+', '?'] →
      parsePattern (s ++ [q1, q2]) = .error .InvalidPattern) ∧
    parsePattern ['a', '*', '*'] = .error .InvalidPattern ∧
    parsePattern ['a', '+', '?'] = .error .InvalidPattern ∧
    parsePattern ['(', 'a', 'b', ')', '*', '+'] = .error .InvalidPattern :=
  ⟨fun s q1 q2 hs h1 h2 => parsePattern_two_quantifiers s q1 q2 hs h1 h2, rfl, rfl, rfl⟩

/-- Witness for C30: the pattern `ab` followed by `?*`. -/
theorem double_quantifier_rejected_witness :
    (∀ c, c ∈ ['a', 'b'] → c ≠ NUL) ∧ '?' ∈ ['*', '+', '?'] ∧ '*' ∈ ['*', '+', '?'] ∧
    parsePattern ['a', 'b'] = .ok (.Concatenation (.Literal 'a') (.Literal 'b')) ∧
    parsePattern (['a', 'b'] ++ ['?', '*']) = .error .InvalidPattern :=
  ⟨by decide, by decide, by decide, rfl,
    double_quantifier_rejected.1 ['a', 'b'] '?' '*' (by decide) (by decide) (by decide)⟩

/-- C21: when the pattern string `s` (without NUL) parses, the pattern `s` followed by
`)` and any string `t` is rejected with `InvalidPattern`: the parse stops at the stray
`)` and the unconsumed rest is refused. -/
theorem stray_close_paren_rejected (s t : List Char) (pat : Pattern)
    (hnul : ∀ c, c ∈ s → c ≠ NUL) (h : parsePattern s = .ok pat) :
    parsePattern (s ++ ')' :: t) = .error .InvalidPattern :=
  parsePattern_stray_close s t pat hnul h

/-- Witness for C21: the pattern `a|b` followed by `)c*`. -/
theorem stray_close_paren_rejected_witness :
    (∀ c, c ∈ ['a', '|', 'b'] → c ≠ NUL) ∧
    parsePattern ['a', '|', 'b'] = .ok (.Alternation (.Literal 'a') (.Literal 'b')) ∧
    parsePattern (['a', '|', 'b'] ++ ')' :: ['c', '*']) = .error .InvalidPattern :=
  ⟨by decide, rfl,
    stray_close_paren_rejected ['a', '|', 'b'] ['c', '*'] _ (by decide) rfl⟩

/-- C23: for every line (a C string, without NUL) and every match table, when some
`table[b][e]` with `b ≤ e ≤ length` is true, a diagonal entry included, the driver
prints the line: its output is a rendering whose characters, with the highlight markers
deleted, are exactly the characters of the line, followed by the newline; when no such
entry is true it prints nothing. -/
theorem line_printed_iff_match (table : Table) (string : List Char)
    (hnul : ∀ c, c ∈ string → c ≠ NUL) :
    ((∃ b e, b ≤ e ∧ e ≤ string.length ∧ table b e = true) →
      ∃ out, printLine table string string.length = .ok (out ++ [Out.chr '\n']) ∧
        textOf out = string) ∧
    ((¬ ∃ b e, b ≤ e ∧ e ≤ string.length ∧ table b e = true) →
      printLine table string string.length = .ok []) := by
  rw [printLine_eq]
  constructor
  · intro h
    rw [if_pos ((foundMatch_iff table string.length).2 h)]
    refine ⟨_, rfl, ?_⟩
    rw [textOf_renderFrom table string hnul _ 0 (by omega)]
    rfl
  · intro h
    rw [if_neg (fun hf => h ((foundMatch_iff table string.length).1 hf))]

/-- Witness for C23: on the line `ab`, the table with only the diagonal entry `[1][1]`
true prints the line (with an empty marker pair before `b`), and the table without a
true entry prints nothing. -/
theorem line_printed_iff_match_witness :
    (∀ c, c ∈ ['a', 'b'] → c ≠ NUL) ∧
    printLine (zeroTable.set 1 1 true) ['a', 'b'] 2 =
      .ok [Out.chr 'a', Out.RED, Out.DEFAULT, Out.chr 'b', Out.chr '\n'] ∧
    printLine zeroTable ['a', 'b'] 2 = .ok [] ∧
    ((∃ b e, b ≤ e ∧ e ≤ ['a', 'b'].length ∧ (zeroTable.set 1 1 true) b e = true) →
      ∃ out, printLine (zeroTable.set 1 1 true) ['a', 'b'] ['a', 'b'].length =
          .ok (out ++ [Out.chr '\n']) ∧ textOf out = ['a', 'b']) ∧
    ((¬ ∃ b e, b ≤ e ∧ e ≤ ['a', 'b'].length ∧ (zeroTable.set 1 1 true) b e = true) →
      printLine (zeroTable.set 1 1 true) ['a', 'b'] ['a', 'b'].length = .ok []) :=
  ⟨by decide, rfl, rfl,
    line_printed_iff_match (zeroTable.set 1 1 true) ['a', 'b'] (by decide)⟩

/-- C24 (the code does not do this): with the pattern `a` on the line `aa` the table is
true at `[0][1]` and `[1][2]`, the cursor rendering of the specification highlights
both characters, and the driver prints the first `a` highlighted and the second `a`
plain: after a span `[p,e)` it prints `string[e]` unhighlighted and goes on at `e + 1`. -/
theorem adjacent_match_not_highlighted :
    grepLine 5 ['a'] ['a', 'a'] =
      .ok [Out.RED, Out.chr 'a', Out.DEFAULT, Out.chr 'a', Out.chr '\n'] ∧
    ∃ t, tableOf 5 (.Literal 'a') ['a', 'a'] 2 = .ok t ∧ t 0 1 = true ∧ t 1 2 = true ∧
      printLine t ['a', 'a'] 2 =
        .ok [Out.RED, Out.chr 'a', Out.DEFAULT, Out.chr 'a', Out.chr '\n'] ∧
      specCursorRendering t ['a', 'a'] 2 3 0 ++ [Out.chr '\n'] =
        [Out.RED, Out.chr 'a', Out.DEFAULT, Out.RED, Out.chr 'a', Out.DEFAULT, Out.chr '\n'] :=
  ⟨rfl, _, rfl, rfl, rfl, rfl, rfl⟩

/-- C25: for every line (without NUL) and match table, every highlighted span `(p, e)`
of the driver's output has `table[p][e]` true and `table[p][e1]` false for every
`e < e1 ≤ length`, and of two spans the earlier one ends at or before the start of
the later one, which starts further right. -/
theorem highlighted_spans_longest_and_disjoint (table : Table) (string : List Char)
    (hnul : ∀ c, c ∈ string → c ≠ NUL) :
    ∃ out, printLine table string string.length = .ok out ∧
      (∀ s, s ∈ highlightedSpans out →
        s.1 ≤ s.2 ∧ s.2 ≤ string.length ∧ table s.1 s.2 = true ∧
          ∀ e1, s.2 < e1 → e1 ≤ string.length → table s.1 e1 = false) ∧
      (highlightedSpans out).Pairwise (fun a b => a.2 ≤ b.1 ∧ a.1 < b.1) := by
  rw [printLine_eq]
  by_cases hf : foundMatch table string.length = true
  · rw [if_pos hf]
    obtain ⟨h1, h2⟩ := spans_renderFrom table string hnul (string.length + 2) 0 (Nat.zero_le _)
    refine ⟨_, rfl, fun s hs => (h1 s hs).2, ?_⟩
    unfold highlightedSpans
    have h3 : ∀ a, a ∈ spansFrom
        (renderFrom table string string.length (string.length + 2) 0 ++ [Out.chr '\n']) 0 none →
        a.1 ≤ a.2 := fun a ha => (h1 a ha).2.1
    refine List.Pairwise.imp_of_mem ?_ h2
    intro a b ha _ hab
    have := h3 a ha
    exact ⟨by omega, by omega⟩
  · rw [if_neg hf]
    exact ⟨[], rfl, fun s hs => by simp [highlightedSpans, spansFrom] at hs,
      by simp [highlightedSpans, spansFrom]⟩

/-- Witness for C25: the table of `a` on the line `ab`. -/
theorem highlighted_spans_longest_and_disjoint_witness :
    (∀ c, c ∈ ['a', 'b'] → c ≠ NUL) ∧
    ∃ out, printLine (matchLiteralPattern 'a' ['a', 'b'] 2 zeroTable) ['a', 'b']
        ['a', 'b'].length = .ok out ∧
      (∀ s, s ∈ highlightedSpans out →
        s.1 ≤ s.2 ∧ s.2 ≤ ['a', 'b'].length ∧
          matchLiteralPattern 'a' ['a', 'b'] 2 zeroTable s.1 s.2 = true ∧
          ∀ e1, s.2 < e1 → e1 ≤ ['a', 'b'].length →
            matchLiteralPattern 'a' ['a', 'b'] 2 zeroTable s.1 e1 = false) ∧
      (highlightedSpans out).Pairwise (fun a b => a.2 ≤ b.1 ∧ a.1 < b.1) :=
  ⟨by decide, highlighted_spans_longest_and_disjoint _ ['a', 'b'] (by decide)⟩

/-- C26: for an ordinary character `c`, a line without NUL and enough fuel for the
repetition, the driver run with the pattern `c+` parses it as
`OneOrMoreCharacter (Literal c)` and prints the line exactly when the line contains
`c`; the printed line is the line with every maximal run of consecutive `c` between
one pair of highlight markers and every other character plain, then a newline. -/
theorem plus_pattern_highlights_runs (c : Char) (hc : ordinary c = true)
    (string : List Char) (hnul : ∀ x, x ∈ string → x ≠ NUL)
    (fuel : Nat) (hfuel : string.length + 1 < fuel) :
    parsePattern [c, '+'] = .ok (.OneOrMoreCharacter (.Literal c)) ∧
      grepLine fuel [c, '+'] string =
        .ok (if c ∈ string then highlightRuns c false string ++ [Out.chr '\n'] else []) := by
  refine ⟨parsePattern_plus c hc, ?_⟩
  obtain ⟨t, ht, hT⟩ := tableOf_oneOrMore_literal fuel c string string.length hfuel
  unfold grepLine
  simp only [parsePattern_plus c hc, ht]
  rw [printLine_eq]
  by_cases hmem : c ∈ string
  · rw [if_pos ((foundMatch_runs c t string hT).2 hmem), if_pos hmem,
      renderFrom_runs c t string hnul hT _ 0 (Nat.zero_le _) (by omega), List.drop_zero]
  · rw [if_neg (fun h => hmem ((foundMatch_runs c t string hT).1 h)), if_neg hmem]

/-- Witness for C26: `b+` on `abbba` prints `a`, the highlighted run `bbb`, `a`. -/
theorem plus_pattern_highlights_runs_witness :
    grepLine 7 ['b', '+'] ['a', 'b', 'b', 'b', 'a'] =
      .ok [Out.chr 'a', Out.RED, Out.chr 'b', Out.chr 'b', Out.chr 'b', Out.DEFAULT,
        Out.chr 'a', Out.chr '\n'] :=
  (plus_pattern_highlights_runs 'b' (by decide) ['a', 'b', 'b', 'b', 'a']
    (by decide) 7 (by decide)).2.trans rfl

/-- C31, counterexample: with the pattern `a*` on the line `b` the table is true at
`[0][0]` and false at `[0][1]`, and the driver prints a start marker and a stop
marker before the plain `b` (and again at the end of the line), not just `b`. -/
theorem empty_match_prints_markers :
    (∃ t, tableOf 5 (.NoneOrMoreCharacter (.Literal 'a')) ['b'] 1 = .ok t ∧
      t 0 0 = true ∧ t 0 1 = false) ∧
    grepLine 5 ['a', '*'] ['b'] =
      .ok [Out.RED, Out.DEFAULT, Out.chr 'b', Out.RED, Out.DEFAULT, Out.chr '\n'] ∧
    ¬ grepLine 5 ['a', '*'] ['b'] = .ok [Out.chr 'b', Out.chr '\n'] :=
  ⟨⟨_, rfl, rfl, rfl⟩, rfl, fun h =>
    absurd (Except.ok.inj ((rfl : grepLine 5 ['a', '*'] ['b'] =
      .ok [Out.RED, Out.DEFAULT, Out.chr 'b', Out.RED, Out.DEFAULT, Out.chr '\n']).symm.trans h))
      (by decide)⟩

/-- C31, amended: at a position `p ≤ length` where `table[p][p]` is true and
`table[p][e]` is false for every `p < e ≤ length`, the scan of `end` leaves `begin` at
`p` and prints a start marker directly followed by a stop marker, and the iteration
of the `begin` loop then prints `string[p]` plain (nothing at the terminator) and goes
on at `p + 1`. -/
theorem empty_match_gets_empty_marker_pair (table : Table) (string : List Char)
    (length fuel p : Nat) (out : List Out) (hp : p ≤ length) (hd : table p p = true)
    (hno : ∀ e, p < e → e ≤ length → table p e = false) :
    endLoop table string (length + 1) p out = (p, out ++ [Out.RED, Out.DEFAULT]) ∧
    beginLoop table string length (fuel + 1) p out =
      beginLoop table string length fuel (p + 1)
        (out ++ [Out.RED, Out.DEFAULT] ++ plainAt string p) := by
  have hl := longest_diagonal hp hd hno
  constructor
  · rw [endLoop_eq, hl]
    show (p, out ++ [Out.RED] ++ printSpan string p p ++ [Out.DEFAULT]) = _
    rw [printSpan_self]
    simp
  · rw [beginLoop_succ table string length fuel p out hp]
    unfold lineStep
    rw [hl]
    show beginLoop table string length fuel (p + 1)
      (out ++ ([Out.RED] ++ printSpan string p p ++ [Out.DEFAULT] ++ plainAt string p)) = _
    rw [printSpan_self]
    simp

/-- Witness for C31: the table with only `[0][0]` true, on the line `b`. -/
theorem empty_match_gets_empty_marker_pair_witness :
    endLoop (zeroTable.set 0 0 true) ['b'] (1 + 1) 0 [] = (0, [] ++ [Out.RED, Out.DEFAULT]) ∧
    beginLoop (zeroTable.set 0 0 true) ['b'] 1 (1 + 1) 0 [] =
      beginLoop (zeroTable.set 0 0 true) ['b'] 1 1 (0 + 1)
        ([] ++ [Out.RED, Out.DEFAULT] ++ plainAt ['b'] 0) :=
  empty_match_gets_empty_marker_pair (zeroTable.set 0 0 true) ['b'] 1 1 0 [] (by decide) rfl
    (fun e h1 h2 => by
      have : e = 1 := by omega
      subst this
      rfl)

/-- C32: whenever matching a pattern on a zero-initialised table returns, every entry
`table[b][e]` with `b > e` is false (and so is every entry with `e > len`). -/
theorem no_entry_below_diagonal (fuel : Nat) (p : Pattern) (str : List Char) (len : Nat)
    (t : Table) (h : tableOf fuel p str len = .ok t) :
    (∀ b e, e < b → t b e = false) ∧ (∀ b e, len < e → t b e = false) := by
  have hup := tableOf_upper h
  constructor
  · intro b e hbe
    cases hv : t b e with
    | false => rfl
    | true => have := hup b e hv; omega
  · intro b e hbe
    cases hv : t b e with
    | false => rfl
    | true => have := hup b e hv; omega

/-- Witness for C32: the table of `(a|b)*` on the line `ab`. -/
theorem no_entry_below_diagonal_witness :
    ∃ t, tableOf 5 (.NoneOrMoreCharacter (.Alternation (.Literal 'a') (.Literal 'b')))
        ['a', 'b'] 2 = .ok t ∧
      (∀ b e, e < b → t b e = false) ∧ (∀ b e, 2 < e → t b e = false) :=
  ⟨_, rfl, no_entry_below_diagonal 5
    (.NoneOrMoreCharacter (.Alternation (.Literal 'a') (.Literal 'b'))) ['a', 'b'] 2 _ rfl⟩

/-- C33: for a pattern built only from `Literal`, `AnyCharacter`, `CharacterClass`,
`Concatenation`, `Alternation` and `OneOrMoreCharacter`, every text and length `len`
(with fuel above `len + 1`), matching returns a table and every diagonal entry
`table[i][i]` is false. -/
theorem no_empty_match_without_anchor_or_optional (fuel : Nat) (p : Pattern)
    (str : List Char) (len : Nat) (hfuel : len + 1 < fuel) (hp : nonEmptyOnly p = true) :
    ∃ t, tableOf fuel p str len = .ok t ∧ ∀ i, t i i = false := by
  obtain ⟨t, ht, hd⟩ := tableOf_nonEmptyOnly fuel str len hfuel p hp
  refine ⟨t, ht, fun i => ?_⟩
  by_cases hi : i ≤ len
  · exact hd i hi
  · cases hv : t i i with
    | false => rfl
    | true => have := tableOf_upper ht i i hv; omega

/-- Witness for C33: the pattern `(a|.)+[bc]` on the line `ab`. -/
theorem no_empty_match_without_anchor_or_optional_witness :
    ∃ t, tableOf 4
        (.Concatenation (.OneOrMoreCharacter (.Alternation (.Literal 'a') .AnyCharacter))
          (.CharacterClass ['b', 'c'])) ['a', 'b'] 2 = .ok t ∧ ∀ i, t i i = false :=
  no_empty_match_without_anchor_or_optional 4 _ ['a', 'b'] 2 (by decide) rfl

/-- C34: concatenation is associative on match tables: for all patterns `P`, `Q`, `R`
and every text, matching `(P Q) R` and `P (Q R)` give the same result; when the
tables of `P`, `Q` and `R` exist, it is the table that is true at `[b][e]` exactly
when `P`, `Q`, `R` match three consecutive pieces of `[b,e)`. -/
theorem concatenation_associative (fuel : Nat) (P Q R : Pattern) (str : List Char)
    (len : Nat) :
    tableOf fuel (.Concatenation (.Concatenation P Q) R) str len =
      tableOf fuel (.Concatenation P (.Concatenation Q R)) str len ∧
    ∀ tP tQ tR, tableOf fuel P str len = .ok tP → tableOf fuel Q str len = .ok tQ →
      tableOf fuel R str len = .ok tR →
      ∃ t, tableOf fuel (.Concatenation (.Concatenation P Q) R) str len = .ok t ∧
        tableOf fuel (.Concatenation P (.Concatenation Q R)) str len = .ok t ∧
        ∀ b e, t b e = true ↔ ∃ j k, tP b j = true ∧ tQ j k = true ∧ tR k e = true := by
  refine ⟨tableOf_concatenation_assoc fuel P Q R str len, fun tP tQ tR hP hQ hR => ?_⟩
  obtain ⟨tQR, hQR, iQR⟩ := tableOf_concatenation_iff hQ hR
  obtain ⟨t, ht, it⟩ := tableOf_concatenation_iff hP hQR
  refine ⟨t, by rw [tableOf_concatenation_assoc, ht], ht, fun b e => ?_⟩
  rw [it]
  constructor
  · rintro ⟨j, h1, h2⟩
    obtain ⟨k, h3, h4⟩ := (iQR j e).1 h2
    exact ⟨j, k, h1, h3, h4⟩
  · rintro ⟨j, k, h1, h3, h4⟩
    exact ⟨j, h1, (iQR j e).2 ⟨k, h3, h4⟩⟩

/-- Witness for C34: the patterns `a`, `b*`, `c` on the line `abc`. -/
theorem concatenation_associative_witness :
    ∃ t, tableOf 5 (.Concatenation (.Concatenation (.Literal 'a')
          (.NoneOrMoreCharacter (.Literal 'b'))) (.Literal 'c')) ['a', 'b', 'c'] 3 = .ok t ∧
      tableOf 5 (.Concatenation (.Literal 'a') (.Concatenation
          (.NoneOrMoreCharacter (.Literal 'b')) (.Literal 'c'))) ['a', 'b', 'c'] 3 = .ok t ∧
      t 0 3 = true :=
  match (concatenation_associative 5 (.Literal 'a') (.NoneOrMoreCharacter (.Literal 'b'))
      (.Literal 'c') ['a', 'b', 'c'] 3).2 _ _ _ rfl rfl rfl with
  | ⟨t, h1, h2, h3⟩ => ⟨t, h1, h2, (h3 0 3).2 ⟨1, 2, rfl, rfl, rfl⟩⟩

/-- C36: when the pattern string `s` (without NUL) parses to the tree `P`, the string
`(` `s` `)` parses too, to the same tree `P`: parentheses create no node. -/
theorem parentheses_create_no_node (s : List Char) (pat : Pattern)
    (hnul : ∀ c, c ∈ s → c ≠ NUL) (h : parsePattern s = .ok pat) :
    parsePattern (['('] ++ s ++ [')']) = .ok pat :=
  parsePattern_parenthesised s pat hnul h

/-- Witness for C36: the pattern `a|b*` and the pattern `(a|b*)`. -/
theorem parentheses_create_no_node_witness :
    (∀ c, c ∈ ['a', '|', 'b', '*'] → c ≠ NUL) ∧
    parsePattern ['a', '|', 'b', '*'] =
      .ok (.Alternation (.Literal 'a') (.NoneOrMoreCharacter (.Literal 'b'))) ∧
    parsePattern (['('] ++ ['a', '|', 'b', '*'] ++ [')']) =
      .ok (.Alternation (.Literal 'a') (.NoneOrMoreCharacter (.Literal 'b'))) :=
  ⟨by decide, rfl, parentheses_create_no_node ['a', '|', 'b', '*'] _ (by decide) rfl⟩

/-- C37: `parsePattern` is total: on every string it returns a tree or fails with
`InvalidPattern` (the fuel never runs out), and a tree is returned only when
`parseAlternation` has stopped at the terminator, which for a string without NUL is
the end of the string.  Every call of `parseAlternation`, `parseConcatenation`,
`parseRepetition` and `parseAtomicPattern` made inside the string with the fuel of
such a run either fails with `InvalidPattern` or moves the position forward by at
least one character, never beyond the end of the string. -/
theorem parsePattern_total (str : List Char) :
    (parsePattern str = .error .InvalidPattern ∨
      ∃ pat pos, parsePattern str = .ok pat ∧
        parseAlternation (str.length + 2) str 0 = .ok (pat, pos) ∧
        0 < pos ∧ pos ≤ str.length ∧ charAt str pos = NUL ∧
        ((∀ c, c ∈ str → c ≠ NUL) → pos = str.length)) ∧
    (∀ fuel pos, pos ≤ str.length → str.length + 2 ≤ fuel + pos →
      (parseAlternation (fuel + 1) str pos = .error .InvalidPattern ∨
        ∃ p q, parseAlternation (fuel + 1) str pos = .ok (p, q) ∧ pos < q ∧ q ≤ str.length) ∧
      (parseConcatenation (parseAlternation fuel str) (fuel + 1) str pos =
          .error .InvalidPattern ∨
        ∃ p q, parseConcatenation (parseAlternation fuel str) (fuel + 1) str pos = .ok (p, q) ∧
          pos < q ∧ q ≤ str.length) ∧
      (parseRepetition (parseAlternation fuel str) (fuel + 1) str pos =
          .error .InvalidPattern ∨
        ∃ p q, parseRepetition (parseAlternation fuel str) (fuel + 1) str pos = .ok (p, q) ∧
          pos < q ∧ q ≤ str.length) ∧
      (parseAtomicPattern (parseAlternation fuel str) (fuel + 1) str pos =
          .error .InvalidPattern ∨
        ∃ p q, parseAtomicPattern (parseAlternation fuel str) (fuel + 1) str pos = .ok (p, q) ∧
          pos < q ∧ q ≤ str.length)) := by
  have hgood : ∀ (pos : Nat) (r : Parsed), GoodParse str pos r →
      (r = .error .InvalidPattern ∨ ∃ p q, r = .ok (p, q) ∧ pos < q ∧ q ≤ str.length) := by
    intro pos r hr
    cases r with
    | error f =>
      have hf : f = .InvalidPattern := hr
      exact Or.inl (by rw [hf])
    | ok pq =>
      obtain ⟨p, q⟩ := pq
      obtain ⟨h1, h2, _⟩ := hr
      exact Or.inr ⟨p, q, rfl, h1, h2⟩
  constructor
  · cases hp : parsePattern str with
    | error f =>
      rcases parsePattern_good str with he | ⟨pat, _, h1, _⟩
      · rw [hp] at he; exact Or.inl he
      · rw [hp] at h1; exact absurd h1 (by simp)
    | ok pat =>
      obtain ⟨pos, ha, hend⟩ := parsePattern_ok_inv hp
      have hg := parseAlternation_good str (str.length + 2) 0 (Nat.zero_le _) (by omega)
      rw [ha] at hg
      obtain ⟨g1, g2, _⟩ := hg
      refine Or.inr ⟨pat, pos, rfl, ha, g1, g2, hend, fun hnul => ?_⟩
      rcases Nat.eq_or_lt_of_le g2 with h3 | h3
      · exact h3
      · rw [charAt_of_lt h3] at hend
        exact absurd hend (hnul _ (List.getElem_mem h3))
  · intro fuel pos h1 h2
    have halt : ∀ q, pos < q → q ≤ str.length → GoodParse str q (parseAlternation fuel str q) :=
      fun q hq1 hq2 => parseAlternation_good str fuel q hq2 (by omega)
    exact ⟨hgood pos _ (parseAlternation_good str (fuel + 1) pos h1 (by omega)),
      hgood pos _ (parseConcatenation_good _ (fuel + 1) str pos halt (by omega)),
      hgood pos _ (parseRepetition_good _ (fuel + 1) str pos halt (by omega)),
      hgood pos _ (parseAtomicPattern_good _ (fuel + 1) str pos halt (by omega))⟩

/-- C39: for every line (without NUL) and every match table with a match, the driver
prints an output that, with the start and stop markers deleted, is exactly the line
followed by one newline. -/
theorem highlighting_keeps_the_text (table : Table) (string : List Char)
    (hnul : ∀ c, c ∈ string → c ≠ NUL) (hf : foundMatch table string.length = true) :
    ∃ out, printLine table string string.length = .ok out ∧
      textOf out = string ++ ['\n'] := by
  rw [printLine_eq, if_pos hf]
  refine ⟨_, rfl, ?_⟩
  rw [textOf_append, textOf_renderFrom table string hnul _ 0 (by omega)]
  rfl

/-- Witness for C39: the table of `b` on the line `abc`. -/
theorem highlighting_keeps_the_text_witness :
    printLine (matchLiteralPattern 'b' ['a', 'b', 'c'] 3 zeroTable) ['a', 'b', 'c'] 3 =
        .ok [Out.chr 'a', Out.RED, Out.chr 'b', Out.DEFAULT, Out.chr 'c', Out.chr '\n'] ∧
    ∃ out, printLine (matchLiteralPattern 'b' ['a', 'b', 'c'] 3 zeroTable) ['a', 'b', 'c']
        ['a', 'b', 'c'].length = .ok out ∧ textOf out = ['a', 'b', 'c'] ++ ['\n'] :=
  ⟨rfl, highlighting_keeps_the_text (matchLiteralPattern 'b' ['a', 'b', 'c'] 3 zeroTable)
    ['a', 'b', 'c'] (by decide) rfl⟩

/-- C38: soundness for the standard semantics.  For a text whose first `len` characters
are not NUL, fuel above `len + 1` and a pattern tree in which no `NoneOrMoreCharacter`
or `OneOrMoreCharacter` has an inner pattern whose table has a true diagonal entry,
matching returns a table, and wherever `table[b][e]` is true the piece `[b,e)` of the
text matches the pattern in the usual sense. -/
theorem matcher_sound (fuel : Nat) (str : List Char) (len : Nat)
    (hstr : ∀ i, i < len → charAt str i ≠ NUL) (hfuel : len + 1 < fuel) (p : Pattern)
    (hp : Tame fuel str len p) :
    ∃ t, tableOf fuel p str len = .ok t ∧
      ∀ b e, t b e = true → b ≤ e ∧ e ≤ len ∧ Matches str len p b e := by
  obtain ⟨t, ht, hs⟩ := tableOf_sound fuel str len hstr hfuel p hp
  exact ⟨t, ht, fun b e h => ⟨(tableOf_upper ht b e h).1, (tableOf_upper ht b e h).2, hs b e h⟩⟩

/-- Witness for C38: the pattern `(a|b)*c?` on the line `abc`. -/
theorem matcher_sound_witness :
    ∃ t, tableOf 5 (.Concatenation
          (.NoneOrMoreCharacter (.Alternation (.Literal 'a') (.Literal 'b')))
          (.NoneOrOneCharacter (.Literal 'c'))) ['a', 'b', 'c'] 3 = .ok t ∧
      ∀ b e, t b e = true → b ≤ e ∧ e ≤ 3 ∧
        Matches ['a', 'b', 'c'] 3 (.Concatenation
          (.NoneOrMoreCharacter (.Alternation (.Literal 'a') (.Literal 'b')))
          (.NoneOrOneCharacter (.Literal 'c'))) b e :=
  matcher_sound 5 ['a', 'b', 'c'] 3
    (fun i hi => by
      have h : i = 0 ∨ i = 1 ∨ i = 2 := by omega
      rcases h with rfl | rfl | rfl <;> decide)
    (by decide) _
    ⟨⟨⟨trivial, trivial⟩, fun t ht =>
      match tableOf_nonEmptyOnly 5 ['a', 'b', 'c'] 3 (by decide)
        (.Alternation (.Literal 'a') (.Literal 'b')) rfl with
      | ⟨_, h1, h2⟩ => (Except.ok.inj (h1.symm.trans ht)) ▸ h2⟩, trivial⟩

/-- C35 (the code does not do this): a line of exactly 100 characters that ends with a
newline is refused with `Input line too long`, like every line of 100 characters other
than newline and NUL followed by a newline; a non-empty line of fewer than 100 such
characters is accepted.  The first line here is 100 times `x`, the second 99 times. -/
theorem line_of_100_characters_refused :
    readLine (List.replicate 100 'x' ++ ['\n', 'y', '\n']) = .tooLong ∧
    readLine (List.replicate 99 'x' ++ ['\n', 'y', '\n']) =
      .line (List.replicate 99 'x') ['y', '\n'] ∧
    (∀ s rest : List Char, s.length = 100 → (∀ c, c ∈ s → c ≠ '\n') →
      (∀ c, c ∈ s → c ≠ NUL) → readLine (s ++ '\n' :: rest) = .tooLong) ∧
    (∀ s rest : List Char, s.length < 100 → s ≠ [] → (∀ c, c ∈ s → c ≠ '\n') →
      (∀ c, c ∈ s → c ≠ NUL) → readLine (s ++ '\n' :: rest) = .line s rest) := by
  refine ⟨by decide, by decide, fun s rest h1 h2 h3 => ?_, fun s rest h1 h0 h2 h3 => ?_⟩
  · have hne : s ≠ [] := by
      intro h; rw [h] at h1; simp at h1
    rw [readLine_line s rest (by rw [h1]; decide) hne h2 h3, if_pos (by rw [h1]; rfl)]
  · rw [readLine_line s rest (by unfold MAX_LINE_LENGTH; omega) h0 h2 h3,
      if_neg (by unfold MAX_LINE_LENGTH; omega)]

end Ugrep

namespace Sudoku

/-! ## The claims on the sudoku program -/

/-- C27: for every size (so for every size at least 1) and every grid of integers,
`validateRows` returns true exactly when every row contains each digit `1 .. size`
exactly once. -/
theorem validateRows_iff_rows_complete (size : Nat) (grid : Grid) :
    validateRows size grid = true ↔ RowsComplete size grid := by
  rw [validateRows_iff_exists]
  constructor
  · intro h r hr
    exact existsUnique_of_exists size (grid r) (h r hr)
  · intro h r hr d h1 h2
    exact (h r hr d h1 h2).exists

/-- C28, as the code behaves: on the 4 x 4 puzzle with rows `0 0 1 3`, `1 3 4 2`,
`3 0 2 0`, `0 1 3 0` (entries in `0 .. 4`, accepted by the three `WithSpaces` validators)
`solve` returns true and leaves the rows `2 5 1 3`, `1 3 4 2`, `3 5 2 1`, `5 1 3 4`:
three cells hold 5, outside `1 .. 4`, and `validateRows` rejects the grid. -/
theorem solve_true_with_cell_above_size :
    validateRowsWithSpaces 4 (gridOf [[0, 0, 1, 3], [1, 3, 4, 2], [3, 0, 2, 0], [0, 1, 3, 0]])
        = true ∧
      validateColsWithSpaces 4 (gridOf [[0, 0, 1, 3], [1, 3, 4, 2], [3, 0, 2, 0], [0, 1, 3, 0]])
        = true ∧
      validateSquaresWithSpaces 2 4
        (gridOf [[0, 0, 1, 3], [1, 3, 4, 2], [3, 0, 2, 0], [0, 1, 3, 0]]) = true ∧
      solveRows 64 2 4 [[0, 0, 1, 3], [1, 3, 4, 2], [3, 0, 2, 0], [0, 1, 3, 0]] =
        .ok (true, [[2, 5, 1, 3], [1, 3, 4, 2], [3, 5, 2, 1], [5, 1, 3, 4]]) ∧
      validateRows 4 (gridOf [[2, 5, 1, 3], [1, 3, 4, 2], [3, 5, 2, 1], [5, 1, 3, 4]]) = false :=
  ⟨rfl, rfl, rfl, rfl, rfl⟩

/-- C29, as the code behaves: the 4 x 4 puzzle with rows `2 0 0 3`, `1 3 2 0`, `3 2 1 0`,
`4 1 3 2` (entries in `0 .. 4`, accepted by the three `WithSpaces` validators) cannot be
solved, since both blank cells of the first row would have to hold 4, and yet `solve`
returns true, leaving the rows `2 5 5 3`, `1 3 2 5`, `3 2 1 4`, `4 1 3 2`. -/
theorem solve_true_on_unsolvable_puzzle :
    validateRowsWithSpaces 4 (gridOf [[2, 0, 0, 3], [1, 3, 2, 0], [3, 2, 1, 0], [4, 1, 3, 2]])
        = true ∧
      validateColsWithSpaces 4 (gridOf [[2, 0, 0, 3], [1, 3, 2, 0], [3, 2, 1, 0], [4, 1, 3, 2]])
        = true ∧
      validateSquaresWithSpaces 2 4
        (gridOf [[2, 0, 0, 3], [1, 3, 2, 0], [3, 2, 1, 0], [4, 1, 3, 2]]) = true ∧
      solveRows 64 2 4 [[2, 0, 0, 3], [1, 3, 2, 0], [3, 2, 1, 0], [4, 1, 3, 2]] =
        .ok (true, [[2, 5, 5, 3], [1, 3, 2, 5], [3, 2, 1, 4], [4, 1, 3, 2]]) ∧
      ¬ Solvable 2 4 (gridOf [[2, 0, 0, 3], [1, 3, 2, 0], [3, 2, 1, 0], [4, 1, 3, 2]]) := by
  refine ⟨rfl, rfl, rfl, rfl, ?_⟩
  rintro ⟨g, hag, _, hrows, hcols, _⟩
  have a1 : g 1 1 = 3 := hag 1 1 (by decide) (by decide) (by decide)
  have a2 : g 2 1 = 2 := hag 2 1 (by decide) (by decide) (by decide)
  have a3 : g 3 1 = 1 := hag 3 1 (by decide) (by decide) (by decide)
  have b1 : g 1 2 = 2 := hag 1 2 (by decide) (by decide) (by decide)
  have b2 : g 2 2 = 1 := hag 2 2 (by decide) (by decide) (by decide)
  have b3 : g 3 2 = 3 := hag 3 2 (by decide) (by decide) (by decide)
  have c1 : g 0 1 = 4 := by
    obtain ⟨r, ⟨hr, hv⟩, _⟩ := hcols 1 (by decide) 4 (by decide) (by decide)
    interval_cases r
    · exact hv
    · rw [a1] at hv; exact absurd hv (by decide)
    · rw [a2] at hv; exact absurd hv (by decide)
    · rw [a3] at hv; exact absurd hv (by decide)
  have c2 : g 0 2 = 4 := by
    obtain ⟨r, ⟨hr, hv⟩, _⟩ := hcols 2 (by decide) 4 (by decide) (by decide)
    interval_cases r
    · exact hv
    · rw [b1] at hv; exact absurd hv (by decide)
    · rw [b2] at hv; exact absurd hv (by decide)
    · rw [b3] at hv; exact absurd hv (by decide)
  have := (hrows 0 (by decide) 4 (by decide) (by decide)).unique
    ⟨(by decide : 1 < 4), c1⟩ ⟨(by decide : 2 < 4), c2⟩
  exact absurd this (by decide)

end Sudoku

namespace Bits

/-! ## The claims on the bit functions -/

/-- C40: for every byte `ch`, every bit index `n` below 8 and every boolean `v`, the
byte `putBit ch n v` has the value `v` at bit `n` and the bits of `ch` at every other
index below 8, and putting back the bit read at `n` returns `ch`. -/
theorem getBit_putBit (ch n : Nat) (v : Bool) (hch : ch < 256) (hn : n < 8) :
    putBit ch n v < 256 ∧ getBit (putBit ch n v) n = v ∧
      (∀ m, m < 8 → m ≠ n → getBit (putBit ch n v) m = getBit ch m) ∧
      putBit ch n (getBit ch n) = ch :=
  bits_table ch hch n hn v

/-- Witness for C40: clearing bit 2 of the byte 0x6C gives 0x68. -/
theorem getBit_putBit_witness :
    putBit 108 2 false = 104 ∧
    (putBit 108 2 false < 256 ∧ getBit (putBit 108 2 false) 2 = false ∧
      (∀ m, m < 8 → m ≠ 2 → getBit (putBit 108 2 false) m = getBit 108 m) ∧
      putBit 108 2 (getBit 108 2) = 108) :=
  ⟨rfl, getBit_putBit 108 2 false (by decide) (by decide)⟩

end Bits
